import Mathlib

/-!
# The scull sparse byte store (`src/scull/scull.c`, `src/scull/scull.h`)

A shallow embedding of the scull character device: the chain of quantum sets,
the addressing arithmetic of `scull_read` / `scull_write` with the widths of
the C types made explicit, `scull_follow`, `scull_trim` and `scull_open`.

Conventions of the embedding.

* The singly linked list `dev->data -> next -> ...` is a `List scull_qset`; a
  pointer to a node is the node's position in that list.
* The data model is LP64: `int` is `Int` reduced by `wrap32`,
  `loff_t`/`ssize_t`/`long` is `Int` reduced by `wrap64`,
  `size_t`/`unsigned long` is `Nat` reduced by `u64`, a pointer is 8 bytes
  (the kernel is built with wrapping signed arithmetic).  A comparison or sum
  of a `loff_t` and a `size_t` is made in 64-bit unsigned arithmetic.
* `kmalloc` does not clear memory: the words found in a fresh block are an
  input (`Kernel.slots`, `Kernel.quantum`).  A word that is not zero and was
  never assigned by the driver is a `QuantumPtr.wild` pointer.
* `copy_to_user` and `copy_from_user` fail exactly when the user buffer is
  shorter than the number of bytes to copy.
* An execution that the C language leaves undefined (division by zero, an
  access outside an allocated block, a copy through or a `kfree` of a wild
  pointer) yields `none`.
* The mutex `dev->mu` is the field `mu` (held or free).  The order in which
  one call operates on the mutex and accesses the shared fields is kept
  separately, as a sequence of operations (`scull_read_events`,
  `scull_write_events`).
-/

namespace Scull

/-! ## Machine integers -/

/-- Reduction to a signed 32-bit `int` (two's complement). -/
def wrap32 (x : Int) : Int := (x + 2 ^ 31) % 2 ^ 32 - 2 ^ 31

/-- Reduction to a signed 64-bit `long` / `loff_t` / `ssize_t`. -/
def wrap64 (x : Int) : Int := (x + 2 ^ 63) % 2 ^ 64 - 2 ^ 63

/-- Conversion to `unsigned long` / `size_t` (64 bits). -/
def u64 (x : Int) : Nat := (x % 2 ^ 64).toNat

/-- Error numbers of `<linux/errno.h>` used by the driver. -/
def ERESTARTSYS : Int := 512
def ENOMEM : Int := 12
def EFAULT : Int := 14

/-- Access-mode bits of `f_flags`. -/
def O_ACCMODE : Nat := 3
def O_RDONLY : Nat := 0
def O_WRONLY : Nat := 1
def O_RDWR : Nat := 2

/-- Module-wide defaults, `int scull_quantum = 4000; int scull_qset = 1000;`
(in C the variable `scull_qset` and the tag `struct scull_qset` live in
different name spaces; here the variables are under `Module`). -/
def Module.scull_quantum : Int := 4000
def Module.scull_qset : Int := 1000

/-! ## Data model (`scull.h`) -/

/-- One element of the array `void **data` of a quantum set: a null pointer, a
quantum allocated by the driver together with its bytes, or a non-null word
left in the block by `kmalloc` that the driver never assigned. -/
inductive QuantumPtr where
  | null
  | buf (bytes : List Nat)
  | wild (addr : Nat)
deriving DecidableEq, Repr

/-- The node `struct scull_qset`; the field `next` is the tail of the list in
which the node sits, `data = none` is the null pointer. -/
structure scull_qset where
  data : Option (List QuantumPtr)
deriving DecidableEq, Repr

/-- The device `struct scull_dev` (`access_key` and `cdev` are not used by the
operations modelled here).  `mu = true` means the mutex is held. -/
structure scull_dev where
  data : List scull_qset
  quantum : Int
  qset : Int
  size : Nat
  mu : Bool
deriving DecidableEq, Repr

/-- What the kernel contributes to one call: whether
`mutex_lock_interruptible` is interrupted, how many
`kmalloc(sizeof(struct scull_qset))` succeed, and the outcome of
`kmalloc(qset * sizeof(char *))` and of `kmalloc(quantum)` (`none` is a failed
allocation, `some ws` a block whose uninitialised contents are `ws`, missing
words read as zero). -/
structure Kernel where
  intr : Bool
  nodes : Nat
  slots : Option (List Nat)
  quantum : Option (List Nat)
deriving DecidableEq, Repr

/-- Result of `scull_read`: return value, device, `*f_pos` and the bytes that
reached the user buffer. -/
structure ReadRet where
  retval : Int
  dev : scull_dev
  f_pos : Int
  out : List Nat
deriving DecidableEq, Repr

/-- Result of `scull_write`: return value, device and `*f_pos`. -/
structure WriteRet where
  retval : Int
  dev : scull_dev
  f_pos : Int
deriving DecidableEq, Repr

/-- A device as `scull_init_module` leaves it: zeroed by `memset`, then
`quantum` and `qset` set from the module defaults, mutex initialised. -/
def scull_init_dev : scull_dev :=
  { data := [], quantum := Module.scull_quantum, qset := Module.scull_qset, size := 0, mu := false }

/-! ## Allocation -/

/-- The pointer denoted by one word of an uninitialised block. -/
def ofWord (w : Nat) : QuantumPtr := if w = 0 then .null else .wild w

/-- The array obtained in `scull_write` by
`kmalloc(qset * sizeof(char *))` followed by
`memset(dptr->data, 0, sizeof(qset * sizeof(char *)))`: the block has
`qset` pointers, and the `memset` clears `sizeof(size_t)` bytes, that is
exactly the first pointer. -/
def fresh_slots (qset : Int) (ws : List Nat) : List QuantumPtr :=
  ((List.range (u64 (qset * 8) / 8)).map (fun i => ofWord (ws.getD i 0))).set 0 .null

/-- The block obtained by `kmalloc(quantum)`: `quantum` bytes, not cleared. -/
def fresh_quantum (quantum : Int) (ws : List Nat) : List Nat :=
  (List.range (u64 quantum)).map (fun i => ws.getD i 0)

/-! ## `scull_follow` -/

/-- The loop `while (n--) { ... qs = qs->next; }` of `scull_follow`: `n`
iterations remain, `qs` is the position of the current node, `alloc` node
allocations can still succeed.  Returns the chain and the node reached
(`none` for the `NULL` returned after a failed allocation). -/
def follow_walk : Nat → Nat → Nat → List scull_qset → List scull_qset × Option Nat
  | 0, qs, _, chain => (chain, some qs)
  | n + 1, qs, alloc, chain =>
    if qs + 1 < chain.length then follow_walk n (qs + 1) alloc chain
    else
      match alloc with
      | 0 => (chain, none)
      | a + 1 => follow_walk n (qs + 1) a (chain ++ [⟨none⟩])

/-- The function `scull_follow(dev, n)`.  A negative `n` makes `while (n--)`
count down through the wrap-around, `n mod 2^32` iterations in all. -/
def scull_follow (k : Kernel) (dev : scull_dev) (n : Int) : scull_dev × Option Nat :=
  match dev.data, k.nodes with
  | [], 0 => (dev, none)
  | [], a + 1 =>
    let r := follow_walk (n % 2 ^ 32).toNat 0 a [⟨none⟩]
    ({ dev with data := r.1 }, r.2)
  | c :: cs, a =>
    let r := follow_walk (n % 2 ^ 32).toNat 0 a (c :: cs)
    ({ dev with data := r.1 }, r.2)

/-! ## Addressing

The four assignments shared by `scull_read` and `scull_write`:
`itemsize = quantum * qset; item = (long)*f_pos / itemsize;`
`rest = (long)*f_pos % itemsize; s_pos = rest / quantum; q_pos = rest % quantum;`
with `/` and `%` of C (truncation toward zero) and every result stored in an
`int`. -/

/-- The value of `int itemsize = quantum * qset`. -/
def itemsize (dev : scull_dev) : Int := wrap32 (dev.quantum * dev.qset)

/-- The value of `item = (long)*f_pos / itemsize`, stored in an `int`. -/
def pos_item (dev : scull_dev) (f_pos : Int) : Int := wrap32 (Int.tdiv f_pos (itemsize dev))

/-- The value of `rest = (long)*f_pos % itemsize`. -/
def pos_rest (dev : scull_dev) (f_pos : Int) : Int := Int.tmod f_pos (itemsize dev)

/-- The value of `s_pos = rest / quantum`. -/
def pos_s (dev : scull_dev) (f_pos : Int) : Int := Int.tdiv (pos_rest dev f_pos) dev.quantum

/-- The value of `q_pos = rest % quantum`. -/
def pos_q (dev : scull_dev) (f_pos : Int) : Int := Int.tmod (pos_rest dev f_pos) dev.quantum

/-- The operands for which `(long)*f_pos / itemsize` has no value: a zero
divisor, or `LONG_MIN / -1`. -/
def div_undefined (dev : scull_dev) (f_pos : Int) : Prop :=
  itemsize dev = 0 ∨ (f_pos = -2 ^ 63 ∧ itemsize dev = -1)

instance (dev : scull_dev) (f_pos : Int) : Decidable (div_undefined dev f_pos) := by
  unfold div_undefined; infer_instance

/-! ## `scull_read` -/

/-- The element `dptr->data[s_pos]`; `none` when the index is outside the
array. -/
def slot_at (slots : List QuantumPtr) (s_pos : Int) : Option QuantumPtr :=
  if s_pos < 0 then none else slots[s_pos.toNat]?

/-- The clamp `if (count > quantum - q_pos) count = quantum - q_pos;`, the
`int` on the right converted to `size_t` for the comparison. -/
def clamp_quantum (count : Nat) (quantum q_pos : Int) : Nat :=
  if count > u64 (wrap32 (quantum - q_pos)) then u64 (wrap32 (quantum - q_pos)) else count

/-- The function `scull_read(filp, buf, count, f_pos)`; `cap` is the number of
writable bytes of the user buffer `buf`, so `copy_to_user` succeeds exactly
when the final `count` is at most `cap`. -/
def scull_read (k : Kernel) (dev : scull_dev) (cap count : Nat) (f_pos : Int) :
    Option ReadRet :=
  if k.intr then some ⟨-ERESTARTSYS, dev, f_pos, []⟩
  else
    if u64 f_pos ≥ dev.size then some ⟨0, { dev with mu := false }, f_pos, []⟩
    else
      let count := if u64 (f_pos + count) > dev.size then u64 (dev.size - f_pos) else count
      if div_undefined dev f_pos then none
      else
        let s_pos := pos_s dev f_pos
        let q_pos := pos_q dev f_pos
        let r := scull_follow k dev (pos_item dev f_pos)
        match r.2 with
        | none => some ⟨0, { r.1 with mu := false }, f_pos, []⟩
        | some i =>
          match r.1.data[i]? with
          | none => none
          | some seg =>
            match seg.data with
            | none => some ⟨0, { r.1 with mu := false }, f_pos, []⟩
            | some slots =>
              match slot_at slots s_pos with
              | none => none
              | some .null => some ⟨0, { r.1 with mu := false }, f_pos, []⟩
              | some (.wild _) => none
              | some (.buf bytes) =>
                let count := clamp_quantum count dev.quantum q_pos
                if q_pos < 0 ∨ q_pos.toNat + count > bytes.length then none
                else if count > cap then
                  some ⟨-EFAULT, { r.1 with mu := false }, f_pos,
                    (bytes.drop q_pos.toNat).take cap⟩
                else
                  some ⟨wrap64 count, { r.1 with mu := false }, wrap64 (f_pos + count),
                    (bytes.drop q_pos.toNat).take count⟩

/-! ## `scull_write` -/

/-- The bytes of a quantum after `copy_from_user(q + q_pos, buf, count)` where
the user memory `buf` is readable over `buf.length` bytes: the readable bytes
are copied, and the kernel zero-fills what it could not copy. -/
def copy_in (bytes : List Nat) (q_pos : Nat) (buf : List Nat) (count : Nat) : List Nat :=
  bytes.take q_pos ++ ((buf.take count) ++ List.replicate (count - buf.length) 0)
    ++ bytes.drop (q_pos + count)

/-- The tail of `scull_write` from the clamp on, once `dptr->data[s_pos]` is a
quantum with contents `bytes`; `dev` already has the lock taken and `i`,
`slots` are the node and its array. -/
def write_copy (dev : scull_dev) (i : Nat) (slots : List QuantumPtr) (s_pos q_pos : Int)
    (bytes buf : List Nat) (count : Nat) (f_pos : Int) : Option WriteRet :=
  let count := clamp_quantum count dev.quantum q_pos
  if q_pos < 0 ∨ q_pos.toNat + count > bytes.length then none
  else
    let slots1 := slots.set s_pos.toNat (.buf (copy_in bytes q_pos.toNat buf count))
    let data1 := dev.data.set i ⟨some slots1⟩
    if count > buf.length then
      some ⟨-EFAULT, { dev with data := data1, mu := false }, f_pos⟩
    else
      let f_pos1 := wrap64 (f_pos + count)
      let size1 := if dev.size < u64 f_pos1 then u64 f_pos1 else dev.size
      some ⟨wrap64 count, { dev with data := data1, size := size1, mu := false }, f_pos1⟩

/-- The function `scull_write(filp, buf, count, f_pos)`; `buf` is the readable
user memory, so `copy_from_user` succeeds exactly when the final `count` is at
most `buf.length`. -/
def scull_write (k : Kernel) (dev : scull_dev) (buf : List Nat) (count : Nat) (f_pos : Int) :
    Option WriteRet :=
  if k.intr then some ⟨-ERESTARTSYS, dev, f_pos⟩
  else if div_undefined dev f_pos then none
  else
    let s_pos := pos_s dev f_pos
    let q_pos := pos_q dev f_pos
    let r := scull_follow k dev (pos_item dev f_pos)
    match r.2 with
    | none => some ⟨-ENOMEM, { r.1 with mu := false }, f_pos⟩
    | some i =>
      match r.1.data[i]? with
      | none => none
      | some seg =>
        let arr : Option (List QuantumPtr) :=
          match seg.data with
          | some slots => some slots
          | none => k.slots.map (fresh_slots dev.qset)
        match arr with
        | none => some ⟨-ENOMEM, { r.1 with mu := false }, f_pos⟩
        | some slots =>
          match slot_at slots s_pos with
          | none => none
          | some (.wild _) => none
          | some (.buf bytes) => write_copy r.1 i slots s_pos q_pos bytes buf count f_pos
          | some .null =>
            match k.quantum with
            | none =>
              some ⟨-ENOMEM, { r.1 with data := r.1.data.set i ⟨some slots⟩, mu := false }, f_pos⟩
            | some ws =>
              write_copy r.1 i slots s_pos q_pos (fresh_quantum dev.quantum ws) buf count f_pos

/-! ## `scull_trim`, `scull_open` -/

/-- Whether `kfree(p)` is defined: `p` is null or a quantum obtained from
`kmalloc`, not a word that was never assigned. -/
def kfree_ok : QuantumPtr → Bool
  | .wild _ => false
  | _ => true

/-- The inner loop `for (i = 0; i < qset; i++) kfree(dptr->data[i]);` of
`scull_trim`: defined when every `data[i]`, `i < qset`, lies inside the array
and can be passed to `kfree`. -/
def trim_slots (qset : Int) (slots : List QuantumPtr) : Bool :=
  (List.range qset.toNat).all fun i =>
    match slots[i]? with
    | some pt => kfree_ok pt
    | none => false

/-- The outer loop `for (dptr = dev->data; dptr; dptr = next)` of
`scull_trim` over the chain. -/
def trim_chain (qset : Int) : List scull_qset → Bool
  | [] => true
  | seg :: next =>
    (match seg.data with
      | some slots => trim_slots qset slots
      | none => true) && trim_chain qset next

/-- The function `scull_trim(dev)`: the loops release every quantum, array
and node with `kfree`; the four assignments that follow reset the device.  The
mutex is not touched. -/
def scull_trim (dev : scull_dev) : Option scull_dev :=
  if trim_chain dev.qset dev.data then
    some { dev with size := 0, quantum := Module.scull_quantum, qset := Module.scull_qset,
                    data := [] }
  else none

/-- The function `scull_open(inode, filp)`: the returned status and the
device. -/
def scull_open (dev : scull_dev) (f_flags : Nat) : Option (Int × scull_dev) :=
  if f_flags &&& O_ACCMODE = O_WRONLY then (scull_trim dev).map (fun d => (0, d))
  else some (0, dev)

/-! ## The caller's loops

The front end re-invokes `write` / `read` with the cursor advanced by the
returned count until the request is satisfied or a call transfers nothing.
One `Kernel` is consumed per call. -/

/-- Outcome of the write loop: calls made, device, cursor, bytes not yet
written, and the return value that stopped the loop early (0 when no call
stopped it). -/
structure WriteAll where
  calls : Nat
  dev : scull_dev
  f_pos : Int
  rest : List Nat
  status : Int
deriving DecidableEq, Repr

/-- Write `buf` from `f_pos` on by repeated calls of `scull_write`. -/
def write_all : List Kernel → scull_dev → List Nat → Int → Option WriteAll
  | [], dev, buf, f_pos => some ⟨0, dev, f_pos, buf, 0⟩
  | k :: ks, dev, buf, f_pos =>
    if buf = [] then some ⟨0, dev, f_pos, [], 0⟩
    else
      match scull_write k dev buf buf.length f_pos with
      | none => none
      | some r =>
        if r.retval ≤ 0 then some ⟨1, r.dev, r.f_pos, buf, r.retval⟩
        else
          (write_all ks r.dev (buf.drop r.retval.toNat) r.f_pos).map
            (fun w => { w with calls := w.calls + 1 })

/-- Outcome of the read loop: device, cursor, bytes read. -/
structure ReadAll where
  dev : scull_dev
  f_pos : Int
  bytes : List Nat
deriving DecidableEq, Repr

/-- Read `n` bytes from `f_pos` on by repeated calls of `scull_read` into a
user buffer with room for what is still wanted, until `n` bytes are there or a
call returns `0` (or an error). -/
def read_all : List Kernel → scull_dev → Nat → Int → Option ReadAll
  | [], dev, _, f_pos => some ⟨dev, f_pos, []⟩
  | k :: ks, dev, n, f_pos =>
    if n = 0 then some ⟨dev, f_pos, []⟩
    else
      match scull_read k dev n n f_pos with
      | none => none
      | some r =>
        if r.retval ≤ 0 then some ⟨r.dev, r.f_pos, []⟩
        else
          (read_all ks r.dev (n - r.retval.toNat) r.f_pos).map
            (fun a => { a with bytes := r.out ++ a.bytes })

/-! ## Well-formed devices

The shape the driver gives to what it allocates: an array `data` has `qset`
elements and a quantum has `quantum` bytes. -/

/-- A quantum reachable from a slot has `q` bytes. -/
def slot_wf (q : Nat) : QuantumPtr → Prop
  | .buf b => b.length = q
  | _ => True

/-- The array of a node, when allocated, has `s` elements, each well formed. -/
def qset_wf (q s : Nat) (seg : scull_qset) : Prop :=
  ∀ slots, seg.data = some slots → slots.length = s ∧ ∀ pt ∈ slots, slot_wf q pt

/-- Every node of the device is well formed for the device's `quantum` and
`qset`. -/
def dev_wf (dev : scull_dev) : Prop :=
  ∀ seg ∈ dev.data, qset_wf dev.quantum.toNat dev.qset.toNat seg

/-- No array of the device holds a word that the driver did not assign. -/
def clean (dev : scull_dev) : Prop :=
  ∀ seg ∈ dev.data, ∀ slots, seg.data = some slots → ∀ a, QuantumPtr.wild a ∉ slots

/-- A block of memory all of whose words are zero. -/
def zeroed (ws : List Nat) : Prop := ∀ w ∈ ws, w = 0

/-- A kernel under which a call goes through: the lock is obtained, `nodes`
node allocations succeed, and the array and quantum allocations succeed, the
array block being handed out zeroed. -/
def kernel_ok (k : Kernel) (nodes : Nat) : Prop :=
  k.intr = false ∧ nodes ≤ k.nodes ∧ (∃ ws, k.slots = some ws ∧ zeroed ws) ∧
    ∃ wq, k.quantum = some wq

/-- The bytes of the quantum in slot `j` of node `i`, when the node, its array
and that quantum exist. -/
def quantum_at (data : List scull_qset) (i j : Nat) : Option (List Nat) :=
  match data[i]? with
  | some ⟨some slots⟩ =>
    match slots[j]? with
    | some (.buf bytes) => some bytes
    | _ => none
  | _ => none

/-- The byte stored for logical position `p`, when the node, its array and
the quantum for `p` exist (the address is computed as in section Addressing,
in natural numbers). -/
def peek (dev : scull_dev) (p : Nat) : Option Nat :=
  let q := dev.quantum.toNat
  let s := dev.qset.toNat
  (quantum_at dev.data (p / (q * s)) (p % (q * s) / q)).bind (fun b => b[p % (q * s) % q]?)

/-! ## The spec's arithmetic

`byteOffset = (offset mod (unitSize * fanout)) mod unitSize` and the lengths
the spec assigns to one call, in unbounded natural numbers. -/

/-- The spec's `byteOffset` of an offset. -/
def spec_byteOffset (unitSize fanout offset : Nat) : Nat :=
  offset % (unitSize * fanout) % unitSize

/-- The spec's transfer length of a write: `min(count, unitSize - byteOffset)`. -/
def spec_write_len (unitSize fanout offset count : Nat) : Nat :=
  min count (unitSize - spec_byteOffset unitSize fanout offset)

/-- The spec's transfer length of a read:
`min(maxCount, logicalSize - offset, unitSize - byteOffset)`. -/
def spec_read_len (unitSize fanout logicalSize offset maxCount : Nat) : Nat :=
  min (min maxCount (logicalSize - offset)) (unitSize - spec_byteOffset unitSize fanout offset)

/-! ## Reachable devices

The devices that `scull_init_module` followed by calls of `write`, `read`,
`trim` and `open` can produce.  Offsets are non-negative `loff_t` values and
counts are `size_t` values; every call that returns, whatever it returns,
counts as a step.  The parameter `c` is the least `count` a `write` is called
with. -/

/-- Devices reachable from a freshly initialised one by calls whose writes
ask for at least `c` bytes. -/
inductive Reach (c : Nat) : scull_dev → Prop
  | init : Reach c scull_init_dev
  | write (k : Kernel) (dev : scull_dev) (buf : List Nat) (count p : Nat) (r : WriteRet) :
      Reach c dev → c ≤ count → count < 2 ^ 64 → p < 2 ^ 63 →
      scull_write k dev buf count (p : Int) = some r → Reach c r.dev
  | read (k : Kernel) (dev : scull_dev) (cap count p : Nat) (r : ReadRet) :
      Reach c dev → count < 2 ^ 64 → p < 2 ^ 63 →
      scull_read k dev cap count (p : Int) = some r → Reach c r.dev
  | trim (dev d : scull_dev) : Reach c dev → scull_trim dev = some d → Reach c d
  | opened (dev : scull_dev) (f_flags : Nat) (r : Int × scull_dev) :
      Reach c dev → scull_open dev f_flags = some r → Reach c r.2

/-- The node, array and quantum that the code addresses for position `p`
exist. -/
def backed (dev : scull_dev) (p : Nat) : Prop :=
  ∃ slots bytes, dev.data[(pos_item dev (p : Int) % 2 ^ 32).toNat]? = some ⟨some slots⟩ ∧
    slot_at slots (pos_s dev (p : Int)) = some (.buf bytes)

/-- Every quantum of the device has `quantum` bytes. -/
def quanta_wf (dev : scull_dev) : Prop :=
  ∀ seg ∈ dev.data, ∀ slots, seg.data = some slots →
    ∀ pt ∈ slots, slot_wf dev.quantum.toNat pt

/-- The number of iterations of the loop of `scull_follow` for position `p`:
the node index `p / (q * s)` stored in an `int` and counted down through the
wrap-around. -/
def item_index (q s p : Nat) : Nat := (wrap32 ((p / (q * s) : Nat) : Int) % 2 ^ 32).toNat

/-- What every reachable device satisfies: the parameters are `q` and `s`,
every quantum has `q` bytes, `size` is an `unsigned long`, and when `size` is
not 0 the quantum of the last byte exists. -/
def reach_inv (q s : Nat) (dev : scull_dev) : Prop :=
  dev.quantum = q ∧ dev.qset = s ∧ quanta_wf dev ∧ dev.size < 2 ^ 64 ∧
    (dev.size = 0 ∨
      ∃ b, quantum_at dev.data (item_index q s (dev.size - 1))
        ((dev.size - 1) % (q * s) / q) = some b)

/-! ## Failing allocations in `scull_write` -/

/-- Whether a call of `scull_write` gets as far as a `kmalloc` that returns
NULL: the lock is obtained, the divisions are defined, and either
`scull_follow` cannot allocate a node it needs (lines 42, 51), or the node has
no array and the `kmalloc` of line 140 fails, or the array is there, its slot
`s_pos` is null and the `kmalloc` of line 147 fails. -/
def alloc_fails (k : Kernel) (dev : scull_dev) (f_pos : Int) : Bool :=
  if k.intr then false
  else if div_undefined dev f_pos then false
  else
    let r := scull_follow k dev (pos_item dev f_pos)
    match r.2 with
    | none => true
    | some i =>
      match r.1.data[i]? with
      | none => false
      | some seg =>
        match seg.data with
        | none =>
          match k.slots with
          | none => true
          | some ws =>
            match slot_at (fresh_slots dev.qset ws) (pos_s dev f_pos) with
            | some .null => k.quantum.isNone
            | _ => false
        | some slots =>
          match slot_at slots (pos_s dev f_pos) with
          | some .null => k.quantum.isNone
          | _ => false

/-! ## Lock operations and accesses to the shared fields, in program order

The fields of `struct scull_dev` that calls share are `data`, `quantum`,
`qset` and `size`.  For one call, the sequence below lists the operations on
`dev->mu` and the reads and writes of these fields in the order in which the
statements of the function perform them. -/

/-- The shared fields of `struct scull_dev`. -/
inductive Field
  | data | quantum | qset | size
deriving DecidableEq

/-- One operation of a call: `mutex_lock_interruptible` returning 0
(`lock_ok`) or non-zero (`lock_intr`), `mutex_unlock`, a read or a write of a
shared field. -/
inductive Ev
  | lock_ok | lock_intr | unlock
  | rd (f : Field)
  | wr (f : Field)
deriving DecidableEq

/-- Whether an operation is a read or a write of a shared field. -/
def is_access : Ev → Bool
  | .rd _ => true
  | .wr _ => true
  | _ => false

/-- The accesses of `scull_follow(dev, n)` to the device: line 38 reads
`dev->data`, and line 42 assigns it when it is null. -/
def follow_events (dev : scull_dev) : List Ev :=
  .rd .data :: (if dev.data.isEmpty then [.wr .data] else [])

/-- The accesses of `scull_read` between the lock and `out:` — lines 79, 80
read `quantum` and `qset`; lines 83, 85, 86 read `size`; line 95 calls
`scull_follow`. -/
def read_accesses (dev : scull_dev) (count : Nat) (f_pos : Int) : List Ev :=
  .rd .quantum :: .rd .qset :: .rd .size ::
    (if u64 f_pos ≥ dev.size then []
     else
      .rd .size ::
        ((if u64 (f_pos + count) > dev.size then [.rd .size] else []) ++
          (if div_undefined dev f_pos then [] else follow_events dev)))

/-- The operations of one call of `scull_read`, in order: the lock attempt of
line 76 first; `mutex_unlock` (line 111) last on every path that returns. -/
def scull_read_events (k : Kernel) (dev : scull_dev) (cap count : Nat) (f_pos : Int) :
    List Ev :=
  if k.intr then [.lock_intr]
  else
    .lock_ok :: (read_accesses dev count f_pos ++
      (if (scull_read k dev cap count f_pos).isSome then [.unlock] else []))

/-- The accesses of lines 165, 166 of `scull_write`, reached when
`copy_from_user` has succeeded: `size` is read, and written when it is below
the new `*f_pos`. -/
def write_size_events (dev : scull_dev) (q_pos : Int) (bytes buf : List Nat) (count : Nat)
    (f_pos : Int) : List Ev :=
  let count := clamp_quantum count dev.quantum q_pos
  if q_pos < 0 ∨ q_pos.toNat + count > bytes.length then []
  else if count > buf.length then []
  else .rd .size :: (if dev.size < u64 (wrap64 (f_pos + count)) then [.wr .size] else [])

/-- The accesses of `scull_write` between the lock and `out:` — line 134
calls `scull_follow`; lines 165, 166 follow a successful copy. -/
def write_accesses (k : Kernel) (dev : scull_dev) (buf : List Nat) (count : Nat)
    (f_pos : Int) : List Ev :=
  if div_undefined dev f_pos then []
  else
    follow_events dev ++
      (let r := scull_follow k dev (pos_item dev f_pos)
       match r.2 with
       | none => []
       | some i =>
         match r.1.data[i]? with
         | none => []
         | some seg =>
           let arr : Option (List QuantumPtr) :=
             match seg.data with
             | some slots => some slots
             | none => k.slots.map (fresh_slots dev.qset)
           match arr with
           | none => []
           | some slots =>
             match slot_at slots (pos_s dev f_pos) with
             | some (.buf bytes) =>
               write_size_events r.1 (pos_q dev f_pos) bytes buf count f_pos
             | some .null =>
               match k.quantum with
               | none => []
               | some ws =>
                 write_size_events r.1 (pos_q dev f_pos) (fresh_quantum dev.quantum ws) buf
                   count f_pos
             | _ => [])

/-- The operations of one call of `scull_write`, in order: the initialisers
of lines 118, 119 read `dev->data`, `dev->quantum` and `dev->qset`; then comes
the lock attempt of line 124; `mutex_unlock` (line 169) is last on every path
that returns after the lock was taken. -/
def scull_write_events (k : Kernel) (dev : scull_dev) (buf : List Nat) (count : Nat)
    (f_pos : Int) : List Ev :=
  .rd .data :: .rd .quantum :: .rd .qset ::
    (if k.intr then [.lock_intr]
     else
      .lock_ok :: (write_accesses k dev buf count f_pos ++
        (if (scull_write k dev buf count f_pos).isSome then [.unlock] else [])))

/-- Whether every access in a sequence happens while the lock is held;
`held` says whether it is held at the start. -/
def guarded_from : Bool → List Ev → Bool
  | _, [] => true
  | _, .lock_ok :: es => guarded_from true es
  | held, .lock_intr :: es => guarded_from held es
  | _, .unlock :: es => guarded_from false es
  | held, .rd _ :: es => held && guarded_from held es
  | held, .wr _ :: es => held && guarded_from held es

/-- Every access of a call happens between `lock_ok` and `unlock`. -/
def guarded (es : List Ev) : Bool := guarded_from false es

/-! ## Devices reachable by writes alone, and by calls at bounded offsets -/

/-- Devices reachable from a freshly initialised one by calls of `write` that
return a non-negative value.  With `contig = true` every write starts at an
offset that is at most the current `size`; with `contig = false` the offsets
are arbitrary. -/
inductive ReachWrites (contig : Bool) : scull_dev → Prop
  | init : ReachWrites contig scull_init_dev
  | write (k : Kernel) (dev : scull_dev) (buf : List Nat) (count p : Nat) (r : WriteRet) :
      ReachWrites contig dev → (contig = true → p ≤ dev.size) → count < 2 ^ 64 →
      p < 2 ^ 63 → scull_write k dev buf count (p : Int) = some r → 0 ≤ r.retval →
      ReachWrites contig r.dev

/-- What the devices of `ReachWrites true` satisfy: the parameters are the
module defaults, `size` is an `unsigned long`, and the quantum that the code
addresses for each position below `size` exists. -/
def nogap_inv (dev : scull_dev) : Prop :=
  dev.quantum = 4000 ∧ dev.qset = 1000 ∧ dev.size < 2 ^ 64 ∧
    ∀ j, j < dev.size →
      ∃ b, quantum_at dev.data (item_index 4000 1000 j) (j % (4000 * 1000) / 4000) = some b

/-- Devices reachable from a freshly initialised one by calls of `write`,
`read`, `trim` and `open`, the writes at offsets below `m`; every call that
returns counts as a step. -/
inductive ReachBelow (m : Nat) : scull_dev → Prop
  | init : ReachBelow m scull_init_dev
  | write (k : Kernel) (dev : scull_dev) (buf : List Nat) (count p : Nat) (r : WriteRet) :
      ReachBelow m dev → count < 2 ^ 64 → p < m → p < 2 ^ 63 →
      scull_write k dev buf count (p : Int) = some r → ReachBelow m r.dev
  | read (k : Kernel) (dev : scull_dev) (cap count p : Nat) (r : ReadRet) :
      ReachBelow m dev → count < 2 ^ 64 → p < 2 ^ 63 →
      scull_read k dev cap count (p : Int) = some r → ReachBelow m r.dev
  | trim (dev d : scull_dev) : ReachBelow m dev → scull_trim dev = some d → ReachBelow m d
  | opened (dev : scull_dev) (f_flags : Nat) (r : Int × scull_dev) :
      ReachBelow m dev → scull_open dev f_flags = some r → ReachBelow m r.2

/-- The capacity invariant for the module defaults: `size` is at most the
number of nodes times `quantum * qset`, and the chain has at most `2^31`
nodes. -/
def cap_inv (dev : scull_dev) : Prop :=
  dev.quantum = 4000 ∧ dev.qset = 1000 ∧ dev.size ≤ dev.data.length * (4000 * 1000) ∧
    dev.data.length ≤ 2 ^ 31

/-! # Auxiliary facts: machine arithmetic, `scull_follow`, case analysis -/

theorem wrap32_id {x : Int} (h0 : -2 ^ 31 ≤ x) (h : x < 2 ^ 31) : wrap32 x = x := by
  unfold wrap32
  rw [Int.emod_eq_of_lt] <;> omega

theorem itemsize_nat (dev : scull_dev) (q s : Nat) (hq : dev.quantum = q) (hs : dev.qset = s)
    (hprod : q * s < 2 ^ 31) : itemsize dev = ((q * s : Nat) : Int) := by
  unfold itemsize
  rw [hq, hs, ← Int.natCast_mul]
  apply wrap32_id <;> omega

theorem not_div_undefined (dev : scull_dev) (q s p : Nat) (hq : dev.quantum = q)
    (hs : dev.qset = s) (hq1 : 1 ≤ q) (hs1 : 1 ≤ s) (hprod : q * s < 2 ^ 31) :
    ¬ div_undefined dev (p : Int) := by
  have hpos : 0 < q * s := Nat.mul_pos hq1 hs1
  unfold div_undefined
  rw [itemsize_nat dev q s hq hs hprod]
  omega

theorem pos_rest_nat (dev : scull_dev) (q s p : Nat) (hq : dev.quantum = q) (hs : dev.qset = s)
    (hprod : q * s < 2 ^ 31) : pos_rest dev (p : Int) = ((p % (q * s) : Nat) : Int) := by
  unfold pos_rest
  rw [itemsize_nat dev q s hq hs hprod, ← Int.ofNat_tmod]

theorem pos_s_nat (dev : scull_dev) (q s p : Nat) (hq : dev.quantum = q) (hs : dev.qset = s)
    (hprod : q * s < 2 ^ 31) : pos_s dev (p : Int) = ((p % (q * s) / q : Nat) : Int) := by
  unfold pos_s
  rw [pos_rest_nat dev q s p hq hs hprod, hq, ← Int.ofNat_tdiv]

theorem pos_q_nat (dev : scull_dev) (q s p : Nat) (hq : dev.quantum = q) (hs : dev.qset = s)
    (hprod : q * s < 2 ^ 31) : pos_q dev (p : Int) = ((p % (q * s) % q : Nat) : Int) := by
  unfold pos_q
  rw [pos_rest_nat dev q s p hq hs hprod, hq, ← Int.ofNat_tmod]

theorem pos_item_nat (dev : scull_dev) (q s p : Nat) (hq : dev.quantum = q) (hs : dev.qset = s)
    (hprod : q * s < 2 ^ 31) (hitem : p / (q * s) < 2 ^ 31) :
    pos_item dev (p : Int) = ((p / (q * s) : Nat) : Int) := by
  unfold pos_item
  rw [itemsize_nat dev q s hq hs hprod, ← Int.ofNat_tdiv]
  apply wrap32_id
  · have : (0 : Int) ≤ ((p / (q * s) : Nat) : Int) := Int.ofNat_nonneg _
    omega
  · exact_mod_cast hitem

theorem follow_walk_eq (n : Nat) : ∀ (qs alloc : Nat) (chain : List scull_qset),
    qs < chain.length →
    follow_walk n qs alloc chain =
      (chain ++ List.replicate (min alloc (qs + n + 1 - chain.length)) ⟨none⟩,
        if qs + n + 1 - chain.length ≤ alloc then some (qs + n) else none) := by
  induction n with
  | zero =>
    intro qs alloc chain h
    have : qs + 0 + 1 - chain.length = 0 := by omega
    simp [follow_walk, this]
  | succ n ih =>
    intro qs alloc chain h
    unfold follow_walk
    by_cases h1 : qs + 1 < chain.length
    · simp only [h1, if_true]
      rw [ih (qs + 1) alloc chain h1]
      have : qs + 1 + n + 1 - chain.length = qs + (n + 1) + 1 - chain.length := by omega
      rw [this]
      have : qs + 1 + n = qs + (n + 1) := by omega
      rw [this]
    · simp only [h1, if_false]
      have hlen : chain.length = qs + 1 := by omega
      cases alloc with
      | zero =>
        have : ¬ (qs + (n + 1) + 1 - chain.length ≤ 0) := by omega
        simp [this]
      | succ a =>
        simp only []
        have ih1 := ih (qs + 1) a (chain ++ [⟨none⟩]) (by simp [hlen])
        rw [ih1]
        have e1 : qs + 1 + n + 1 - (chain ++ [(⟨none⟩ : scull_qset)]).length = n := by
          simp [hlen]
        have e2 : qs + (n + 1) + 1 - chain.length = n + 1 := by omega
        rw [e1, e2]
        have e3 : min (a + 1) (n + 1) = min a n + 1 := by omega
        rw [e3, List.replicate_succ, List.append_assoc]
        have e4 : qs + 1 + n = qs + (n + 1) := by omega
        simp [e4]

theorem scull_follow_eq (k : Kernel) (dev : scull_dev) (n : Int) :
    scull_follow k dev n =
      ({ dev with data := dev.data ++
            List.replicate (min k.nodes ((n % 2 ^ 32).toNat + 1 - dev.data.length)) ⟨none⟩ },
        if (n % 2 ^ 32).toNat + 1 - dev.data.length ≤ k.nodes then some (n % 2 ^ 32).toNat
        else none) := by
  unfold scull_follow
  generalize (n % 2 ^ 32).toNat = m
  rcases hd : dev.data with _ | ⟨c, cs⟩
  · rcases hn : k.nodes with _ | a
    · cases dev; simp_all
    · simp only []
      rw [follow_walk_eq m 0 a [⟨none⟩] (by simp)]
      have e : min (a + 1) (m + 1 - ([] : List scull_qset).length) = min a m + 1 := by
        simp only [List.length_nil]; omega
      have e' : min a (0 + m + 1 - [(⟨none⟩ : scull_qset)].length) = min a m := by simp
      rw [e, e', List.replicate_succ]
      simp
  · simp only []
    rw [follow_walk_eq m 0 k.nodes (c :: cs) (by simp)]
    simp


theorem u64_ofNat {n : Nat} (h : n < 2 ^ 64) : u64 (n : Int) = n := by
  unfold u64
  have : ((n : Int) % 2 ^ 64) = n := by
    apply Int.emod_eq_of_lt <;> omega
  rw [this]; simp

theorem wrap64_id {x : Int} (h0 : -2 ^ 63 ≤ x) (h : x < 2 ^ 63) : wrap64 x = x := by
  unfold wrap64
  rw [Int.emod_eq_of_lt] <;> omega

theorem u64_wrap64 {n : Nat} (h : n < 2 ^ 64) : u64 (wrap64 (n : Int)) = n := by
  unfold u64 wrap64
  have : (((n : Int) + 2 ^ 63) % 2 ^ 64 - 2 ^ 63) % 2 ^ 64 = (n : Int) := by omega
  rw [this]; simp

theorem clamp_quantum_nat (count q qp : Nat) (hq : q < 2 ^ 31) (hqp : qp < q) :
    clamp_quantum count (q : Int) (qp : Int) = min count (q - qp) := by
  unfold clamp_quantum
  have e : ((q : Int) - (qp : Int)) = ((q - qp : Nat) : Int) := by omega
  rw [e, wrap32_id (by omega) (by omega), u64_ofNat (by omega)]
  split <;> omega

theorem slot_at_nat (slots : List QuantumPtr) (sp : Nat) :
    slot_at slots (sp : Int) = slots[sp]? := by
  unfold slot_at
  simp

theorem write_copy_nat (dev1 : scull_dev) (i : Nat) (slots : List QuantumPtr)
    (q sp qp p : Nat) (bytes buf : List Nat) (count : Nat)
    (hq : dev1.quantum = q) (hq31 : q < 2 ^ 31) (hqp : qp < q) (hp : p < 2 ^ 63) :
    write_copy dev1 i slots (sp : Int) (qp : Int) bytes buf count (p : Int) =
      if qp + min count (q - qp) > bytes.length then none
      else if min count (q - qp) > buf.length then
        some ⟨-EFAULT, { dev1 with
          data := dev1.data.set i
            ⟨some (slots.set sp (.buf (copy_in bytes qp buf (min count (q - qp)))))⟩,
          mu := false }, p⟩
      else
        some ⟨(min count (q - qp) : Nat), { dev1 with
          data := dev1.data.set i
            ⟨some (slots.set sp (.buf (copy_in bytes qp buf (min count (q - qp)))))⟩,
          size := max dev1.size (p + min count (q - qp)),
          mu := false }, wrap64 ((p + min count (q - qp) : Nat) : Int)⟩ := by
  unfold write_copy
  simp only [hq, clamp_quantum_nat count q qp hq31 hqp, Int.toNat_ofNat]
  have hneg : ¬ ((qp : Int) < 0) := by omega
  simp only [hneg, false_or]
  split
  · rfl
  · split
    · rfl
    · have ht : min count (q - qp) ≤ q := by omega
      have e1 : ((p : Int) + ((min count (q - qp) : Nat) : Int)) =
          ((p + min count (q - qp) : Nat) : Int) := by push_cast; rfl
      rw [e1, wrap64_id (x := ((min count (q - qp) : Nat) : Int)) (by omega) (by omega),
        u64_wrap64 (by omega)]
      congr 2
      congr 1
      split <;> omega


theorem item_iter (dev : scull_dev) (q s p : Nat) (hq : dev.quantum = q) (hs : dev.qset = s)
    (hprod : q * s < 2 ^ 31) (hitem : p / (q * s) < 2 ^ 31) :
    (pos_item dev (p : Int) % 2 ^ 32).toNat = p / (q * s) := by
  rw [pos_item_nat dev q s p hq hs hprod hitem]
  have : (((p / (q * s) : Nat) : Int) % 2 ^ 32) = ((p / (q * s) : Nat) : Int) := by
    apply Int.emod_eq_of_lt (Int.ofNat_nonneg _)
    have : ((p / (q * s) : Nat) : Int) < ((2 ^ 31 : Nat) : Int) := Int.ofNat_lt.mpr hitem
    have h2 : ((2 ^ 31 : Nat) : Int) = 2 ^ 31 := by norm_num
    omega
  rw [this]
  exact Int.toNat_ofNat _

theorem write_copy_cases (d1 : scull_dev) (i : Nat) (slots : List QuantumPtr)
    (q sp qp p : Nat) (bytes buf : List Nat) (count : Nat)
    (hq : d1.quantum = q) (hq31 : q < 2 ^ 31) (hqp : qp < q) (hp : p < 2 ^ 63)
    (r : WriteRet)
    (h : write_copy d1 i slots (sp : Int) (qp : Int) bytes buf count (p : Int) = some r) :
    qp + min count (q - qp) ≤ bytes.length ∧
    ((buf.length < min count (q - qp) ∧ r = ⟨-EFAULT, { d1 with
        data := d1.data.set i
          ⟨some (slots.set sp (.buf (copy_in bytes qp buf (min count (q - qp)))))⟩,
        mu := false }, p⟩) ∨
      (min count (q - qp) ≤ buf.length ∧ r = ⟨(min count (q - qp) : Nat), { d1 with
        data := d1.data.set i
          ⟨some (slots.set sp (.buf (copy_in bytes qp buf (min count (q - qp)))))⟩,
        size := max d1.size (p + min count (q - qp)),
        mu := false }, wrap64 ((p + min count (q - qp) : Nat) : Int)⟩)) := by
  rw [write_copy_nat d1 i slots q sp qp p bytes buf count hq hq31 hqp hp] at h
  split at h
  · exact absurd h (by simp)
  · refine ⟨by omega, ?_⟩
    split at h
    · left; exact ⟨by omega, (Option.some.inj h).symm⟩
    · right; exact ⟨by omega, (Option.some.inj h).symm⟩

theorem scull_write_cases_core (k : Kernel) (dev : scull_dev) (buf : List Nat) (count : Nat)
    (q s p : Nat) (hq : dev.quantum = q) (hs : dev.qset = s) (hq31 : q < 2 ^ 31)
    (hdiv : ¬ div_undefined dev (p : Int)) (hp : p < 2 ^ 63)
    (hk : k.intr = false) (r : WriteRet)
    (h : scull_write k dev buf count (p : Int) = some r)
    (it sp qp t : Nat) (chain1 : List scull_qset)
    (hit : it = (pos_item dev (p : Int) % 2 ^ 32).toNat) (hsp : pos_s dev (p : Int) = sp) (hqpe : pos_q dev (p : Int) = qp) (hqp : qp < q)
    (ht : t = min count (q - qp))
    (hc : chain1 = dev.data ++
      List.replicate (min k.nodes (it + 1 - dev.data.length)) ⟨none⟩) :
    (r = ⟨-ENOMEM, { dev with data := chain1, mu := false }, p⟩ ∧
      (k.nodes < it + 1 - dev.data.length ∨ (chain1[it]? = some ⟨none⟩ ∧ k.slots = none))) ∨
    ∃ slots, (chain1[it]? = some ⟨some slots⟩ ∨
        (chain1[it]? = some ⟨none⟩ ∧ ∃ ws, k.slots = some ws ∧ slots = fresh_slots s ws)) ∧
      ((slots[sp]? = some .null ∧ k.quantum = none ∧
          r = ⟨-ENOMEM, { dev with data := chain1.set it ⟨some slots⟩, mu := false }, p⟩) ∨
        ∃ bytes, (slots[sp]? = some (.buf bytes) ∨
            (slots[sp]? = some .null ∧ ∃ ws, k.quantum = some ws ∧
              bytes = fresh_quantum q ws)) ∧
          qp + t ≤ bytes.length ∧
          ((buf.length < t ∧ r = ⟨-EFAULT, { dev with
              data := chain1.set it ⟨some (slots.set sp (.buf (copy_in bytes qp buf t)))⟩,
              mu := false }, p⟩) ∨
            (t ≤ buf.length ∧ r = ⟨(t : Nat), { dev with
              data := chain1.set it ⟨some (slots.set sp (.buf (copy_in bytes qp buf t)))⟩,
              size := max dev.size (p + t),
              mu := false }, wrap64 ((p + t : Nat) : Int)⟩))) := by
  unfold scull_write at h
  rw [scull_follow_eq] at h
  simp only [hk, hdiv, hsp, hqpe,
    slot_at_nat, Bool.false_eq_true, if_false,
    ← hit, ← hc] at h
  obtain ⟨data0, quantum0, qset0, size0, mu0⟩ := dev
  simp only at hq hs hc h ⊢
  subst hq hs
  clear hit hsp hqpe hdiv
  by_cases hn : it + 1 - data0.length ≤ k.nodes
  · simp only [hn, if_true] at h
    rcases hseg : chain1[it]? with _ | seg
    · simp only [hseg] at h
      exact absurd h (by simp)
    · simp only [hseg] at h
      have tail : ∀ (slots : List QuantumPtr) (bytes : List Nat),
          write_copy ⟨chain1, q, s, size0, mu0⟩ it slots (sp : Int) (qp : Int) bytes buf count
            (p : Int) = some r →
          qp + t ≤ bytes.length ∧
          ((buf.length < t ∧ r = ⟨-EFAULT, ⟨chain1.set it
              ⟨some (slots.set sp (.buf (copy_in bytes qp buf t)))⟩, q, s, size0, false⟩, p⟩) ∨
            (t ≤ buf.length ∧ r = ⟨(t : Nat), ⟨chain1.set it
              ⟨some (slots.set sp (.buf (copy_in bytes qp buf t)))⟩, q, s,
              max size0 (p + t), false⟩, wrap64 ((p + t : Nat) : Int)⟩)) := by
        intro slots bytes hw
        have := write_copy_cases ⟨chain1, q, s, size0, mu0⟩ it slots q sp qp p bytes buf count
          rfl hq31 hqp hp r hw
        rw [← ht] at this
        exact this
      have slotcase : ∀ (slots : List QuantumPtr),
          (match slots[sp]? with
            | none => none
            | some (.wild _) => none
            | some (.buf bytes) =>
              write_copy ⟨chain1, q, s, size0, mu0⟩ it slots (sp : Int) (qp : Int) bytes buf
                count (p : Int)
            | some .null =>
              match k.quantum with
              | none => some ⟨-ENOMEM, ⟨chain1.set it ⟨some slots⟩, q, s, size0, false⟩, p⟩
              | some ws =>
                write_copy ⟨chain1, q, s, size0, mu0⟩ it slots (sp : Int) (qp : Int)
                  (fresh_quantum q ws) buf count (p : Int)) = some r →
          ((slots[sp]? = some .null ∧ k.quantum = none ∧
            r = ⟨-ENOMEM, ⟨chain1.set it ⟨some slots⟩, q, s, size0, false⟩, p⟩) ∨
          ∃ bytes, (slots[sp]? = some (.buf bytes) ∨
              (slots[sp]? = some .null ∧ ∃ ws, k.quantum = some ws ∧
                bytes = fresh_quantum q ws)) ∧
            qp + t ≤ bytes.length ∧
            ((buf.length < t ∧ r = ⟨-EFAULT, ⟨chain1.set it
                ⟨some (slots.set sp (.buf (copy_in bytes qp buf t)))⟩, q, s, size0, false⟩, p⟩) ∨
              (t ≤ buf.length ∧ r = ⟨(t : Nat), ⟨chain1.set it
                ⟨some (slots.set sp (.buf (copy_in bytes qp buf t)))⟩, q, s,
                max size0 (p + t), false⟩, wrap64 ((p + t : Nat) : Int)⟩))) := by
        intro slots hm
        rcases hsl : slots[sp]? with _ | pt
        · simp only [hsl] at hm; exact absurd hm (by simp)
        · simp only [hsl] at hm
          rcases pt with _ | bytes | a
          · rcases hkq : k.quantum with _ | wq
            · simp only [hkq] at hm
              left
              exact ⟨rfl, rfl, (Option.some.inj hm).symm⟩
            · simp only [hkq] at hm
              right
              exact ⟨fresh_quantum q wq, Or.inr ⟨rfl, wq, rfl, rfl⟩, tail _ _ hm⟩
          · right
            exact ⟨bytes, Or.inl rfl, tail _ _ hm⟩
          · exact absurd hm (by simp)
      rcases seg with ⟨_ | slots0⟩
      · rcases hks : k.slots with _ | ws
        · simp only [hks, Option.map_none'] at h
          left
          exact ⟨(Option.some.inj h).symm, Or.inr ⟨rfl, rfl⟩⟩
        · simp only [hks, Option.map_some'] at h
          right
          exact ⟨fresh_slots s ws, Or.inr ⟨rfl, ws, rfl, rfl⟩, slotcase _ h⟩
      · right
        simp only [] at h
        exact ⟨slots0, Or.inl rfl, slotcase _ h⟩
  · simp only [hn, if_false] at h
    left
    exact ⟨(Option.some.inj h).symm, Or.inl (by omega)⟩


theorem scull_write_ok_core (k : Kernel) (dev : scull_dev) (buf : List Nat) (count : Nat)
    (q s p : Nat) (hq : dev.quantum = q) (hs : dev.qset = s) (hq31 : q < 2 ^ 31)
    (hdiv : ¬ div_undefined dev (p : Int)) (hp : p < 2 ^ 63)
    (hk : k.intr = false)
    (it sp qp t : Nat) (chain1 : List scull_qset)
    (hit : it = (pos_item dev (p : Int) % 2 ^ 32).toNat) (hsp : pos_s dev (p : Int) = sp) (hqpe : pos_q dev (p : Int) = qp) (hqp : qp < q)
    (ht : t = min count (q - qp))
    (hc : chain1 = dev.data ++
      List.replicate (min k.nodes (it + 1 - dev.data.length)) ⟨none⟩)
    (hn : it + 1 - dev.data.length ≤ k.nodes)
    (slots : List QuantumPtr)
    (hslots : chain1[it]? = some ⟨some slots⟩ ∨
        (chain1[it]? = some ⟨none⟩ ∧ ∃ ws, k.slots = some ws ∧ slots = fresh_slots s ws))
    (bytes : List Nat)
    (hbytes : slots[sp]? = some (.buf bytes) ∨
        (slots[sp]? = some .null ∧ ∃ ws, k.quantum = some ws ∧ bytes = fresh_quantum q ws))
    (hlen : qp + t ≤ bytes.length) (hbuf : t ≤ buf.length) :
    scull_write k dev buf count (p : Int) = some ⟨(t : Nat), { dev with
        data := chain1.set it ⟨some (slots.set sp (.buf (copy_in bytes qp buf t)))⟩,
        size := max dev.size (p + t),
        mu := false }, wrap64 ((p + t : Nat) : Int)⟩ := by
  unfold scull_write
  rw [scull_follow_eq]
  simp only [hk, hdiv, hsp, hqpe,
    slot_at_nat, Bool.false_eq_true, if_false,
    ← hit, ← hc, hn, if_true]
  obtain ⟨data0, quantum0, qset0, size0, mu0⟩ := dev
  simp only at hq hs hc ⊢
  subst hq hs
  clear hit hsp hqpe hdiv
  have tail : write_copy ⟨chain1, q, s, size0, mu0⟩ it slots (sp : Int) (qp : Int) bytes buf
      count (p : Int) = some ⟨(t : Nat), ⟨chain1.set it
        ⟨some (slots.set sp (.buf (copy_in bytes qp buf t)))⟩, q, s,
        max size0 (p + t), false⟩, wrap64 ((p + t : Nat) : Int)⟩ := by
    rw [write_copy_nat ⟨chain1, q, s, size0, mu0⟩ it slots q sp qp p bytes buf count
      rfl hq31 hqp hp, ← ht]
    rw [if_neg (by omega), if_neg (by omega)]
  rcases hslots with h1 | ⟨h1, ws, hws, rfl⟩
  · simp only [h1]
    rcases hbytes with h2 | ⟨h2, wq, hwq, rfl⟩
    · simp only [h2]; exact tail
    · simp only [h2, hwq]; exact tail
  · simp only [h1, hws, Option.map_some']
    rcases hbytes with h2 | ⟨h2, wq, hwq, rfl⟩
    · simp only [h2]; exact tail
    · simp only [h2, hwq]; exact tail

theorem read_count_nat (size count p : Nat) (hlt : p < size) (hsz : size < 2 ^ 64)
    (hsum : p + count < 2 ^ 64) :
    (if u64 ((p : Int) + (count : Int)) > size then u64 ((size : Int) - (p : Int)) else count) =
      min count (size - p) := by
  have e1 : ((p : Int) + (count : Int)) = ((p + count : Nat) : Int) := by push_cast; rfl
  have e2 : ((size : Int) - (p : Int)) = ((size - p : Nat) : Int) := by omega
  rw [e1, e2, u64_ofNat hsum, u64_ofNat (by omega)]
  split <;> omega

theorem scull_read_cases_core (k : Kernel) (dev : scull_dev) (cap count : Nat)
    (q s p : Nat) (hq : dev.quantum = q) (_hs : dev.qset = s) (hq31 : q < 2 ^ 31)
    (hdiv : ¬ div_undefined dev (p : Int)) (hp : p < 2 ^ 63)
    (hk : k.intr = false) (hlt : p < dev.size) (hsz : dev.size < 2 ^ 64)
    (hsum : p + count < 2 ^ 64) (r : ReadRet)
    (h : scull_read k dev cap count (p : Int) = some r)
    (it sp qp t : Nat) (chain1 : List scull_qset)
    (hit : it = (pos_item dev (p : Int) % 2 ^ 32).toNat) (hsp : pos_s dev (p : Int) = sp) (hqpe : pos_q dev (p : Int) = qp) (hqp : qp < q)
    (ht : t = min (min count (dev.size - p)) (q - qp))
    (hc : chain1 = dev.data ++
      List.replicate (min k.nodes (it + 1 - dev.data.length)) ⟨none⟩) :
    (r = ⟨0, { dev with data := chain1, mu := false }, p, []⟩ ∧
      (k.nodes < it + 1 - dev.data.length ∨ chain1[it]? = some ⟨none⟩ ∨
        ∃ slots, chain1[it]? = some ⟨some slots⟩ ∧ slots[sp]? = some .null)) ∨
    ∃ slots bytes, chain1[it]? = some ⟨some slots⟩ ∧ slots[sp]? = some (.buf bytes) ∧
      qp + t ≤ bytes.length ∧
      ((cap < t ∧ r = ⟨-EFAULT, { dev with data := chain1, mu := false }, p,
          (bytes.drop qp).take cap⟩) ∨
        (t ≤ cap ∧ r = ⟨(t : Nat), { dev with data := chain1, mu := false },
          wrap64 ((p + t : Nat) : Int), (bytes.drop qp).take t⟩)) := by
  have hu : ¬ (u64 (p : Int) ≥ dev.size) := by rw [u64_ofNat (by omega)]; omega
  unfold scull_read at h
  rw [scull_follow_eq] at h
  simp only [hk, hu, read_count_nat dev.size count p hlt hsz hsum,
    hdiv, hsp, hqpe,
    slot_at_nat, Bool.false_eq_true, if_false,
    ← hit, ← hc, hq, clamp_quantum_nat _ q qp hq31 hqp, ← ht,
    Int.toNat_ofNat] at h
  simp only [hq]
  clear hit hsp hqpe hdiv
  by_cases hn : it + 1 - dev.data.length ≤ k.nodes
  · simp only [hn, if_true] at h
    rcases hseg : chain1[it]? with _ | seg
    · simp only [hseg] at h
      exact absurd h (by simp)
    · simp only [hseg] at h
      rcases seg with ⟨_ | slots0⟩
      · simp only [] at h
        left
        exact ⟨(Option.some.inj h).symm, Or.inr (Or.inl rfl)⟩
      · simp only [] at h
        rcases hsl : slots0[sp]? with _ | pt
        · simp only [hsl] at h; exact absurd h (by simp)
        · simp only [hsl] at h
          rcases pt with _ | bytes | a
          · left
            exact ⟨(Option.some.inj h).symm, Or.inr (Or.inr ⟨slots0, rfl, hsl⟩)⟩
          · right
            refine ⟨slots0, bytes, rfl, hsl, ?_⟩
            have hneg : ¬ ((qp : Int) < 0) := by omega
            simp only [hneg, false_or] at h
            split at h
            · exact absurd h (by simp)
            · refine ⟨by omega, ?_⟩
              split at h
              · left
                refine ⟨by omega, ?_⟩
                exact (Option.some.inj h).symm
              · right
                refine ⟨by omega, ?_⟩
                have ht63 : t ≤ q := by omega
                have e1 : ((p : Int) + (t : Int)) = ((p + t : Nat) : Int) := by push_cast; rfl
                rw [e1, wrap64_id (x := (t : Int)) (by omega) (by omega)] at h
                exact (Option.some.inj h).symm
          · exact absurd h (by simp)
  · simp only [hn, if_false] at h
    left
    exact ⟨(Option.some.inj h).symm, Or.inl (by omega)⟩

/-! # Claims -/

/-- The test `*f_pos + count > dev->size` is made modulo `2^64`: handed the
count `2^64 - 1` at offset 1, `scull_read` on a device holding two bytes in
one quantum of four would return 3 bytes and move the cursor to 4, beyond
`size = 2`.  Such a count does not reach the function: it is installed as the
`.read` operation of `scull_fops` only, and its caller passes counts that are
non-negative as an `ssize_t`, that is below `2^63`. -/
theorem read_clamp_overflow :
    scull_read ⟨false, 0, none, none⟩ ⟨[⟨some [.buf [1, 2, 0, 0]]⟩], 4, 1, 2, false⟩
        3 (2 ^ 64 - 1) 1 =
      some ⟨3, ⟨[⟨some [.buf [1, 2, 0, 0]]⟩], 4, 1, 2, false⟩, 4, [2, 0, 0]⟩ ∧
    ¬ ((1 : Int) + 3 ≤ 2) := by
  decide

/-- At or beyond `size` the read takes the first `goto out`. -/
theorem scull_read_eof (k : Kernel) (dev : scull_dev) (cap count : Nat) (f_pos : Int)
    (hk : k.intr = false) (h1 : (dev.size : Int) ≤ f_pos) (h2 : f_pos < 2 ^ 63) :
    scull_read k dev cap count f_pos = some ⟨0, { dev with mu := false }, f_pos, []⟩ := by
  have h0 : 0 ≤ f_pos := le_trans (Int.ofNat_nonneg _) h1
  have hu : (u64 f_pos : Int) = f_pos := by
    unfold u64
    rw [Int.emod_eq_of_lt h0 (by omega)]
    exact Int.toNat_of_nonneg h0
  have : u64 f_pos ≥ dev.size := by
    have : (dev.size : Int) ≤ (u64 f_pos : Int) := by rw [hu]; exact h1
    exact_mod_cast this
  unfold scull_read
  simp [hk, this]

/-- C3 (logical end of file): when the lock is obtained and the offset is at
or beyond `size`, `scull_read` returns 0, copies nothing, and leaves the
cursor, `size`, `quantum`, `qset` and the chain as they were. -/
theorem read_at_eof (k : Kernel) (dev : scull_dev) (cap count : Nat) (f_pos : Int)
    (hk : k.intr = false) (h1 : (dev.size : Int) ≤ f_pos) (h2 : f_pos < 2 ^ 63)
    (_hc : 0 < count) :
    scull_read k dev cap count f_pos = some ⟨0, { dev with mu := false }, f_pos, []⟩ :=
  scull_read_eof k dev cap count f_pos hk h1 h2

theorem read_at_eof_witness :
    scull_read ⟨false, 0, none, none⟩ ⟨[⟨some [.buf [1, 2, 0, 0]]⟩], 4, 1, 2, false⟩ 5 5 2 =
      some ⟨0, ⟨[⟨some [.buf [1, 2, 0, 0]]⟩], 4, 1, 2, false⟩, 2, []⟩ :=
  read_at_eof ⟨false, 0, none, none⟩ ⟨[⟨some [.buf [1, 2, 0, 0]]⟩], 4, 1, 2, false⟩ 5 5 2
    rfl (by decide) (by decide) (by decide)

/-- A call that obtains the lock does not depend on the state in which it
found the mutex. -/
theorem scull_write_mu (k : Kernel) (dev : scull_dev) (buf : List Nat) (count : Nat)
    (f_pos : Int) (m : Bool) (hk : k.intr = false) :
    scull_write k { dev with mu := m } buf count f_pos = scull_write k dev buf count f_pos := by
  unfold scull_write
  rw [scull_follow_eq, scull_follow_eq]
  simp only [hk]
  rfl

/-- Whenever `scull_trim` is defined its result is the freshly initialised
device, with the mutex as it was. -/
theorem scull_trim_some (dev d : scull_dev) (h : scull_trim dev = some d) :
    d = { scull_init_dev with mu := dev.mu } := by
  unfold scull_trim at h
  split at h
  · exact (Option.some.inj h).symm
  · cases h

theorem trim_slots_clean (s : Nat) (slots : List QuantumPtr) (hl : slots.length = s)
    (hc : ∀ a, QuantumPtr.wild a ∉ slots) : trim_slots (s : Int) slots = true := by
  unfold trim_slots
  rw [List.all_eq_true]
  intro i hi
  have hlt : i < slots.length := by
    rw [hl]; simpa using List.mem_range.mp hi
  rw [List.getElem?_eq_getElem hlt]
  simp only
  rcases hpt : slots[i] with _ | b | a
  · rfl
  · rfl
  · exact absurd (hpt ▸ List.getElem_mem hlt) (hc a)

theorem trim_chain_clean (s : Nat) : ∀ (chain : List scull_qset),
    (∀ seg ∈ chain, ∀ slots, seg.data = some slots → slots.length = s) →
    (∀ seg ∈ chain, ∀ slots, seg.data = some slots → ∀ a, QuantumPtr.wild a ∉ slots) →
    trim_chain (s : Int) chain = true := by
  intro chain
  induction chain with
  | nil => intro _ _; rfl
  | cons seg next ih =>
    intro hl hc
    unfold trim_chain
    rw [Bool.and_eq_true]
    constructor
    · rcases hd : seg.data with _ | slots
      · rfl
      · exact trim_slots_clean s slots (hl seg (List.mem_cons_self _ _) slots hd)
          (hc seg (List.mem_cons_self _ _) slots hd)
    · exact ih (fun sg h => hl sg (List.mem_cons_of_mem _ h))
        (fun sg h => hc sg (List.mem_cons_of_mem _ h))

/-- On a well-formed device whose arrays hold no unassigned word,
`scull_trim` is defined and yields the freshly initialised device. -/
theorem scull_trim_clean (dev : scull_dev) (hq : 0 ≤ dev.qset) (hwf : dev_wf dev)
    (hcl : clean dev) : scull_trim dev = some { scull_init_dev with mu := dev.mu } := by
  have hs : ((dev.qset.toNat : Nat) : Int) = dev.qset := Int.toNat_of_nonneg hq
  have := trim_chain_clean dev.qset.toNat dev.data
    (fun seg h slots hd => (hwf seg h slots hd).1) hcl
  rw [hs] at this
  unfold scull_trim
  rw [if_pos this]
  rfl

/-- On a well-formed device whose arrays hold no unassigned word `scull_trim`
resets the device: a read of one byte at offset 0 after it returns 0, a write
after it is the same write on a fresh device, and trimming the fresh device
changes nothing. -/
theorem trim_resets_clean (dev : scull_dev) (hq : 0 ≤ dev.qset) (hwf : dev_wf dev)
    (hcl : clean dev) :
    scull_trim dev = some { scull_init_dev with mu := dev.mu } ∧
    (∀ (k : Kernel) (cap : Nat), k.intr = false →
      scull_read k { scull_init_dev with mu := dev.mu } cap 1 0 =
        some ⟨0, scull_init_dev, 0, []⟩) ∧
    (∀ (k : Kernel) (buf : List Nat) (count : Nat) (f_pos : Int), k.intr = false →
      scull_write k { scull_init_dev with mu := dev.mu } buf count f_pos =
        scull_write k scull_init_dev buf count f_pos) ∧
    scull_trim scull_init_dev = some scull_init_dev := by
  refine ⟨scull_trim_clean dev hq hwf hcl, ?_, ?_, rfl⟩
  · intro k cap hk
    have := scull_read_eof k { scull_init_dev with mu := dev.mu } cap 1 0 hk
      (by show ((0 : Nat) : Int) ≤ 0; decide) (by decide)
    rw [this]
    rfl
  · intro k buf count f_pos hk
    exact scull_write_mu k scull_init_dev buf count f_pos dev.mu hk

/-- On a well-formed device whose arrays hold no unassigned word `scull_open`
returns 0; with `O_WRONLY` the device becomes the fresh device, otherwise it
is unchanged. -/
theorem open_truncates_clean (dev : scull_dev) (f_flags : Nat) (hq : 0 ≤ dev.qset)
    (hwf : dev_wf dev) (hcl : clean dev) :
    (f_flags &&& O_ACCMODE = O_WRONLY →
      scull_open dev f_flags = some (0, { scull_init_dev with mu := dev.mu })) ∧
    (f_flags &&& O_ACCMODE ≠ O_WRONLY → scull_open dev f_flags = some (0, dev)) := by
  constructor
  · intro h
    unfold scull_open
    rw [if_pos h, scull_trim_clean dev hq hwf hcl]
    rfl
  · intro h
    unfold scull_open
    rw [if_neg h]

/-- C10 (interruption leaves no mutation): when
`mutex_lock_interruptible` is interrupted, `scull_read` and `scull_write`
return `-ERESTARTSYS`, copy nothing, and return the device and the cursor
exactly as they received them. -/
theorem interrupted_no_mutation (k : Kernel) (dev : scull_dev) (buf : List Nat)
    (cap count : Nat) (f_pos : Int) (hk : k.intr = true) :
    scull_read k dev cap count f_pos = some ⟨-ERESTARTSYS, dev, f_pos, []⟩ ∧
    scull_write k dev buf count f_pos = some ⟨-ERESTARTSYS, dev, f_pos⟩ := by
  constructor
  · unfold scull_read; simp [hk]
  · unfold scull_write; simp [hk]

theorem interrupted_no_mutation_witness :
    scull_read ⟨true, 1, some [], some []⟩ ⟨[⟨some [.buf [1, 2, 0, 0]]⟩], 4, 1, 2, false⟩
        3 3 0 =
      some ⟨-ERESTARTSYS, ⟨[⟨some [.buf [1, 2, 0, 0]]⟩], 4, 1, 2, false⟩, 0, []⟩ ∧
    scull_write ⟨true, 1, some [], some []⟩ ⟨[⟨some [.buf [1, 2, 0, 0]]⟩], 4, 1, 2, false⟩
        [9, 9] 2 0 =
      some ⟨-ERESTARTSYS, ⟨[⟨some [.buf [1, 2, 0, 0]]⟩], 4, 1, 2, false⟩, 0⟩ :=
  interrupted_no_mutation ⟨true, 1, some [], some []⟩
    ⟨[⟨some [.buf [1, 2, 0, 0]]⟩], 4, 1, 2, false⟩ [9, 9] 3 3 0 rfl

/-! # Auxiliary facts: fresh blocks and `copy_in` -/

theorem fresh_slots_length (s : Nat) (ws : List Nat) (hs : s < 2 ^ 31) :
    (fresh_slots (s : Int) ws).length = s := by
  unfold fresh_slots
  have e : ((s : Int) * 8) = ((s * 8 : Nat) : Int) := by push_cast; rfl
  rw [List.length_set, List.length_map, List.length_range, e, u64_ofNat (by omega)]
  omega

theorem fresh_slots_get (s : Nat) (ws : List Nat) (hs : s < 2 ^ 31) (j : Nat) (hj : j < s) :
    (fresh_slots (s : Int) ws)[j]? = some (if j = 0 then .null else ofWord (ws.getD j 0)) := by
  unfold fresh_slots
  have e : ((s : Int) * 8) = ((s * 8 : Nat) : Int) := by push_cast; rfl
  have e2 : u64 ((s : Int) * 8) / 8 = s := by rw [e, u64_ofNat (by omega)]; omega
  rw [e2, List.getElem?_set]
  by_cases h0 : j = 0
  · subst h0
    simp [hj]
  · have : ¬ (0 = j) := fun h => h0 h.symm
    rw [if_neg this, if_neg h0, List.getElem?_map, List.getElem?_range hj]
    rfl

theorem fresh_slots_zeroed (s : Nat) (ws : List Nat) (hs : s < 2 ^ 31) (hz : zeroed ws)
    (j : Nat) (hj : j < s) : (fresh_slots (s : Int) ws)[j]? = some .null := by
  rw [fresh_slots_get s ws hs j hj]
  by_cases h0 : j = 0
  · rw [if_pos h0]
  · rw [if_neg h0]
    have : ws.getD j 0 = 0 := by
      rw [List.getD_eq_getElem?_getD]
      rcases h : ws[j]? with _ | w
      · rfl
      · have hm : w ∈ ws := List.getElem?_mem h
        simpa using hz w hm
    rw [this]
    rfl

theorem fresh_quantum_length (q : Nat) (wq : List Nat) (hq : q < 2 ^ 31) :
    (fresh_quantum (q : Int) wq).length = q := by
  unfold fresh_quantum
  rw [List.length_map, List.length_range, u64_ofNat (by omega)]

theorem copy_in_length (bytes buf : List Nat) (qp t : Nat) (h : qp + t ≤ bytes.length) :
    (copy_in bytes qp buf t).length = bytes.length := by
  unfold copy_in
  simp only [List.length_append, List.length_take, List.length_replicate, List.length_drop]
  omega

theorem copy_in_get (bytes buf : List Nat) (qp t : Nat) (h : qp + t ≤ bytes.length)
    (hb : t ≤ buf.length) (j : Nat) :
    (copy_in bytes qp buf t)[j]? =
      if qp ≤ j ∧ j < qp + t then buf[j - qp]? else bytes[j]? := by
  unfold copy_in
  have e : t - buf.length = 0 := by omega
  rw [e, List.replicate_zero, List.append_nil]
  by_cases h1 : j < qp
  · have : ¬ (qp ≤ j ∧ j < qp + t) := by omega
    rw [if_neg this, List.append_assoc, List.getElem?_append_left (by simp; omega),
      List.getElem?_take, if_pos h1]
  · rw [List.append_assoc, List.getElem?_append_right (by simp; omega)]
    have l1 : (List.take qp bytes).length = qp := by simp; omega
    rw [l1]
    by_cases h2 : j < qp + t
    · rw [if_pos ⟨by omega, h2⟩, List.getElem?_append_left (by simp; omega),
        List.getElem?_take, if_pos (by omega)]
    · have : ¬ (qp ≤ j ∧ j < qp + t) := by omega
      rw [if_neg this, List.getElem?_append_right (by simp; omega)]
      have l2 : (List.take t buf).length = t := by simp; omega
      rw [l2, List.getElem?_drop]
      congr 1
      omega

theorem fresh_slots_wf (q s : Nat) (ws : List Nat) (hs : s < 2 ^ 31) (hz : zeroed ws) :
    (∀ pt ∈ fresh_slots (s : Int) ws, slot_wf q pt) ∧
    (∀ a, QuantumPtr.wild a ∉ fresh_slots (s : Int) ws) := by
  have key : ∀ pt ∈ fresh_slots (s : Int) ws, pt = .null := by
    intro pt hpt
    obtain ⟨j, hj⟩ := List.mem_iff_getElem?.mp hpt
    have hlt : j < s := by
      have := (List.getElem?_eq_some.mp hj).1
      rwa [fresh_slots_length s ws hs] at this
    rw [fresh_slots_zeroed s ws hs hz j hlt] at hj
    exact (Option.some.inj hj).symm
  constructor
  · intro pt hpt
    rw [key pt hpt]
    trivial
  · intro a ha
    have := key _ ha
    cases this

/-- The array and the quantum a write will use exist and are well formed when
the device is well formed and clean and the kernel cooperates. -/
theorem write_target (k : Kernel) (dev : scull_dev) (q s p : Nat)
    (hq : dev.quantum = q) (hs : dev.qset = s) (hq1 : 1 ≤ q) (hs1 : 1 ≤ s)
    (hprod : q * s < 2 ^ 31)
    (it sp : Nat) (chain1 : List scull_qset)
    (hsp : sp = p % (q * s) / q)
    (hc : chain1 = dev.data ++
      List.replicate (min k.nodes (it + 1 - dev.data.length)) ⟨none⟩)
    (hwf : dev_wf dev) (hcl : clean dev) (hk : kernel_ok k (it + 1 - dev.data.length)) :
    ∃ slots bytes, slots.length = s ∧ bytes.length = q ∧
      (chain1[it]? = some ⟨some slots⟩ ∨
        (chain1[it]? = some ⟨none⟩ ∧ ∃ ws, k.slots = some ws ∧ slots = fresh_slots s ws)) ∧
      (slots[sp]? = some (.buf bytes) ∨
        (slots[sp]? = some .null ∧ ∃ wq, k.quantum = some wq ∧ bytes = fresh_quantum q wq)) ∧
      (∀ pt ∈ slots, slot_wf q pt) ∧ (∀ a, QuantumPtr.wild a ∉ slots) := by
  obtain ⟨_, hn, ⟨ws, hws, hz⟩, ⟨wq, hwq⟩⟩ := hk
  have hq31 : q < 2 ^ 31 := by
    calc q = q * 1 := (Nat.mul_one q).symm
      _ ≤ q * s := Nat.mul_le_mul_left q hs1
      _ < 2 ^ 31 := hprod
  have hs31 : s < 2 ^ 31 := by
    calc s = 1 * s := (Nat.one_mul s).symm
      _ ≤ q * s := Nat.mul_le_mul_right s hq1
      _ < 2 ^ 31 := hprod
  have hsps : sp < s := by
    rw [hsp]
    apply Nat.div_lt_of_lt_mul
    exact Nat.mod_lt _ (Nat.mul_pos hq1 hs1)
  have hqn : dev.quantum.toNat = q := by rw [hq]; exact Int.toNat_ofNat q
  have hsn : dev.qset.toNat = s := by rw [hs]; exact Int.toNat_ofNat s
  -- the slot, given a well-formed clean array
  have pick : ∀ slots : List QuantumPtr, slots.length = s → (∀ pt ∈ slots, slot_wf q pt) →
      (∀ a, QuantumPtr.wild a ∉ slots) →
      ∃ bytes, bytes.length = q ∧ (slots[sp]? = some (.buf bytes) ∨
        (slots[sp]? = some .null ∧ ∃ wq, k.quantum = some wq ∧ bytes = fresh_quantum q wq)) := by
    intro slots hl hw hnw
    have hlt : sp < slots.length := by omega
    have hget : slots[sp]? = some slots[sp] := List.getElem?_eq_getElem hlt
    have hmem : slots[sp] ∈ slots := List.getElem_mem hlt
    rcases hpt : slots[sp] with _ | b | a
    · exact ⟨fresh_quantum q wq, fresh_quantum_length q wq hq31,
        Or.inr ⟨by rw [hget, hpt], wq, hwq, rfl⟩⟩
    · have := hw _ hmem
      rw [hpt] at this
      exact ⟨b, this, Or.inl (by rw [hget, hpt])⟩
    · rw [hpt] at hmem
      exact absurd hmem (hnw a)
  by_cases hlt : it < dev.data.length
  · have hget : chain1[it]? = some dev.data[it] := by
      rw [hc, List.getElem?_append_left hlt]
      exact List.getElem?_eq_getElem hlt
    have hmem : dev.data[it] ∈ dev.data := List.getElem_mem hlt
    rcases hseg : dev.data[it] with ⟨_ | slots⟩
    · obtain ⟨hw, hnw⟩ := fresh_slots_wf q s ws hs31 hz
      obtain ⟨bytes, hbl, hb⟩ := pick (fresh_slots s ws) (fresh_slots_length s ws hs31) hw hnw
      exact ⟨fresh_slots s ws, bytes, fresh_slots_length s ws hs31, hbl,
        Or.inr ⟨by rw [hget, hseg], ws, hws, rfl⟩, hb, hw, hnw⟩
    · have hw := hwf _ hmem slots (by rw [hseg])
      rw [hqn, hsn] at hw
      have hnw := hcl _ hmem slots (by rw [hseg])
      obtain ⟨bytes, hbl, hb⟩ := pick slots hw.1 hw.2 hnw
      exact ⟨slots, bytes, hw.1, hbl, Or.inl (by rw [hget, hseg]), hb, hw.2, hnw⟩
  · have hget : chain1[it]? = some ⟨none⟩ := by
      rw [hc, List.getElem?_append_right (by omega), List.getElem?_replicate]
      rw [if_pos (by omega)]
    obtain ⟨hw, hnw⟩ := fresh_slots_wf q s ws hs31 hz
    obtain ⟨bytes, hbl, hb⟩ := pick (fresh_slots s ws) (fresh_slots_length s ws hs31) hw hnw
    exact ⟨fresh_slots s ws, bytes, fresh_slots_length s ws hs31, hbl,
      Or.inr ⟨hget, ws, hws, rfl⟩, hb, hw, hnw⟩

/-! # Case analysis in natural-number arithmetic

When `quantum * qset` fits an `int` the addressing of the code is the
mixed-radix decomposition of the offset. -/

theorem quantum_lt (q s : Nat) (hs1 : 1 ≤ s) (hprod : q * s < 2 ^ 31) : q < 2 ^ 31 :=
  calc q = q * 1 := (Nat.mul_one q).symm
    _ ≤ q * s := Nat.mul_le_mul_left q hs1
    _ < 2 ^ 31 := hprod

theorem qset_lt (q s : Nat) (hq1 : 1 ≤ q) (hprod : q * s < 2 ^ 31) : s < 2 ^ 31 :=
  calc s = 1 * s := (Nat.one_mul s).symm
    _ ≤ q * s := Nat.mul_le_mul_right s hq1
    _ < 2 ^ 31 := hprod

theorem scull_write_cases (k : Kernel) (dev : scull_dev) (buf : List Nat) (count : Nat)
    (q s p : Nat) (hq : dev.quantum = q) (hs : dev.qset = s) (hq1 : 1 ≤ q) (hs1 : 1 ≤ s)
    (hprod : q * s < 2 ^ 31) (hp : p < 2 ^ 63)
    (hk : k.intr = false) (r : WriteRet)
    (h : scull_write k dev buf count (p : Int) = some r)
    (it sp qp t : Nat) (chain1 : List scull_qset)
    (hit : it = (pos_item dev (p : Int) % 2 ^ 32).toNat)
    (hsp : sp = p % (q * s) / q) (hqpe : qp = p % (q * s) % q)
    (ht : t = min count (q - qp))
    (hc : chain1 = dev.data ++
      List.replicate (min k.nodes (it + 1 - dev.data.length)) ⟨none⟩) :
    (r = ⟨-ENOMEM, { dev with data := chain1, mu := false }, p⟩ ∧
      (k.nodes < it + 1 - dev.data.length ∨ (chain1[it]? = some ⟨none⟩ ∧ k.slots = none))) ∨
    ∃ slots, (chain1[it]? = some ⟨some slots⟩ ∨
        (chain1[it]? = some ⟨none⟩ ∧ ∃ ws, k.slots = some ws ∧ slots = fresh_slots s ws)) ∧
      ((slots[sp]? = some .null ∧ k.quantum = none ∧
          r = ⟨-ENOMEM, { dev with data := chain1.set it ⟨some slots⟩, mu := false }, p⟩) ∨
        ∃ bytes, (slots[sp]? = some (.buf bytes) ∨
            (slots[sp]? = some .null ∧ ∃ ws, k.quantum = some ws ∧
              bytes = fresh_quantum q ws)) ∧
          qp + t ≤ bytes.length ∧
          ((buf.length < t ∧ r = ⟨-EFAULT, { dev with
              data := chain1.set it ⟨some (slots.set sp (.buf (copy_in bytes qp buf t)))⟩,
              mu := false }, p⟩) ∨
            (t ≤ buf.length ∧ r = ⟨(t : Nat), { dev with
              data := chain1.set it ⟨some (slots.set sp (.buf (copy_in bytes qp buf t)))⟩,
              size := max dev.size (p + t),
              mu := false }, wrap64 ((p + t : Nat) : Int)⟩))) :=
  scull_write_cases_core k dev buf count q s p hq hs (quantum_lt q s hs1 hprod)
    (not_div_undefined dev q s p hq hs hq1 hs1 hprod) hp hk r h it sp qp t chain1 hit
    (by rw [hsp]; exact pos_s_nat dev q s p hq hs hprod)
    (by rw [hqpe]; exact pos_q_nat dev q s p hq hs hprod)
    (by rw [hqpe]; exact Nat.mod_lt _ (by omega)) ht hc

theorem scull_write_ok (k : Kernel) (dev : scull_dev) (buf : List Nat) (count : Nat)
    (q s p : Nat) (hq : dev.quantum = q) (hs : dev.qset = s) (hq1 : 1 ≤ q) (hs1 : 1 ≤ s)
    (hprod : q * s < 2 ^ 31) (hp : p < 2 ^ 63)
    (hk : k.intr = false)
    (it sp qp t : Nat) (chain1 : List scull_qset)
    (hit : it = (pos_item dev (p : Int) % 2 ^ 32).toNat)
    (hsp : sp = p % (q * s) / q) (hqpe : qp = p % (q * s) % q)
    (ht : t = min count (q - qp))
    (hc : chain1 = dev.data ++
      List.replicate (min k.nodes (it + 1 - dev.data.length)) ⟨none⟩)
    (hn : it + 1 - dev.data.length ≤ k.nodes)
    (slots : List QuantumPtr)
    (hslots : chain1[it]? = some ⟨some slots⟩ ∨
        (chain1[it]? = some ⟨none⟩ ∧ ∃ ws, k.slots = some ws ∧ slots = fresh_slots s ws))
    (bytes : List Nat)
    (hbytes : slots[sp]? = some (.buf bytes) ∨
        (slots[sp]? = some .null ∧ ∃ ws, k.quantum = some ws ∧ bytes = fresh_quantum q ws))
    (hlen : qp + t ≤ bytes.length) (hbuf : t ≤ buf.length) :
    scull_write k dev buf count (p : Int) = some ⟨(t : Nat), { dev with
        data := chain1.set it ⟨some (slots.set sp (.buf (copy_in bytes qp buf t)))⟩,
        size := max dev.size (p + t),
        mu := false }, wrap64 ((p + t : Nat) : Int)⟩ :=
  scull_write_ok_core k dev buf count q s p hq hs (quantum_lt q s hs1 hprod)
    (not_div_undefined dev q s p hq hs hq1 hs1 hprod) hp hk it sp qp t chain1 hit
    (by rw [hsp]; exact pos_s_nat dev q s p hq hs hprod)
    (by rw [hqpe]; exact pos_q_nat dev q s p hq hs hprod)
    (by rw [hqpe]; exact Nat.mod_lt _ (by omega)) ht hc hn slots hslots bytes hbytes hlen hbuf

theorem scull_read_cases (k : Kernel) (dev : scull_dev) (cap count : Nat)
    (q s p : Nat) (hq : dev.quantum = q) (hs : dev.qset = s) (hq1 : 1 ≤ q) (hs1 : 1 ≤ s)
    (hprod : q * s < 2 ^ 31) (hp : p < 2 ^ 63)
    (hk : k.intr = false) (hlt : p < dev.size) (hsz : dev.size < 2 ^ 64)
    (hsum : p + count < 2 ^ 64) (r : ReadRet)
    (h : scull_read k dev cap count (p : Int) = some r)
    (it sp qp t : Nat) (chain1 : List scull_qset)
    (hit : it = (pos_item dev (p : Int) % 2 ^ 32).toNat)
    (hsp : sp = p % (q * s) / q) (hqpe : qp = p % (q * s) % q)
    (ht : t = min (min count (dev.size - p)) (q - qp))
    (hc : chain1 = dev.data ++
      List.replicate (min k.nodes (it + 1 - dev.data.length)) ⟨none⟩) :
    (r = ⟨0, { dev with data := chain1, mu := false }, p, []⟩ ∧
      (k.nodes < it + 1 - dev.data.length ∨ chain1[it]? = some ⟨none⟩ ∨
        ∃ slots, chain1[it]? = some ⟨some slots⟩ ∧ slots[sp]? = some .null)) ∨
    ∃ slots bytes, chain1[it]? = some ⟨some slots⟩ ∧ slots[sp]? = some (.buf bytes) ∧
      qp + t ≤ bytes.length ∧
      ((cap < t ∧ r = ⟨-EFAULT, { dev with data := chain1, mu := false }, p,
          (bytes.drop qp).take cap⟩) ∨
        (t ≤ cap ∧ r = ⟨(t : Nat), { dev with data := chain1, mu := false },
          wrap64 ((p + t : Nat) : Int), (bytes.drop qp).take t⟩)) :=
  scull_read_cases_core k dev cap count q s p hq hs (quantum_lt q s hs1 hprod)
    (not_div_undefined dev q s p hq hs hq1 hs1 hprod) hp hk hlt hsz hsum r h it sp qp t chain1
    hit (by rw [hsp]; exact pos_s_nat dev q s p hq hs hprod)
    (by rw [hqpe]; exact pos_q_nat dev q s p hq hs hprod)
    (by rw [hqpe]; exact Nat.mod_lt _ (by omega)) ht hc

theorem scull_read_ok_core (k : Kernel) (dev : scull_dev) (cap count : Nat)
    (q p : Nat) (hq : dev.quantum = q) (hq31 : q < 2 ^ 31)
    (hdiv : ¬ div_undefined dev (p : Int)) (hp : p < 2 ^ 63)
    (hk : k.intr = false) (hlt : p < dev.size) (hsz : dev.size < 2 ^ 64)
    (hsum : p + count < 2 ^ 64)
    (it sp qp t : Nat) (chain1 : List scull_qset)
    (hit : it = (pos_item dev (p : Int) % 2 ^ 32).toNat)
    (hsp : pos_s dev (p : Int) = sp) (hqpe : pos_q dev (p : Int) = qp) (hqp : qp < q)
    (ht : t = min (min count (dev.size - p)) (q - qp))
    (hc : chain1 = dev.data ++
      List.replicate (min k.nodes (it + 1 - dev.data.length)) ⟨none⟩)
    (hn : it + 1 - dev.data.length ≤ k.nodes)
    (slots : List QuantumPtr) (bytes : List Nat)
    (hslots : chain1[it]? = some ⟨some slots⟩) (hbytes : slots[sp]? = some (.buf bytes))
    (hlen : qp + t ≤ bytes.length) (hcap : t ≤ cap) :
    scull_read k dev cap count (p : Int) =
      some ⟨(t : Nat), { dev with data := chain1, mu := false },
        wrap64 ((p + t : Nat) : Int), (bytes.drop qp).take t⟩ := by
  have hu : ¬ (u64 (p : Int) ≥ dev.size) := by rw [u64_ofNat (by omega)]; omega
  unfold scull_read
  rw [scull_follow_eq]
  simp only [hk, hu, read_count_nat dev.size count p hlt hsz hsum, hdiv, hsp, hqpe,
    slot_at_nat, Bool.false_eq_true, if_false,
    ← hit, ← hc, hq, clamp_quantum_nat _ q qp hq31 hqp, ← ht,
    Int.toNat_ofNat, hn, if_true, hslots, hbytes]
  clear hit hsp hqpe hdiv
  have hneg : ¬ ((qp : Int) < 0) := by omega
  simp only [hneg, false_or]
  rw [if_neg (by omega), if_neg (by omega)]
  have ht63 : t ≤ q := by omega
  have e1 : ((p : Int) + (t : Int)) = ((p + t : Nat) : Int) := by push_cast; rfl
  rw [e1, wrap64_id (x := (t : Int)) (by omega) (by omega)]

/-- Negative error returns are not successes. -/
theorem errno_neg : ¬ (0 ≤ -ERESTARTSYS) ∧ ¬ (0 ≤ -ENOMEM) ∧ ¬ (0 ≤ -EFAULT) := by
  decide

/-- C5, counterexample (the product `quantum * qset` is an `int`): with
`quantum = 65537` and `qset = 65536` the code computes
`itemsize = 65536`, so at offset 65536 its `q_pos` is 0 and a write of 2 bytes
returns 2, while the spec's `byteOffset` is 65536 and its length
`min(2, 65537 - 65536)` is 1. -/
theorem write_result_overflow :
    (∃ r, scull_write ⟨false, 2, some [], some []⟩ ⟨[], 65537, 65536, 0, false⟩ [1, 2] 2
        65536 = some r ∧ r.retval = 2) ∧
    spec_write_len 65537 65536 65536 2 = 1 := by
  constructor
  · have h := scull_write_ok_core ⟨false, 2, some [], some []⟩ ⟨[], 65537, 65536, 0, false⟩
      [1, 2] 2 65537 65536 65536 rfl rfl (by norm_num) (by decide) (by norm_num) rfl
      1 0 0 2 [⟨none⟩, ⟨none⟩] (by decide) (by decide) (by decide) (by norm_num)
      (by decide) (by decide) (by decide)
      (fresh_slots (65536 : Nat) []) (Or.inr ⟨by decide, [], rfl, rfl⟩)
      (fresh_quantum (65537 : Nat) [])
      (Or.inr ⟨by
        have := fresh_slots_get 65536 [] (by norm_num) 0 (by norm_num)
        simpa using this, [], rfl, rfl⟩)
      (by rw [fresh_quantum_length 65537 [] (by norm_num)]; norm_num) (by decide)
    exact ⟨_, h, rfl⟩
  · decide

/-- C5 (write result), amended: when `quantum * qset` fits an `int` and
`offset + t` fits a `loff_t`, where `t = min(count, quantum - byteOffset)`,
the transfer stays inside one quantum; every call of `scull_write` that
returns a non-negative value returns `t`, moves the cursor to `offset + t` and
sets `size` to `max(size, offset + t)`, so `size` never decreases, and
`quantum`, `qset` are unchanged; and on a well-formed clean device, with the
allocations succeeding and `t` bytes readable in the user buffer, the call
does return `t`. -/
theorem write_result (k : Kernel) (dev : scull_dev) (buf : List Nat) (count : Nat)
    (q s p : Nat) (hq : dev.quantum = q) (hs : dev.qset = s) (hq1 : 1 ≤ q) (hs1 : 1 ≤ s)
    (hprod : q * s < 2 ^ 31) (hp : p + spec_write_len q s p count < 2 ^ 63) :
    spec_byteOffset q s p + spec_write_len q s p count ≤ q ∧
    (∀ r, scull_write k dev buf count (p : Int) = some r → 0 ≤ r.retval →
      r.retval = (spec_write_len q s p count : Nat) ∧
      r.f_pos = (p : Int) + r.retval ∧
      r.dev.size = max dev.size (p + spec_write_len q s p count) ∧
      dev.size ≤ r.dev.size ∧ r.dev.quantum = q ∧ r.dev.qset = s) ∧
    (dev_wf dev → clean dev → p / (q * s) < 2 ^ 31 →
      kernel_ok k (p / (q * s) + 1 - dev.data.length) →
      spec_write_len q s p count ≤ buf.length →
      ∃ r, scull_write k dev buf count (p : Int) = some r ∧
        r.retval = (spec_write_len q s p count : Nat)) := by
  have hqp : spec_byteOffset q s p < q := Nat.mod_lt _ (by omega)
  have hp63 : p < 2 ^ 63 := by omega
  refine ⟨?_, ?_, ?_⟩
  · unfold spec_write_len; omega
  · intro r h hret
    have e : wrap64 ((p + spec_write_len q s p count : Nat) : Int)
        = ((p + spec_write_len q s p count : Nat) : Int) :=
      wrap64_id (by omega) (by omega)
    by_cases hk : k.intr = true
    · have : r = ⟨-ERESTARTSYS, dev, p⟩ := by
        unfold scull_write at h
        simp only [hk, if_true] at h
        exact (Option.some.inj h).symm
      rw [this] at hret
      exact absurd hret errno_neg.1
    · have hk' : k.intr = false := by simpa using hk
      rcases scull_write_cases k dev buf count q s p hq hs hq1 hs1 hprod hp63 hk' r h
        _ _ (spec_byteOffset q s p) (spec_write_len q s p count) _ rfl rfl rfl rfl rfl with
        ⟨rfl, _⟩ | ⟨slots, _, ⟨_, _, rfl⟩ | ⟨bytes, _, _, ⟨_, rfl⟩ | ⟨_, rfl⟩⟩⟩
      · exact absurd hret errno_neg.2.1
      · exact absurd hret errno_neg.2.1
      · exact absurd hret errno_neg.2.2
      · simp only [e]
        refine ⟨trivial, by push_cast; rfl, trivial, le_max_left _ _, hq, hs⟩
  · intro hwf hcl hitem hk hbuf
    have hit := item_iter dev q s p hq hs hprod hitem
    obtain ⟨slots, bytes, _, hbl, hslots, hbytes, _, _⟩ :=
      write_target k dev q s p hq hs hq1 hs1 hprod (p / (q * s)) _ _ rfl rfl hwf hcl hk
    have := scull_write_ok k dev buf count q s p hq hs hq1 hs1 hprod hp63 hk.1
      (p / (q * s)) _ (spec_byteOffset q s p) (spec_write_len q s p count) _ hit.symm rfl rfl rfl
      rfl hk.2.1 slots hslots bytes hbytes (by rw [hbl]; unfold spec_write_len; omega) hbuf
    exact ⟨_, this, rfl⟩

theorem write_result_witness :
    ∃ r, scull_write ⟨false, 1, some [], some []⟩ ⟨[], 4, 2, 0, false⟩ [1, 2, 3, 4, 5, 6] 6
        (5 : Nat) = some r ∧ r.retval = (spec_write_len 4 2 5 6 : Nat) :=
  (write_result ⟨false, 1, some [], some []⟩ ⟨[], 4, 2, 0, false⟩ [1, 2, 3, 4, 5, 6] 6
    4 2 5 rfl rfl (by decide) (by decide) (by decide) (by decide)).2.2
    (by simp [dev_wf]) (by simp [clean]) (by decide)
    ⟨rfl, by decide, ⟨[], rfl, by simp [zeroed]⟩, ⟨[], rfl⟩⟩ (by decide)

/-- C6, counterexample (the product `quantum * qset` is an `int`): a device
with `quantum = 65537`, `qset = 65536`, `size = 65538` and two nodes, each
with its array and its first quantum allocated (what writing two bytes at
offset 0 and two at offset 65536 leaves behind).  The code computes
`itemsize = 65536`, so `read(65536, 2)` addresses node 1 at `q_pos = 0` and
returns 2 bytes, while the spec's `byteOffset` is 65536 and its length
`min(2, 65538 - 65536, 65537 - 65536)` is 1. -/
theorem read_result_overflow :
    (∃ r, scull_read ⟨false, 0, none, none⟩
        ⟨[⟨some ((fresh_slots (65536 : Nat) []).set 0
              (.buf (copy_in (fresh_quantum (65537 : Nat) []) 0 [1, 2] 2)))⟩,
          ⟨some ((fresh_slots (65536 : Nat) []).set 0
              (.buf (copy_in (fresh_quantum (65537 : Nat) []) 0 [3, 4] 2)))⟩],
          65537, 65536, 65538, false⟩ 2 2 65536 = some r ∧ r.retval = 2) ∧
    spec_read_len 65537 65536 65538 65536 2 = 1 := by
  constructor
  · have hl : (fresh_slots (65536 : Nat) []).length = 65536 :=
      fresh_slots_length 65536 [] (by norm_num)
    have h := scull_read_ok_core ⟨false, 0, none, none⟩
      ⟨[⟨some ((fresh_slots (65536 : Nat) []).set 0
            (.buf (copy_in (fresh_quantum (65537 : Nat) []) 0 [1, 2] 2)))⟩,
        ⟨some ((fresh_slots (65536 : Nat) []).set 0
            (.buf (copy_in (fresh_quantum (65537 : Nat) []) 0 [3, 4] 2)))⟩],
        65537, 65536, 65538, false⟩ 2 2
      65537 65536 rfl (by norm_num) (by decide) (by norm_num) rfl (by norm_num) (by norm_num)
      (by norm_num) 1 0 0 2 _ (by decide) (by decide) (by decide) (by norm_num)
      (by decide) rfl (by decide)
      ((fresh_slots (65536 : Nat) []).set 0
        (.buf (copy_in (fresh_quantum (65537 : Nat) []) 0 [3, 4] 2)))
      (copy_in (fresh_quantum (65537 : Nat) []) 0 [3, 4] 2)
      (by simp)
      (by rw [List.getElem?_set_self (by rw [hl]; norm_num)])
      (by
        rw [copy_in_length _ _ _ _
          (by rw [fresh_quantum_length 65537 [] (by norm_num)]; norm_num),
          fresh_quantum_length 65537 [] (by norm_num)]
        norm_num)
      (by decide)
    exact ⟨_, h, rfl⟩
  · decide

/-- One successful call of `scull_read` inside one quantum. -/
theorem scull_read_step (k : Kernel) (dev : scull_dev) (cap count : Nat)
    (q s p : Nat) (hq : dev.quantum = q) (hs : dev.qset = s) (hq1 : 1 ≤ q) (hs1 : 1 ≤ s)
    (hprod : q * s < 2 ^ 31) (hitem : p / (q * s) < 2 ^ 31)
    (hsum : p + count < 2 ^ 64) (hsz : dev.size < 2 ^ 64)
    (hp : p + spec_read_len q s dev.size p count < 2 ^ 63)
    (hk : k.intr = false) (hlt : p < dev.size)
    (slots : List QuantumPtr) (bytes : List Nat)
    (hseg : dev.data[p / (q * s)]? = some ⟨some slots⟩)
    (hslot : slots[p % (q * s) / q]? = some (.buf bytes)) (hbl : bytes.length = q)
    (hcap : spec_read_len q s dev.size p count ≤ cap) :
    scull_read k dev cap count (p : Int) =
      some ⟨(spec_read_len q s dev.size p count : Nat), { dev with mu := false },
        ((p + spec_read_len q s dev.size p count : Nat) : Int),
        (bytes.drop (spec_byteOffset q s p)).take (spec_read_len q s dev.size p count)⟩ ∧
    spec_byteOffset q s p + spec_read_len q s dev.size p count ≤ q := by
  have hqp : spec_byteOffset q s p < q := Nat.mod_lt _ (by omega)
  have hlen : spec_byteOffset q s p + spec_read_len q s dev.size p count ≤ q := by
    unfold spec_read_len; omega
  refine ⟨?_, hlen⟩
  have hit := item_iter dev q s p hq hs hprod hitem
  have hil : p / (q * s) < dev.data.length := (List.getElem?_eq_some.mp hseg).1
  have hz : p / (q * s) + 1 - dev.data.length = 0 := by omega
  have hc : dev.data = dev.data ++
      List.replicate (min k.nodes (p / (q * s) + 1 - dev.data.length)) ⟨none⟩ := by
    rw [hz]; simp
  have := scull_read_ok_core k dev cap count q p hq (quantum_lt q s hs1 hprod)
    (not_div_undefined dev q s p hq hs hq1 hs1 hprod) (by omega) hk hlt hsz hsum
    (p / (q * s)) (p % (q * s) / q) (spec_byteOffset q s p) (spec_read_len q s dev.size p count)
    dev.data hit.symm (pos_s_nat dev q s p hq hs hprod) (pos_q_nat dev q s p hq hs hprod)
    hqp rfl hc (by omega) slots bytes hseg hslot (by rw [hbl]; exact hlen) hcap
  rw [this, wrap64_id (by omega) (by omega)]

/-- C6 (read result), amended: when `quantum * qset` and the index of the
node fit an `int`, `offset + maxCount` fits a `size_t`, `offset + t` fits a
`loff_t`, the lock is obtained, `offset < size`, the node, its array and the
quantum for the offset exist (the quantum having `quantum` bytes) and the user
buffer takes `t = min(maxCount, size - offset, quantum - byteOffset)` bytes,
`scull_read` returns `t`, hands out exactly the `t` bytes of the quantum from
`byteOffset` on, which lie inside that one quantum, advances the cursor to
`offset + t` and leaves the device as it was. -/
theorem read_result (k : Kernel) (dev : scull_dev) (cap count : Nat)
    (q s p : Nat) (hq : dev.quantum = q) (hs : dev.qset = s) (hq1 : 1 ≤ q) (hs1 : 1 ≤ s)
    (hprod : q * s < 2 ^ 31) (hitem : p / (q * s) < 2 ^ 31)
    (hsum : p + count < 2 ^ 64) (hsz : dev.size < 2 ^ 64)
    (hp : p + spec_read_len q s dev.size p count < 2 ^ 63)
    (hk : k.intr = false) (hlt : p < dev.size)
    (slots : List QuantumPtr) (bytes : List Nat)
    (hseg : dev.data[p / (q * s)]? = some ⟨some slots⟩)
    (hslot : slots[p % (q * s) / q]? = some (.buf bytes)) (hbl : bytes.length = q)
    (hcap : spec_read_len q s dev.size p count ≤ cap) :
    scull_read k dev cap count (p : Int) =
      some ⟨(spec_read_len q s dev.size p count : Nat), { dev with mu := false },
        ((p + spec_read_len q s dev.size p count : Nat) : Int),
        (bytes.drop (spec_byteOffset q s p)).take (spec_read_len q s dev.size p count)⟩ ∧
    spec_byteOffset q s p + spec_read_len q s dev.size p count ≤ q :=
  scull_read_step k dev cap count q s p hq hs hq1 hs1 hprod hitem hsum hsz hp hk hlt slots bytes
    hseg hslot hbl hcap

theorem read_result_witness :
    scull_read ⟨false, 0, none, none⟩ ⟨[⟨some [.buf [1, 2, 3, 4], .buf [5, 6, 0, 0]]⟩],
        4, 2, 6, false⟩ 8 8 (1 : Nat) =
      some ⟨(spec_read_len 4 2 6 1 8 : Nat),
        ⟨[⟨some [.buf [1, 2, 3, 4], .buf [5, 6, 0, 0]]⟩], 4, 2, 6, false⟩,
        ((1 + spec_read_len 4 2 6 1 8 : Nat) : Int),
        (List.drop (spec_byteOffset 4 2 1) [1, 2, 3, 4]).take (spec_read_len 4 2 6 1 8)⟩ ∧
    spec_byteOffset 4 2 1 + spec_read_len 4 2 6 1 8 ≤ 4 :=
  read_result ⟨false, 0, none, none⟩ ⟨[⟨some [.buf [1, 2, 3, 4], .buf [5, 6, 0, 0]]⟩],
    4, 2, 6, false⟩ 8 8 4 2 1 rfl rfl (by decide) (by decide) (by decide) (by decide)
    (by decide) (by decide) (by decide) rfl (by decide)
    [.buf [1, 2, 3, 4], .buf [5, 6, 0, 0]] [1, 2, 3, 4] rfl rfl rfl (by decide)

/-! # Facts that hold in every state -/

theorem write_copy_params (d1 : scull_dev) (i : Nat) (slots : List QuantumPtr)
    (s_pos q_pos : Int) (bytes buf : List Nat) (count : Nat) (f_pos : Int) (r : WriteRet)
    (h : write_copy d1 i slots s_pos q_pos bytes buf count f_pos = some r) :
    r.dev.quantum = d1.quantum ∧ r.dev.qset = d1.qset := by
  unfold write_copy at h
  simp only at h
  split at h
  · exact absurd h (by simp)
  · split at h
    · have hr := Option.some.inj h
      subst hr
      exact ⟨rfl, rfl⟩
    · have hr := Option.some.inj h
      subst hr
      exact ⟨rfl, rfl⟩

/-- No call of `scull_write` changes `quantum` or `qset`. -/
theorem scull_write_params (k : Kernel) (dev : scull_dev) (buf : List Nat) (count : Nat)
    (f_pos : Int) (r : WriteRet) (h : scull_write k dev buf count f_pos = some r) :
    r.dev.quantum = dev.quantum ∧ r.dev.qset = dev.qset := by
  unfold scull_write at h
  rw [scull_follow_eq] at h
  simp only at h
  repeat' split at h
  all_goals first
    | (have hw := write_copy_params _ _ _ _ _ _ _ _ _ _ h; exact hw)
    | (have hr := Option.some.inj h; subst hr; exact ⟨rfl, rfl⟩)
    | exact absurd h (Option.noConfusion)

/-- A call of `scull_write` asked for at least one byte and returning a
non-negative value returns at least 1 and at most what was asked. -/
theorem scull_write_progress (k : Kernel) (dev : scull_dev) (buf : List Nat) (count : Nat)
    (f_pos : Int) (r : WriteRet) (hq1 : 1 ≤ dev.quantum) (hq31 : dev.quantum < 2 ^ 31)
    (hc : 1 ≤ count) (h : scull_write k dev buf count f_pos = some r) (hret : 0 ≤ r.retval) :
    1 ≤ r.retval ∧ r.retval ≤ count := by
  have hqlt : pos_q dev f_pos < dev.quantum := Int.tmod_lt_of_pos _ (by omega)
  have key : ∀ (d1 : scull_dev) (i : Nat) (slots : List QuantumPtr) (s_pos : Int)
      (bytes : List Nat), d1.quantum = dev.quantum →
      write_copy d1 i slots s_pos (pos_q dev f_pos) bytes buf count f_pos = some r →
      1 ≤ r.retval ∧ r.retval ≤ count := by
    intro d1 i slots s_pos bytes hd hw
    unfold write_copy at hw
    simp only at hw
    split at hw
    · exact absurd hw (by simp)
    · rename_i hnn
      have h0 : 0 ≤ pos_q dev f_pos := by omega
      generalize pos_q dev f_pos = qp at hqlt h0 hw hnn
      have hcl : clamp_quantum count d1.quantum qp = min count (d1.quantum - qp).toNat := by
        unfold clamp_quantum
        rw [hd, wrap32_id (by omega) (by omega)]
        have : u64 (dev.quantum - qp) = (dev.quantum - qp).toNat := by
          unfold u64
          rw [Int.emod_eq_of_lt (by omega) (by omega)]
        rw [this]
        split <;> omega
      rw [hcl] at hw
      split at hw
      · have hr := Option.some.inj hw
        subst hr
        exact absurd hret errno_neg.2.2
      · have hr := Option.some.inj hw
        subst hr
        simp only at hret ⊢
        have hb : min count (dev.quantum - qp).toNat < 2 ^ 31 := by omega
        rw [hd]
        rw [wrap64_id (by omega) (by omega)]
        omega
  unfold scull_write at h
  rw [scull_follow_eq] at h
  simp only at h
  repeat' split at h
  all_goals first
    | (have hw := key _ _ _ _ _ (by rfl) h; exact hw)
    | (have hr := Option.some.inj h; subst hr;
       first | exact absurd hret errno_neg.1 | exact absurd hret errno_neg.2.1)
    | exact absurd h (Option.noConfusion)

/-! # Auxiliary facts: the quantum of a position -/

theorem addr_split (q s p : Nat) :
    p = p / (q * s) * (q * s) + p % (q * s) / q * q + p % (q * s) % q := by
  have h1 := Nat.div_add_mod p (q * s)
  have h2 := Nat.div_add_mod (p % (q * s)) q
  rw [Nat.mul_comm] at h1 h2
  omega

theorem addr_unique (q s i sp qp : Nat) (hsp : sp < s) (hqp : qp < q) :
    (i * (q * s) + sp * q + qp) / (q * s) = i ∧
    (i * (q * s) + sp * q + qp) % (q * s) / q = sp ∧
    (i * (q * s) + sp * q + qp) % (q * s) % q = qp := by
  have hr : sp * q + qp < q * s := by
    calc sp * q + qp < sp * q + q := by omega
      _ = (sp + 1) * q := by ring
      _ ≤ s * q := Nat.mul_le_mul_right q (by omega)
      _ = q * s := Nat.mul_comm s q
  have hpos : 0 < q * s := by omega
  have e : i * (q * s) + sp * q + qp = (sp * q + qp) + (q * s) * i := by ring
  have hmod : (i * (q * s) + sp * q + qp) % (q * s) = sp * q + qp := by
    rw [e, Nat.add_mul_mod_self_left, Nat.mod_eq_of_lt hr]
  have hdiv : (i * (q * s) + sp * q + qp) / (q * s) = i := by
    rw [e, Nat.add_mul_div_left _ _ hpos, Nat.div_eq_of_lt hr, Nat.zero_add]
  refine ⟨hdiv, ?_, ?_⟩
  · rw [hmod]
    have e2 : sp * q + qp = qp + q * sp := by ring
    rw [e2, Nat.add_mul_div_left _ _ (by omega), Nat.div_eq_of_lt hqp, Nat.zero_add]
  · rw [hmod]
    have e2 : sp * q + qp = qp + q * sp := by ring
    rw [e2, Nat.add_mul_mod_self_left, Nat.mod_eq_of_lt hqp]

/-- Positions `p + d` that stay inside the quantum of `p` have the node and
slot of `p`. -/
theorem addr_shift (q s p d : Nat) (hq1 : 1 ≤ q) (hs1 : 1 ≤ s)
    (hd : p % (q * s) % q + d < q) :
    (p + d) / (q * s) = p / (q * s) ∧ (p + d) % (q * s) / q = p % (q * s) / q ∧
    (p + d) % (q * s) % q = p % (q * s) % q + d := by
  have hsp : p % (q * s) / q < s := by
    apply Nat.div_lt_of_lt_mul
    exact Nat.mod_lt _ (Nat.mul_pos hq1 hs1)
  have := addr_unique q s (p / (q * s)) (p % (q * s) / q) (p % (q * s) % q + d) hsp hd
  have e : p / (q * s) * (q * s) + p % (q * s) / q * q + (p % (q * s) % q + d) = p + d := by
    have := addr_split q s p
    omega
  rw [e] at this
  exact this

/-- Two positions with the same node and slot differ by the difference of
their offsets in the quantum. -/
theorem addr_same (q s p j : Nat) (h1 : j / (q * s) = p / (q * s))
    (h2 : j % (q * s) / q = p % (q * s) / q) :
    j + p % (q * s) % q = p + j % (q * s) % q := by
  have hp := addr_split q s p
  have hj := addr_split q s j
  rw [h1, h2] at hj
  omega

theorem quantum_at_append (data : List scull_qset) (n i j : Nat) :
    quantum_at (data ++ List.replicate n ⟨none⟩) i j = quantum_at data i j := by
  unfold quantum_at
  by_cases h : i < data.length
  · rw [List.getElem?_append_left h]
  · rw [List.getElem?_append_right (by omega), List.getElem?_replicate,
      List.getElem?_eq_none (by omega)]
    split <;> simp_all

theorem quantum_at_set_self (chain : List scull_qset) (slots : List QuantumPtr)
    (it sp : Nat) (b : List Nat) (hit : it < chain.length) (hsp : sp < slots.length) :
    quantum_at (chain.set it ⟨some (slots.set sp (.buf b))⟩) it sp = some b := by
  unfold quantum_at
  rw [List.getElem?_set_self (by simpa using hit)]
  simp only
  rw [List.getElem?_set_self hsp]

/-- Installing a quantum in slot `sp` of node `it` leaves every other pair
(node, slot) as it was, provided the array written back is the node's own
array, or a new array without quantums for a node that had none. -/
theorem quantum_at_set_other (chain : List scull_qset) (slots : List QuantumPtr)
    (it sp i j : Nat) (b : List Nat)
    (hsl : chain[it]? = some ⟨some slots⟩ ∨
      (chain[it]? = some ⟨none⟩ ∧
        ∀ (n : Nat) (c : List Nat), slots[n]? ≠ some (QuantumPtr.buf c)))
    (hne : ¬ (i = it ∧ j = sp)) :
    quantum_at (chain.set it ⟨some (slots.set sp (.buf b))⟩) i j = quantum_at chain i j := by
  unfold quantum_at
  by_cases hi : i = it
  · subst hi
    have hj : ¬ (sp = j) := fun h => hne ⟨rfl, h.symm⟩
    have hlt : i < chain.length := by
      rcases hsl with h | ⟨h, _⟩ <;> exact (List.getElem?_eq_some.mp h).1
    rw [List.getElem?_set_self hlt]
    simp only
    rw [List.getElem?_set_ne hj]
    rcases hsl with h | ⟨h, hfresh⟩
    · rw [h]
    · rw [h]
      simp only
      rcases hs : slots[j]? with _ | pt
      · rfl
      · rcases pt with _ | c | a
        · rfl
        · exact absurd hs (hfresh j c)
        · rfl
  · have : ¬ (it = i) := fun h => hi h.symm
    rw [List.getElem?_set_ne this]

theorem peek_def (dev : scull_dev) (q s j : Nat) (hq : dev.quantum = q) (hs : dev.qset = s) :
    peek dev j =
      (quantum_at dev.data (j / (q * s)) (j % (q * s) / q)).bind
        (fun b => b[j % (q * s) % q]?) := by
  unfold peek
  simp only [hq, hs, Int.toNat_ofNat]

theorem fresh_slots_no_buf (qset : Int) (ws : List Nat) (n : Nat) (c : List Nat) :
    (fresh_slots qset ws)[n]? ≠ some (QuantumPtr.buf c) := by
  unfold fresh_slots
  rw [List.getElem?_set]
  split
  · split <;> simp
  · rw [List.getElem?_map]
    rcases (List.range (u64 (qset * 8) / 8))[n]? with _ | m
    · simp
    · simp only [Option.map_some', ne_eq, Option.some.injEq]
      unfold ofWord
      split <;> simp

/-- One successful call of `scull_write` on a well-formed clean device: the
result, the invariants it keeps, the bytes it stores and the bytes it leaves
alone. -/
theorem write_step (k : Kernel) (dev : scull_dev) (buf : List Nat) (count : Nat)
    (q s p : Nat) (hq : dev.quantum = q) (hs : dev.qset = s) (hq1 : 1 ≤ q) (hs1 : 1 ≤ s)
    (hprod : q * s < 2 ^ 31) (hitem : p / (q * s) < 2 ^ 31)
    (hp : p + spec_write_len q s p count < 2 ^ 63)
    (hwf : dev_wf dev) (hcl : clean dev)
    (hk : kernel_ok k (p / (q * s) + 1 - dev.data.length))
    (hbuf : spec_write_len q s p count ≤ buf.length) :
    ∃ r, scull_write k dev buf count (p : Int) = some r ∧
      r.retval = (spec_write_len q s p count : Nat) ∧
      r.f_pos = ((p + spec_write_len q s p count : Nat) : Int) ∧
      r.dev.quantum = q ∧ r.dev.qset = s ∧
      r.dev.size = max dev.size (p + spec_write_len q s p count) ∧ r.dev.mu = false ∧
      dev_wf r.dev ∧ clean r.dev ∧
      (∀ d, d < spec_write_len q s p count → peek r.dev (p + d) = buf[d]?) ∧
      (∀ j b, (j < p ∨ p + spec_write_len q s p count ≤ j) → peek dev j = some b →
        peek r.dev j = some b) := by
  have hqp : spec_byteOffset q s p < q := Nat.mod_lt _ (by omega)
  have hp63 : p < 2 ^ 63 := by omega
  have hit := item_iter dev q s p hq hs hprod hitem
  have hsps : p % (q * s) / q < s := by
    apply Nat.div_lt_of_lt_mul
    exact Nat.mod_lt _ (Nat.mul_pos hq1 hs1)
  obtain ⟨slots, bytes, hsl, hbl, hslots, hbytes, hsw, hsn⟩ :=
    write_target k dev q s p hq hs hq1 hs1 hprod (p / (q * s)) _ _ rfl rfl hwf hcl hk
  have htq : spec_byteOffset q s p + spec_write_len q s p count ≤ q := by
    unfold spec_write_len; omega
  have hw := scull_write_ok k dev buf count q s p hq hs hq1 hs1 hprod hp63 hk.1
    (p / (q * s)) _ (spec_byteOffset q s p) (spec_write_len q s p count) _ hit.symm rfl rfl rfl
    rfl hk.2.1 slots hslots bytes hbytes (by rw [hbl]; exact htq) hbuf
  clear hit
  rw [wrap64_id (by omega) (by omega)] at hw
  generalize hch : dev.data ++ List.replicate
    (min k.nodes (p / (q * s) + 1 - dev.data.length)) (⟨none⟩ : scull_qset) = chain1 at *
  have hitl : p / (q * s) < chain1.length := by
    rcases hslots with h | ⟨h, _⟩ <;> exact (List.getElem?_eq_some.mp h).1
  have hcl' : (copy_in bytes (spec_byteOffset q s p) buf (spec_write_len q s p count)).length
      = q := by
    rw [copy_in_length _ _ _ _ (by rw [hbl]; exact htq), hbl]
  have hqn : dev.quantum.toNat = q := by rw [hq]; exact Int.toNat_ofNat q
  have hsn' : dev.qset.toNat = s := by rw [hs]; exact Int.toNat_ofNat s
  have hmem1 : ∀ seg ∈ chain1, seg ∈ dev.data ∨ seg = ⟨none⟩ := by
    intro seg hseg
    rw [← hch] at hseg
    rcases List.mem_append.mp hseg with h | h
    · exact Or.inl h
    · exact Or.inr (List.eq_of_mem_replicate h)
  refine ⟨_, hw, rfl, rfl, hq, hs, rfl, rfl, ?_, ?_, ?_, ?_⟩
  · -- well-formedness
    intro seg hseg
    simp only at hseg ⊢
    rw [hqn, hsn']
    rcases List.mem_or_eq_of_mem_set hseg with h | h
    · rcases hmem1 seg h with h | h
      · have := hwf seg h
        rwa [hqn, hsn'] at this
      · rw [h]; intro sl hsl'; cases hsl'
    · rw [h]
      intro sl hsl'
      have hsl'' := Option.some.inj hsl'
      subst hsl''
      refine ⟨by rw [List.length_set]; exact hsl, ?_⟩
      intro pt hpt
      rcases List.mem_or_eq_of_mem_set hpt with h | h
      · exact hsw pt h
      · rw [h]; exact hcl'
  · -- cleanness
    intro seg hseg sl hsl' a ha
    simp only at hseg
    rcases List.mem_or_eq_of_mem_set hseg with h | h
    · rcases hmem1 seg h with h | h
      · exact hcl seg h sl hsl' a ha
      · rw [h] at hsl'; cases hsl'
    · rw [h] at hsl'
      have hsl'' := Option.some.inj hsl'
      subst hsl''
      rcases List.mem_or_eq_of_mem_set ha with h | h
      · exact hsn a h
      · cases h
  · -- the bytes written
    intro d hd
    have hsh := addr_shift q s p d hq1 hs1 (by unfold spec_byteOffset at htq; omega)
    unfold peek
    simp only [hq, hs, Int.toNat_ofNat, hsh.1, hsh.2.1, hsh.2.2]
    rw [quantum_at_set_self chain1 slots _ _ _ hitl (by omega)]
    rw [Option.some_bind]
    rw [copy_in_get _ _ _ _ (by rw [hbl]; exact htq) hbuf]
    unfold spec_byteOffset at *
    rw [if_pos (by omega)]
    congr 1
    omega
  · -- the bytes left alone
    intro j b hj hpk
    unfold peek at hpk ⊢
    simp only [hq, hs, Int.toNat_ofNat] at hpk ⊢
    by_cases hsame : j / (q * s) = p / (q * s) ∧ j % (q * s) / q = p % (q * s) / q
    · rw [hsame.1, hsame.2] at hpk ⊢
      rw [quantum_at_set_self chain1 slots _ _ _ hitl (by omega)]
      rw [Option.some_bind]
      have hold : quantum_at chain1 (p / (q * s)) (p % (q * s) / q) = some bytes := by
        have hqa : quantum_at chain1 (p / (q * s)) (p % (q * s) / q) =
            quantum_at dev.data (p / (q * s)) (p % (q * s) / q) := by
          rw [← hch]; exact quantum_at_append _ _ _ _
        rcases hslots with h | ⟨h, _⟩
        · rcases hbytes with h' | ⟨h', _⟩
          · unfold quantum_at; rw [h]; simp only; rw [h']
          · rw [← hqa] at hpk
            unfold quantum_at at hpk
            rw [h] at hpk
            simp only at hpk
            rw [h'] at hpk
            cases hpk
        · rw [← hqa] at hpk
          unfold quantum_at at hpk
          rw [h] at hpk
          cases hpk
      have hqa : quantum_at dev.data (p / (q * s)) (p % (q * s) / q) = some bytes := by
        rw [← hold, ← hch]; exact (quantum_at_append _ _ _ _).symm
      rw [hqa] at hpk
      rw [Option.some_bind] at hpk
      have hsm := addr_same q s p j hsame.1 hsame.2
      rw [copy_in_get _ _ _ _ (by rw [hbl]; exact htq) hbuf]
      unfold spec_byteOffset at *
      rw [if_neg (by omega)]
      exact hpk
    · have hfr : chain1[p / (q * s)]? = some ⟨some slots⟩ ∨
          (chain1[p / (q * s)]? = some ⟨none⟩ ∧
            ∀ (n : Nat) (c : List Nat), slots[n]? ≠ some (QuantumPtr.buf c)) := by
        rcases hslots with h | ⟨h, ws, _, hws⟩
        · exact Or.inl h
        · exact Or.inr ⟨h, fun n c => by rw [hws]; exact fresh_slots_no_buf _ _ n c⟩
      rw [quantum_at_set_other chain1 slots _ _ _ _ _ hfr hsame, ← hch, quantum_at_append]
      exact hpk

/-! # The write loop on a well-formed device -/

theorem kernel_ok_mono (k : Kernel) (m n : Nat) (h : m ≤ n) (hk : kernel_ok k n) :
    kernel_ok k m :=
  ⟨hk.1, le_trans h hk.2.1, hk.2.2⟩

theorem spec_write_len_pos (q s p n : Nat) (hq1 : 1 ≤ q) (hn : 1 ≤ n) :
    1 ≤ spec_write_len q s p n ∧ spec_write_len q s p n ≤ n := by
  have hqp : spec_byteOffset q s p < q := Nat.mod_lt _ (by omega)
  unfold spec_write_len
  omega

theorem write_all_ok (q s : Nat) (hq1 : 1 ≤ q) (hs1 : 1 ≤ s) (hprod : q * s < 2 ^ 31) :
    ∀ (ks : List Kernel) (dev : scull_dev) (buf : List Nat) (p : Nat),
      dev.quantum = q → dev.qset = s → dev_wf dev → clean dev →
      (p + buf.length) / (q * s) < 2 ^ 31 → p + buf.length < 2 ^ 63 →
      buf.length ≤ ks.length →
      (∀ k ∈ ks, kernel_ok k ((p + buf.length) / (q * s) + 1)) →
      ∃ w, write_all ks dev buf (p : Int) = some w ∧ w.rest = [] ∧ w.status = 0 ∧
        w.calls ≤ buf.length ∧ w.f_pos = ((p + buf.length : Nat) : Int) ∧
        w.dev.quantum = q ∧ w.dev.qset = s ∧
        (buf ≠ [] → w.dev.size = max dev.size (p + buf.length)) ∧
        (buf = [] → w.dev = dev) ∧
        dev_wf w.dev ∧ clean w.dev ∧
        (∀ d, d < buf.length → peek w.dev (p + d) = buf[d]?) ∧
        (∀ j b, j < p → peek dev j = some b → peek w.dev j = some b) := by
  intro ks
  induction ks with
  | nil =>
    intro dev buf p hq hs hwf hcl _ _ hlen _
    have hb : buf = [] := List.eq_nil_of_length_eq_zero (by simpa using hlen)
    subst hb
    exact ⟨⟨0, dev, p, [], 0⟩, rfl, rfl, rfl, by simp, by simp, hq, hs,
      fun h => absurd rfl h, fun _ => rfl, hwf, hcl, fun d hd => by simp at hd,
      fun j b _ h => h⟩
  | cons k ks ih =>
    intro dev buf p hq hs hwf hcl hitem hp hlen hks
    by_cases hb : buf = []
    · subst hb
      refine ⟨⟨0, dev, p, [], 0⟩, ?_, rfl, rfl, by simp, by simp, hq, hs,
        fun h => absurd rfl h, fun _ => rfl, hwf, hcl, fun d hd => by simp at hd,
        fun j b _ h => h⟩
      simp [write_all]
    · have hn : 1 ≤ buf.length := by
        rcases buf with _ | ⟨x, xs⟩
        · exact absurd rfl hb
        · simp
      obtain ⟨ht1, htn⟩ := spec_write_len_pos q s p buf.length hq1 hn
      have hdiv : p / (q * s) ≤ (p + buf.length) / (q * s) :=
        Nat.div_le_div_right (by omega)
      obtain ⟨r, hw, hret, hfp, hrq, hrs, hsz, _, hrwf, hrcl, hwr, hfr⟩ :=
        write_step k dev buf buf.length q s p hq hs hq1 hs1 hprod
          (Nat.lt_of_le_of_lt hdiv hitem) (by omega) hwf hcl
          (kernel_ok_mono k _ _ (Nat.le_trans (Nat.sub_le _ _) (Nat.succ_le_succ hdiv))
            (hks k (List.mem_cons_self k ks)))
          htn
      generalize spec_write_len q s p buf.length = t at *
      have hlen' : (buf.drop t).length = buf.length - t := List.length_drop t buf
      have hsum : p + t + (buf.drop t).length = p + buf.length := by rw [hlen']; omega
      obtain ⟨w, hw', hrest, hst, hcalls, hwfp, hwq, hws, hwsz, hwe, hwwf, hwcl, hwwr, hwfr⟩ :=
        ih r.dev (buf.drop t) (p + t) hrq hrs hrwf hrcl (by rw [hsum]; exact hitem)
          (by rw [hsum]; exact hp)
          (by rw [hlen']; simp at hlen; omega)
          (fun k' hk' => by rw [hsum]; exact hks k' (List.mem_cons_of_mem k hk'))
      refine ⟨{ w with calls := w.calls + 1 }, ?_, hrest, hst, ?_, ?_, hwq, hws, ?_, ?_,
        hwwf, hwcl, ?_, ?_⟩
      · unfold write_all
        rw [if_neg hb, hw]
        simp only
        have hpos : ¬ (r.retval ≤ 0) := by rw [hret]; omega
        rw [if_neg hpos, hret, Int.toNat_ofNat, hfp, hw']
        rfl
      · simp only; rw [hlen'] at hcalls; omega
      · simp only; rw [hwfp, hsum]
      · intro _
        simp only
        by_cases hd : buf.drop t = []
        · rw [hwe hd, hsz]
          have : buf.length - t = 0 := by rw [← hlen', hd]; rfl
          have : t = buf.length := by omega
          rw [this]
        · rw [hwsz hd, hsz, hsum]
          omega
      · intro h; exact absurd h hb
      · intro d hd
        simp only
        by_cases hdt : d < t
        · have h1 := hwr d hdt
          have h2 : buf[d]? = some buf[d] := List.getElem?_eq_getElem hd
          rw [h2] at h1 ⊢
          exact hwfr (p + d) _ (by omega) h1
        · have h1 := hwwr (d - t) (by rw [hlen']; omega)
          have e : p + t + (d - t) = p + d := by omega
          rw [e, List.getElem?_drop] at h1
          rw [h1]
          congr 1
          omega
      · intro j b hj hpk
        simp only
        exact hwfr j b (by omega) (hfr j b (Or.inl hj) hpk)

/-! # The read loop on a well-formed device -/

theorem quantum_at_some (data : List scull_qset) (i j : Nat) (b : List Nat)
    (h : quantum_at data i j = some b) :
    ∃ slots, data[i]? = some ⟨some slots⟩ ∧ slots[j]? = some (.buf b) := by
  unfold quantum_at at h
  split at h
  · rename_i slots hd
    split at h
    · rename_i bytes hs
      have := Option.some.inj h
      subst this
      exact ⟨slots, hd, hs⟩
    · cases h
  · cases h

theorem read_step_peek (k : Kernel) (dev : scull_dev) (n : Nat)
    (q s p : Nat) (hq : dev.quantum = q) (hs : dev.qset = s) (hq1 : 1 ≤ q) (hs1 : 1 ≤ s)
    (hprod : q * s < 2 ^ 31) (hitem : p / (q * s) < 2 ^ 31) (hk : k.intr = false)
    (hwf : dev_wf dev) (hsize : dev.size = p + n) (hn : 1 ≤ n) (hp : p + n < 2 ^ 63)
    (hpk : ∀ d, d < n → ∃ b, peek dev (p + d) = some b) :
    ∃ r, scull_read k dev n n (p : Int) = some r ∧
      r.retval = (spec_write_len q s p n : Nat) ∧
      r.f_pos = ((p + spec_write_len q s p n : Nat) : Int) ∧
      r.dev = { dev with mu := false } ∧
      r.out.length = spec_write_len q s p n ∧
      (∀ d, d < spec_write_len q s p n → r.out[d]? = peek dev (p + d)) := by
  obtain ⟨ht1, htn⟩ := spec_write_len_pos q s p n hq1 hn
  have hqp : spec_byteOffset q s p < q := Nat.mod_lt _ (by omega)
  have hrl : spec_read_len q s dev.size p n = spec_write_len q s p n := by
    unfold spec_read_len spec_write_len
    rw [hsize]
    omega
  obtain ⟨b0, hb0⟩ := hpk 0 (by omega)
  rw [Nat.add_zero, peek_def dev q s p hq hs] at hb0
  rcases hqa : quantum_at dev.data (p / (q * s)) (p % (q * s) / q) with _ | bytes
  · rw [hqa] at hb0; cases hb0
  · obtain ⟨slots, hseg, hslot⟩ := quantum_at_some _ _ _ _ hqa
    have hqn : dev.quantum.toNat = q := by rw [hq]; exact Int.toNat_ofNat q
    have hsn : dev.qset.toNat = s := by rw [hs]; exact Int.toNat_ofNat s
    have hbl : bytes.length = q := by
      have hmem : (⟨some slots⟩ : scull_qset) ∈ dev.data := List.getElem?_mem hseg
      have := (hwf _ hmem slots rfl).2 _ (List.getElem?_mem hslot)
      rw [hqn] at this
      exact this
    have hstep := scull_read_step k dev n n q s p hq hs hq1 hs1 hprod hitem (by omega)
      (by omega) (by rw [hrl]; omega) hk (by omega) slots bytes hseg hslot hbl
      (by rw [hrl]; exact htn)
    rw [hrl] at hstep
    have htq : spec_byteOffset q s p + spec_write_len q s p n ≤ q := hstep.2
    refine ⟨_, hstep.1, rfl, rfl, rfl, ?_, ?_⟩
    · simp only [List.length_take, List.length_drop, hbl]
      omega
    · intro d hd
      simp only
      rw [List.getElem?_take, if_pos hd, List.getElem?_drop]
      have hsh := addr_shift q s p d hq1 hs1 (by unfold spec_byteOffset at htq; omega)
      rw [peek_def dev q s (p + d) hq hs, hsh.1, hsh.2.1, hsh.2.2, hqa, Option.some_bind]
      rfl

theorem read_all_ok (q s : Nat) (hq1 : 1 ≤ q) (hs1 : 1 ≤ s) (hprod : q * s < 2 ^ 31) :
    ∀ (ks : List Kernel) (dev : scull_dev) (n p : Nat),
      dev.quantum = q → dev.qset = s → dev_wf dev → dev.size = p + n →
      (p + n) / (q * s) < 2 ^ 31 → p + n < 2 ^ 63 → n ≤ ks.length →
      (∀ k ∈ ks, k.intr = false) →
      (∀ d, d < n → ∃ b, peek dev (p + d) = some b) →
      ∃ a, read_all ks dev n (p : Int) = some a ∧ a.bytes.length = n ∧
        (∀ d, d < n → a.bytes[d]? = peek dev (p + d)) := by
  intro ks
  induction ks with
  | nil =>
    intro dev n p _ _ _ _ _ _ hlen _ _
    have hn : n = 0 := by simpa using hlen
    subst hn
    exact ⟨⟨dev, p, []⟩, rfl, rfl, fun d hd => by omega⟩
  | cons k ks ih =>
    intro dev n p hq hs hwf hsize hitem hp hlen hks hpk
    by_cases hn0 : n = 0
    · subst hn0
      refine ⟨⟨dev, p, []⟩, ?_, rfl, fun d hd => by omega⟩
      simp [read_all]
    · have hn : 1 ≤ n := by omega
      obtain ⟨ht1, htn⟩ := spec_write_len_pos q s p n hq1 hn
      have hdiv : p / (q * s) ≤ (p + n) / (q * s) := Nat.div_le_div_right (by omega)
      obtain ⟨r, hr, hret, hfp, hdev, hol, hout⟩ :=
        read_step_peek k dev n q s p hq hs hq1 hs1 hprod (Nat.lt_of_le_of_lt hdiv hitem)
          (hks k (List.mem_cons_self k ks)) hwf hsize hn hp hpk
      generalize spec_write_len q s p n = t at *
      have hsum : p + t + (n - t) = p + n := by omega
      have hpeek : ∀ j, peek r.dev j = peek dev j := by
        intro j; rw [hdev]; rfl
      obtain ⟨a, ha, hal, hab⟩ := ih r.dev (n - t) (p + t)
        (by rw [hdev]; exact hq) (by rw [hdev]; exact hs)
        (by rw [hdev]; exact hwf) (by rw [hdev]; simp only; omega)
        (by rw [hsum]; exact hitem) (by omega) (by simp at hlen; omega)
        (fun k' hk' => hks k' (List.mem_cons_of_mem k hk'))
        (fun d hd => by
          rw [hpeek]
          have := hpk (t + d) (by omega)
          rwa [← Nat.add_assoc] at this)
      refine ⟨{ a with bytes := r.out ++ a.bytes }, ?_, ?_, ?_⟩
      · unfold read_all
        rw [if_neg hn0, hr]
        simp only
        have hpos : ¬ (r.retval ≤ 0) := by rw [hret]; omega
        rw [if_neg hpos, hret, Int.toNat_ofNat, hfp, ha]
        rfl
      · simp only [List.length_append, hol, hal]; omega
      · intro d hd
        simp only
        by_cases hdt : d < t
        · rw [List.getElem?_append_left (by rw [hol]; exact hdt)]
          exact hout d hdt
        · rw [List.getElem?_append_right (by rw [hol]; omega), hol, hab (d - t) (by omega),
            hpeek]
          congr 1
          omega

/-! # Claims C1 and C7 -/

/-- C1, counterexample (the product `quantum * qset` is an `int`): with
`quantum = qset = 65536` the code computes `itemsize = 0` and the first
`write` divides by zero, so nothing is written and nothing can be read back. -/
theorem round_trip_overflow :
    write_all [⟨false, 1, some [], some []⟩] ⟨[], 65536, 65536, 0, false⟩ [7] 0 = none := by
  decide

/-- C1 (round trip), amended: for `quantum ≥ 1`, `qset ≥ 1` with
`quantum * qset` fitting an `int`, and a byte sequence `B` whose length fits a
`loff_t` and whose last node index fits an `int`, starting from the empty
device, when every call obtains the lock, the allocations succeed and the
blocks handed out for the arrays are zeroed, writing `B` by repeated `write`
from offset 0 transfers all of `B`, and reading `B.length` bytes by repeated
`read` from offset 0 then yields exactly `B`. -/
theorem round_trip (q s : Nat) (B : List Nat) (kw kr : List Kernel)
    (hq1 : 1 ≤ q) (hs1 : 1 ≤ s) (hprod : q * s < 2 ^ 31)
    (hitem : B.length / (q * s) < 2 ^ 31) (hN : B.length < 2 ^ 63)
    (hkw : ∀ k ∈ kw, kernel_ok k (B.length / (q * s) + 1)) (hkwl : B.length ≤ kw.length)
    (hkr : ∀ k ∈ kr, k.intr = false) (hkrl : B.length ≤ kr.length) :
    ∃ w, write_all kw ⟨[], q, s, 0, false⟩ B 0 = some w ∧ w.rest = [] ∧ w.status = 0 ∧
      ∃ a, read_all kr w.dev B.length 0 = some a ∧ a.bytes = B := by
  have hwf0 : dev_wf ⟨[], q, s, 0, false⟩ := by intro seg h; cases h
  have hcl0 : clean ⟨[], q, s, 0, false⟩ := by intro seg h; cases h
  obtain ⟨w, hw, hrest, hst, _, _, hwq, hws, hwsz, hwe, hwwf, _, hwr, _⟩ :=
    write_all_ok q s hq1 hs1 hprod kw ⟨[], q, s, 0, false⟩ B 0 rfl rfl hwf0 hcl0
      (by rw [Nat.zero_add]; exact hitem) (by omega) hkwl
      (fun k hk => by rw [Nat.zero_add]; exact hkw k hk)
  have hsize : w.dev.size = 0 + B.length := by
    by_cases hb : B = []
    · rw [hwe hb, hb]; rfl
    · rw [hwsz hb]; simp
  obtain ⟨a, ha, hal, hab⟩ :=
    read_all_ok q s hq1 hs1 hprod kr w.dev B.length 0 hwq hws hwwf hsize
      (by rw [Nat.zero_add]; exact hitem) (by omega) hkrl hkr
      (fun d hd => ⟨B[d], by rw [hwr d hd]; exact List.getElem?_eq_getElem hd⟩)
  refine ⟨w, hw, hrest, hst, a, ha, ?_⟩
  apply List.ext_getElem?
  intro d
  by_cases hd : d < B.length
  · rw [hab d hd, hwr d hd]
  · rw [List.getElem?_eq_none (by omega), List.getElem?_eq_none (by omega)]

theorem round_trip_witness :
    ∃ w, write_all (List.replicate 5 ⟨false, 3, some [], some []⟩) ⟨[], 2, 2, 0, false⟩
        [10, 20, 30, 40, 50] 0 = some w ∧ w.rest = [] ∧ w.status = 0 ∧
      ∃ a, read_all (List.replicate 5 ⟨false, 0, none, none⟩) w.dev
        [10, 20, 30, 40, 50].length 0 = some a ∧ a.bytes = [10, 20, 30, 40, 50] :=
  round_trip 2 2 [10, 20, 30, 40, 50] (List.replicate 5 ⟨false, 3, some [], some []⟩)
    (List.replicate 5 ⟨false, 0, none, none⟩) (by decide) (by decide) (by decide)
    (by decide) (by decide)
    (fun k hk => by
      rw [List.eq_of_mem_replicate hk]
      exact ⟨rfl, by decide, ⟨[], rfl, by simp [zeroed]⟩, ⟨[], rfl⟩⟩)
    (by decide)
    (fun k hk => by rw [List.eq_of_mem_replicate hk])
    (by decide)

/-- The write loop makes at most one call per byte, and stops with bytes left
only on an error return. -/
theorem write_all_calls : ∀ (ks : List Kernel) (dev : scull_dev) (buf : List Nat) (f_pos : Int)
    (w : WriteAll), 1 ≤ dev.quantum → dev.quantum < 2 ^ 31 →
    write_all ks dev buf f_pos = some w →
    w.calls ≤ buf.length ∧ (buf.length ≤ ks.length → w.status = 0 → w.rest = []) := by
  intro ks
  induction ks with
  | nil =>
    intro dev buf f_pos w _ _ h
    have hw := Option.some.inj h
    subst hw
    refine ⟨Nat.zero_le _, fun hl _ => ?_⟩
    exact List.eq_nil_of_length_eq_zero (by simpa using hl)
  | cons k ks ih =>
    intro dev buf f_pos w hq1 hq31 h
    unfold write_all at h
    by_cases hb : buf = []
    · rw [if_pos hb] at h
      have hw := Option.some.inj h
      subst hw
      exact ⟨Nat.zero_le _, fun _ _ => rfl⟩
    · rw [if_neg hb] at h
      have hn : 1 ≤ buf.length := by
        rcases buf with _ | ⟨x, xs⟩
        · exact absurd rfl hb
        · simp
      rcases hsw : scull_write k dev buf buf.length f_pos with _ | r
      · rw [hsw] at h; cases h
      · rw [hsw] at h
        simp only at h
        by_cases hneg : r.retval ≤ 0
        · rw [if_pos hneg] at h
          have hw := Option.some.inj h
          subst hw
          refine ⟨hn, fun _ hst => ?_⟩
          simp only at hst
          have := scull_write_progress k dev buf buf.length f_pos r hq1 hq31 hn hsw
            (by omega)
          omega
        · rw [if_neg hneg] at h
          obtain ⟨hr1, hrn⟩ := scull_write_progress k dev buf buf.length f_pos r hq1 hq31 hn
            hsw (by omega)
          obtain ⟨hpq, _⟩ := scull_write_params k dev buf buf.length f_pos r hsw
          rcases hrec : write_all ks r.dev (buf.drop r.retval.toNat) r.f_pos with _ | w'
          · rw [hrec] at h; cases h
          · rw [hrec] at h
            have hw := Option.some.inj h
            subst hw
            obtain ⟨hc, hrest⟩ := ih r.dev (buf.drop r.retval.toNat) r.f_pos w'
              (by rw [hpq]; exact hq1) (by rw [hpq]; exact hq31) hrec
            rw [List.length_drop] at hc hrest
            refine ⟨?_, fun hl hst => hrest ?_ hst⟩
            · simp only; omega
            · simp only [List.length_cons] at hl; omega

/-- C7 (write loop progress): on a device with `1 ≤ quantum` (a C `int`),
every call of `scull_write` asked for `count ≥ 1` bytes that returns a
non-negative value returns between 1 and `count`; hence the loop that
re-invokes `write` with the advanced cursor and the remaining bytes makes at
most `n` calls for `n` bytes and, given `n` calls and no error return, ends
with nothing left to write; and on a well-formed clean device with no
overflow and a cooperating kernel it does end that way, the cursor advanced by
`n`. -/
theorem write_loop_progress (dev : scull_dev) (hq1 : 1 ≤ dev.quantum)
    (hq31 : dev.quantum < 2 ^ 31) :
    (∀ (k : Kernel) (buf : List Nat) (count : Nat) (f_pos : Int) (r : WriteRet),
      1 ≤ count → scull_write k dev buf count f_pos = some r → 0 ≤ r.retval →
      1 ≤ r.retval ∧ r.retval ≤ count) ∧
    (∀ (ks : List Kernel) (buf : List Nat) (f_pos : Int) (w : WriteAll),
      write_all ks dev buf f_pos = some w →
      w.calls ≤ buf.length ∧ (buf.length ≤ ks.length → w.status = 0 → w.rest = [])) ∧
    (∀ (ks : List Kernel) (buf : List Nat) (q s p : Nat),
      dev.quantum = q → dev.qset = s → 1 ≤ s → q * s < 2 ^ 31 →
      dev_wf dev → clean dev → (p + buf.length) / (q * s) < 2 ^ 31 →
      p + buf.length < 2 ^ 63 → buf.length ≤ ks.length →
      (∀ k ∈ ks, kernel_ok k ((p + buf.length) / (q * s) + 1)) →
      ∃ w, write_all ks dev buf (p : Int) = some w ∧ w.rest = [] ∧ w.status = 0 ∧
        w.calls ≤ buf.length ∧ w.f_pos = ((p + buf.length : Nat) : Int)) := by
  refine ⟨?_, ?_, ?_⟩
  · intro k buf count f_pos r hc h hret
    exact scull_write_progress k dev buf count f_pos r hq1 hq31 hc h hret
  · intro ks buf f_pos w h
    exact write_all_calls ks dev buf f_pos w hq1 hq31 h
  · intro ks buf q s p hq hs hs1 hprod hwf hcl hitem hp hlen hks
    have hq1' : 1 ≤ q := by rw [hq] at hq1; exact_mod_cast hq1
    obtain ⟨w, hw, hrest, hst, hcalls, hfp, _⟩ :=
      write_all_ok q s hq1' hs1 hprod ks dev buf p hq hs hwf hcl hitem hp hlen hks
    exact ⟨w, hw, hrest, hst, hcalls, hfp⟩

theorem write_loop_progress_witness :
    ∃ w, write_all (List.replicate 5 ⟨false, 3, some [], some []⟩) ⟨[], 2, 2, 0, false⟩
        [10, 20, 30, 40, 50] ((0 : Nat) : Int) = some w ∧ w.rest = [] ∧ w.status = 0 ∧
      w.calls ≤ [10, 20, 30, 40, 50].length ∧
      w.f_pos = ((0 + [10, 20, 30, 40, 50].length : Nat) : Int) :=
  (write_loop_progress ⟨[], 2, 2, 0, false⟩ (by decide) (by decide)).2.2
    (List.replicate 5 ⟨false, 3, some [], some []⟩) [10, 20, 30, 40, 50] 2 2 0 rfl rfl
    (by decide) (by decide) (by intro seg h; cases h) (by intro seg h; cases h)
    (by decide) (by decide) (by decide)
    (fun k hk => by
      rw [List.eq_of_mem_replicate hk]
      exact ⟨rfl, by decide, ⟨[], rfl, by simp [zeroed]⟩, ⟨[], rfl⟩⟩)

/-! # Reachable devices: the quantum of the last byte exists -/

theorem item_index_eq (dev : scull_dev) (q s p : Nat) (hq : dev.quantum = q)
    (hs : dev.qset = s) (hprod : q * s < 2 ^ 31) :
    (pos_item dev (p : Int) % 2 ^ 32).toNat = item_index q s p := by
  unfold pos_item item_index
  rw [itemsize_nat dev q s hq hs hprod, ← Int.ofNat_tdiv]

/-- Whatever `scull_read` returns, it leaves the parameters and `size` alone
and at most appends nodes without array to the chain. -/
theorem scull_read_frame (k : Kernel) (dev : scull_dev) (cap count : Nat) (f_pos : Int)
    (r : ReadRet) (h : scull_read k dev cap count f_pos = some r) :
    ∃ n, r.dev.data = dev.data ++ List.replicate n ⟨none⟩ ∧
      r.dev.quantum = dev.quantum ∧ r.dev.qset = dev.qset ∧ r.dev.size = dev.size := by
  unfold scull_read at h
  rw [scull_follow_eq] at h
  simp only at h
  repeat' split at h
  all_goals first
    | exact absurd h (Option.noConfusion)
    | (have hr := Option.some.inj h; subst hr
       first
         | exact ⟨_, rfl, rfl, rfl, rfl⟩
         | exact ⟨0, (List.append_nil _).symm, rfl, rfl, rfl⟩)

theorem quantum_at_set_array (chain : List scull_qset) (slots : List QuantumPtr)
    (it i j : Nat)
    (hsl : chain[it]? = some ⟨some slots⟩ ∨
      (chain[it]? = some ⟨none⟩ ∧
        ∀ (n : Nat) (c : List Nat), slots[n]? ≠ some (QuantumPtr.buf c))) :
    quantum_at (chain.set it ⟨some slots⟩) i j = quantum_at chain i j := by
  unfold quantum_at
  by_cases hi : it = i
  · subst hi
    have hlt : it < chain.length := by
      rcases hsl with h | ⟨h, _⟩ <;> exact (List.getElem?_eq_some.mp h).1
    rw [List.getElem?_set_self hlt]
    rcases hsl with h | ⟨h, hfresh⟩
    · rw [h]
    · rw [h]
      simp only
      rcases hs : slots[j]? with _ | pt
      · rfl
      · rcases pt with _ | c | a
        · rfl
        · exact absurd hs (hfresh j c)
        · rfl
  · rw [List.getElem?_set_ne hi]

theorem fresh_slots_slot_wf (q : Nat) (qset : Int) (ws : List Nat) :
    ∀ pt ∈ fresh_slots qset ws, slot_wf q pt := by
  intro pt hpt
  obtain ⟨n, hn⟩ := List.mem_iff_getElem?.mp hpt
  rcases pt with _ | c | a
  · trivial
  · exact absurd hn (fresh_slots_no_buf qset ws n c)
  · trivial

theorem reach_inv_init : reach_inv 4000 1000 scull_init_dev := by
  refine ⟨rfl, rfl, ?_, by decide, Or.inl rfl⟩
  intro seg h; cases h

theorem reach_inv_trim (dev d : scull_dev) (h : scull_trim dev = some d) :
    reach_inv 4000 1000 d := by
  rw [scull_trim_some dev d h]
  refine ⟨rfl, rfl, ?_, by show (0 : Nat) < 2 ^ 64; decide, Or.inl rfl⟩
  intro seg h; cases h

theorem reach_inv_read (q s : Nat) (k : Kernel) (dev : scull_dev) (cap count : Nat)
    (f_pos : Int) (r : ReadRet) (hinv : reach_inv q s dev)
    (h : scull_read k dev cap count f_pos = some r) : reach_inv q s r.dev := by
  obtain ⟨n, hd, hq, hs, hsz⟩ := scull_read_frame k dev cap count f_pos r h
  obtain ⟨iq, is, iw, i64, ib⟩ := hinv
  refine ⟨by rw [hq]; exact iq, by rw [hs]; exact is, ?_, by rw [hsz]; exact i64, ?_⟩
  · intro seg hseg slots hsl pt hpt
    rw [hd] at hseg
    rw [hq]
    rcases List.mem_append.mp hseg with h1 | h1
    · exact iw seg h1 slots hsl pt hpt
    · rw [List.eq_of_mem_replicate h1] at hsl; cases hsl
  · rw [hsz, hd]
    rcases ib with h0 | ⟨b, hb⟩
    · exact Or.inl h0
    · exact Or.inr ⟨b, by rw [quantum_at_append]; exact hb⟩

theorem reach_inv_write (q s : Nat) (hq1 : 1 ≤ q) (hs1 : 1 ≤ s) (hprod : q * s < 2 ^ 31)
    (k : Kernel) (dev : scull_dev) (buf : List Nat) (count p : Nat) (r : WriteRet)
    (hinv : reach_inv q s dev) (hc : 1 ≤ count) (hp : p < 2 ^ 63)
    (h : scull_write k dev buf count (p : Int) = some r) : reach_inv q s r.dev := by
  obtain ⟨iq, is, iw, i64, ib⟩ := hinv
  have hqn : dev.quantum.toNat = q := by rw [iq]; exact Int.toNat_ofNat q
  have hq31 := quantum_lt q s hs1 hprod
  by_cases hk : k.intr = true
  · have : r = ⟨-ERESTARTSYS, dev, p⟩ := by
      unfold scull_write at h
      simp only [hk, if_true] at h
      exact (Option.some.inj h).symm
    rw [this]
    exact ⟨iq, is, iw, i64, ib⟩
  · have hk' : k.intr = false := by simpa using hk
    have hqp : p % (q * s) % q < q := Nat.mod_lt _ (by omega)
    have hcases := scull_write_cases k dev buf count q s p iq is hq1 hs1 hprod hp hk' r h
      (item_index q s p) (p % (q * s) / q) (p % (q * s) % q)
      (min count (q - p % (q * s) % q))
      (dev.data ++ List.replicate
        (min k.nodes (item_index q s p + 1 - dev.data.length)) ⟨none⟩)
      (item_index_eq dev q s p iq is hprod).symm rfl rfl rfl rfl
    generalize hch : dev.data ++ List.replicate
      (min k.nodes (item_index q s p + 1 - dev.data.length)) (⟨none⟩ : scull_qset)
      = chain1 at hcases
    generalize ht : min count (q - p % (q * s) % q) = t at hcases
    have ht1 : 1 ≤ t := by omega
    have hmem1 : ∀ seg ∈ chain1, seg ∈ dev.data ∨ seg = ⟨none⟩ := by
      intro seg hseg
      rw [← hch] at hseg
      rcases List.mem_append.mp hseg with h | h
      · exact Or.inl h
      · exact Or.inr (List.eq_of_mem_replicate h)
    have hwf1 : ∀ seg ∈ chain1, ∀ slots, seg.data = some slots →
        ∀ pt ∈ slots, slot_wf q pt := by
      intro seg hseg slots hsl pt hpt
      rcases hmem1 seg hseg with h | h
      · have := iw seg h slots hsl pt hpt
        rwa [hqn] at this
      · rw [h] at hsl; cases hsl
    have hqa1 : ∀ i j, quantum_at chain1 i j = quantum_at dev.data i j := by
      intro i j; rw [← hch]; exact quantum_at_append _ _ _ _
    -- assembling the invariant from facts about the new chain
    have build : ∀ (data' : List scull_qset) (size' : Nat) (m : Bool),
        (∀ seg ∈ data', ∀ slots, seg.data = some slots → ∀ pt ∈ slots, slot_wf q pt) →
        size' < 2 ^ 64 →
        (size' = 0 ∨ ∃ b, quantum_at data' (item_index q s (size' - 1))
          ((size' - 1) % (q * s) / q) = some b) →
        reach_inv q s ⟨data', dev.quantum, dev.qset, size', m⟩ := by
      intro data' size' m h1 h2 h3
      refine ⟨iq, is, ?_, h2, h3⟩
      intro seg hseg slots hsl pt hpt
      show slot_wf dev.quantum.toNat pt
      rw [hqn]
      exact h1 seg hseg slots hsl pt hpt
    rcases hcases with ⟨rfl, _⟩ | ⟨slots, hslots, hrest⟩
    · -- no node or no array
      apply build _ _ _ hwf1 i64
      rcases ib with h0 | ⟨b, hb⟩
      · exact Or.inl h0
      · exact Or.inr ⟨b, by rw [hqa1]; exact hb⟩
    · have hfr : chain1[item_index q s p]? = some ⟨some slots⟩ ∨
          (chain1[item_index q s p]? = some ⟨none⟩ ∧
            ∀ (n : Nat) (c : List Nat), slots[n]? ≠ some (QuantumPtr.buf c)) := by
        rcases hslots with h | ⟨h, ws, _, hws⟩
        · exact Or.inl h
        · exact Or.inr ⟨h, fun n c => by rw [hws]; exact fresh_slots_no_buf _ _ n c⟩
      have hitl : item_index q s p < chain1.length := by
        rcases hslots with h | ⟨h, _⟩ <;> exact (List.getElem?_eq_some.mp h).1
      have hslw : ∀ pt ∈ slots, slot_wf q pt := by
        rcases hslots with h | ⟨_, ws, _, hws⟩
        · exact hwf1 _ (List.getElem?_mem h) slots rfl
        · rw [hws]; exact fresh_slots_slot_wf q _ ws
      rcases hrest with ⟨_, _, rfl⟩ | ⟨bytes, hbytes, hlen, hres⟩
      · -- no quantum: the array stays
        apply build _ _ _ _ i64
        · rcases ib with h0 | ⟨b, hb⟩
          · exact Or.inl h0
          · exact Or.inr ⟨b, by rw [quantum_at_set_array _ _ _ _ _ hfr, hqa1]; exact hb⟩
        · intro seg hseg sl hsl pt hpt
          rcases List.mem_or_eq_of_mem_set hseg with h | h
          · exact hwf1 seg h sl hsl pt hpt
          · rw [h] at hsl
            have := Option.some.inj hsl
            subst this
            exact hslw pt hpt
      · have hspl : p % (q * s) / q < slots.length := by
          rcases hbytes with h | ⟨h, _⟩ <;> exact (List.getElem?_eq_some.mp h).1
        have hbl : bytes.length = q := by
          rcases hbytes with h | ⟨_, wq, _, hwq⟩
          · exact hslw _ (List.getElem?_mem h)
          · rw [hwq]; exact fresh_quantum_length q wq hq31
        have hwf2 : ∀ seg ∈ chain1.set (item_index q s p)
            ⟨some (slots.set (p % (q * s) / q)
              (.buf (copy_in bytes (p % (q * s) % q) buf t)))⟩,
            ∀ sl, seg.data = some sl → ∀ pt ∈ sl, slot_wf q pt := by
          intro seg hseg sl hsl pt hpt
          rcases List.mem_or_eq_of_mem_set hseg with h | h
          · exact hwf1 seg h sl hsl pt hpt
          · rw [h] at hsl
            have := Option.some.inj hsl
            subst this
            rcases List.mem_or_eq_of_mem_set hpt with h' | h'
            · exact hslw pt h'
            · rw [h']
              show (copy_in bytes (p % (q * s) % q) buf t).length = q
              rw [copy_in_length _ _ _ _ hlen, hbl]
        have hkeep : ∀ i j b, quantum_at dev.data i j = some b →
            ∃ b', quantum_at (chain1.set (item_index q s p)
              ⟨some (slots.set (p % (q * s) / q)
                (.buf (copy_in bytes (p % (q * s) % q) buf t)))⟩) i j = some b' := by
          intro i j b hb
          by_cases hsame : i = item_index q s p ∧ j = p % (q * s) / q
          · rw [hsame.1, hsame.2]
            exact ⟨_, quantum_at_set_self chain1 slots _ _ _ hitl hspl⟩
          · exact ⟨b, by rw [quantum_at_set_other chain1 slots _ _ _ _ _ hfr hsame, hqa1]
                         exact hb⟩
        rcases hres with ⟨_, rfl⟩ | ⟨_, rfl⟩
        · apply build _ _ _ hwf2 i64
          rcases ib with h0 | ⟨b, hb⟩
          · exact Or.inl h0
          · exact Or.inr (hkeep _ _ b hb)
        · have htq : t ≤ q := by omega
          apply build _ _ _ hwf2 (by
            show max dev.size (p + t) < 2 ^ 64
            rw [max_lt_iff]; exact ⟨i64, by omega⟩)
          by_cases hle : p + t ≤ dev.size
          · rw [max_eq_left hle]
            rcases ib with h0 | ⟨b, hb⟩
            · exact Or.inl h0
            · exact Or.inr (hkeep _ _ b hb)
          · right
            rw [max_eq_right (by omega)]
            have e : p + t - 1 = p + (t - 1) := by omega
            have hsh := addr_shift q s p (t - 1) hq1 hs1 (by omega)
            have hii : item_index q s (p + (t - 1)) = item_index q s p := by
              unfold item_index; rw [hsh.1]
            rw [e, hii, hsh.2.1]
            exact ⟨_, quantum_at_set_self chain1 slots _ _ _ hitl hspl⟩

/-- Every device reachable with writes of at least one byte satisfies the
invariant for the module defaults. -/
theorem reach_inv_of_reach (dev : scull_dev) (h : Reach 1 dev) : reach_inv 4000 1000 dev := by
  induction h with
  | init => exact reach_inv_init
  | write k dev buf count p r _ hc _ hp hw ih =>
    exact reach_inv_write 4000 1000 (by decide) (by decide) (by decide) k dev buf count p r ih
      hc hp hw
  | read k dev cap count p r _ _ _ hr ih =>
    exact reach_inv_read 4000 1000 k dev cap count p r ih hr
  | trim dev d _ ht _ => exact reach_inv_trim dev d ht
  | opened dev f_flags r _ ho ih =>
    unfold scull_open at ho
    split at ho
    · rcases ht : scull_trim dev with _ | d
      · rw [ht] at ho; cases ho
      · rw [ht] at ho
        have := Option.some.inj ho
        subst this
        exact reach_inv_trim dev d ht
    · have := Option.some.inj ho
      subst this
      exact ih

theorem scull_read_null_core (k : Kernel) (dev : scull_dev) (cap count : Nat)
    (p : Nat) (hdiv : ¬ div_undefined dev (p : Int)) (hp : p < 2 ^ 63)
    (hk : k.intr = false) (hlt : p < dev.size)
    (it sp : Nat) (chain1 : List scull_qset)
    (hit : it = (pos_item dev (p : Int) % 2 ^ 32).toNat)
    (hsp : pos_s dev (p : Int) = sp)
    (hc : chain1 = dev.data ++
      List.replicate (min k.nodes (it + 1 - dev.data.length)) ⟨none⟩)
    (hn : it + 1 - dev.data.length ≤ k.nodes)
    (slots : List QuantumPtr)
    (hslots : chain1[it]? = some ⟨some slots⟩) (hnull : slots[sp]? = some .null) :
    scull_read k dev cap count (p : Int) =
      some ⟨0, { dev with data := chain1, mu := false }, p, []⟩ := by
  have hu : ¬ (u64 (p : Int) ≥ dev.size) := by rw [u64_ofNat (by omega)]; omega
  unfold scull_read
  rw [scull_follow_eq]
  simp only [hk, hu, hdiv, hsp, slot_at_nat, Bool.false_eq_true, if_false,
    ← hit, ← hc, hn, if_true, hslots, hnull]

/-- C4, counterexample (a write of no bytes moves `size`): on the fresh
device, `write` with `count = 0` at offset 4000 allocates node 0, its array
and the quantum of slot 1, copies nothing and sets `size = 4000`; the last
byte, offset 3999, belongs to slot 0, which is still a null pointer, so
`read(3999, 2)` returns 0 and not 1. -/
theorem last_byte_zero_write :
    ∃ dev, Reach 0 dev ∧ dev.size = 4000 ∧
      ∃ r, scull_read ⟨false, 0, none, none⟩ dev 2 2 ((dev.size - 1 : Nat) : Int) = some r ∧
        r.retval = 0 := by
  have hfs : (fresh_slots (1000 : Nat) [])[1]? = some .null := by
    have := fresh_slots_zeroed 1000 [] (by norm_num) (by intro w hw; cases hw) 1 (by norm_num)
    exact this
  have hw := scull_write_ok ⟨false, 1, some [], some []⟩ scull_init_dev [] 0 4000 1000 4000
    rfl rfl (by norm_num) (by norm_num) (by norm_num) (by norm_num) rfl
    0 1 0 0 [⟨none⟩] (by decide) (by decide) (by decide) (by decide) (by decide) (by decide)
    (fresh_slots (1000 : Nat) []) (Or.inr ⟨by decide, [], rfl, rfl⟩)
    (fresh_quantum (4000 : Nat) [])
    (Or.inr ⟨hfs, [], rfl, rfl⟩)
    (by rw [fresh_quantum_length 4000 [] (by norm_num)]; norm_num) (by decide)
  refine ⟨_, Reach.write _ _ _ _ _ _ Reach.init (by decide) (by norm_num) (by norm_num) hw,
    by decide, ?_⟩
  have hl : (fresh_slots (1000 : Nat) []).length = 1000 :=
    fresh_slots_length 1000 [] (by norm_num)
  have h0 : ((fresh_slots (1000 : Nat) []).set 1
      (.buf (copy_in (fresh_quantum (4000 : Nat) []) 0 [] 0)))[0]? = some .null := by
    rw [List.getElem?_set_ne (by decide)]
    exact fresh_slots_zeroed 1000 [] (by norm_num) (by intro w hw; cases hw) 0 (by norm_num)
  refine ⟨_, scull_read_null_core ⟨false, 0, none, none⟩ _ 2 2 3999 (by decide)
    (by norm_num) rfl (by decide) 0 0 _ (by decide) (by decide) rfl (by decide) _
    (by simp) h0, rfl⟩

/-- C4 (last-byte read), amended: in every device reachable from a freshly
initialised one by `write` calls that ask for at least one byte, `read`,
`trim` and `open`, if `1 ≤ size ≤ 2^63` (so that `size - 1` is an offset),
the lock is obtained, `count > 1`, `size - 1 + count` fits a `size_t` and the
user buffer takes one byte, then `read(size - 1, count)` returns exactly 1 and
hands out one byte. -/
theorem last_byte_read (dev : scull_dev) (h : Reach 1 dev) (hsz : 1 ≤ dev.size)
    (hoff : dev.size ≤ 2 ^ 63) (k : Kernel) (hk : k.intr = false) (cap count : Nat)
    (hc : 1 < count) (hsum : dev.size - 1 + count < 2 ^ 64) (hcap : 1 ≤ cap) :
    ∃ r, scull_read k dev cap count ((dev.size - 1 : Nat) : Int) = some r ∧
      r.retval = 1 ∧ r.out.length = 1 := by
  obtain ⟨iq, is, iw, i64, ib⟩ := reach_inv_of_reach dev h
  have hprod : 4000 * 1000 < 2 ^ 31 := by norm_num
  rcases ib with h0 | ⟨b, hb⟩
  · omega
  · obtain ⟨slots, hseg, hslot⟩ := quantum_at_some _ _ _ _ hb
    have hqn : dev.quantum.toNat = 4000 := by rw [iq]; rfl
    have hbl : b.length = 4000 := by
      have := iw _ (List.getElem?_mem hseg) slots rfl _ (List.getElem?_mem hslot)
      rw [hqn] at this
      exact this
    have hqp : (dev.size - 1) % (4000 * 1000) % 4000 < 4000 := Nat.mod_lt _ (by norm_num)
    have hitl : item_index 4000 1000 (dev.size - 1) < dev.data.length :=
      (List.getElem?_eq_some.mp hseg).1
    have hread := scull_read_ok_core k dev cap count 4000 (dev.size - 1) iq (by norm_num)
      (not_div_undefined dev 4000 1000 _ iq is (by norm_num) (by norm_num) hprod)
      (by omega) hk (by omega) i64 hsum
      (item_index 4000 1000 (dev.size - 1)) ((dev.size - 1) % (4000 * 1000) / 4000)
      ((dev.size - 1) % (4000 * 1000) % 4000) 1 _
      (item_index_eq dev 4000 1000 _ iq is hprod).symm
      (pos_s_nat dev 4000 1000 _ iq is hprod) (pos_q_nat dev 4000 1000 _ iq is hprod)
      hqp (by omega) rfl (by omega) slots b
      (by rw [List.getElem?_append_left hitl]; exact hseg) hslot (by omega) hcap
    refine ⟨_, hread, rfl, ?_⟩
    simp only [List.length_take, List.length_drop, hbl]
    omega

theorem last_byte_read_witness :
    ∃ dev, Reach 1 dev ∧ dev.size = 1 ∧
      ∃ r, scull_read ⟨false, 0, none, none⟩ dev 1 2 ((dev.size - 1 : Nat) : Int) = some r ∧
        r.retval = 1 ∧ r.out.length = 1 :=
  have hw := scull_write_ok ⟨false, 1, some [], some []⟩ scull_init_dev [7] 1 4000 1000 0
    rfl rfl (by norm_num) (by norm_num) (by norm_num) (by norm_num) rfl
    0 0 0 1 [⟨none⟩] (by decide) (by decide) (by decide) (by decide) (by decide) (by decide)
    (fresh_slots (1000 : Nat) []) (Or.inr ⟨by decide, [], rfl, rfl⟩)
    (fresh_quantum (4000 : Nat) [])
    (Or.inr ⟨fresh_slots_zeroed 1000 [] (by norm_num) (by intro w hw; cases hw) 0
      (by norm_num), [], rfl, rfl⟩)
    (by rw [fresh_quantum_length 4000 [] (by norm_num)]; norm_num) (by decide)
  have hreach : Reach 1 _ := Reach.write _ _ _ _ _ _ Reach.init (by decide) (by norm_num)
    (by norm_num) hw
  ⟨_, hreach, by decide,
    last_byte_read _ hreach (by decide) (by decide) ⟨false, 0, none, none⟩ rfl 1 2
      (by decide) (by decide) (by decide)⟩

/-! # The size clamp of `scull_read` without wrap-around -/

theorem trim_slots_wild (qset : Int) (slots : List QuantumPtr) (i a : Nat)
    (hi : i < qset.toNat) (h : slots[i]? = some (.wild a)) : trim_slots qset slots = false := by
  rw [Bool.eq_false_iff]
  intro ht
  unfold trim_slots at ht
  rw [List.all_eq_true] at ht
  have := ht i (List.mem_range.mpr hi)
  rw [h] at this
  simp [kfree_ok] at this

/-- The device that one write of the byte 1 at offset 0 leaves behind when it
starts from the freshly initialised device and `kmalloc` hands out the block
for the array with second word 7: the `memset` of `scull_write` clears the
first word only, so `data[1]` keeps the 7. -/
theorem write_leaves_unassigned :
    scull_write ⟨false, 1, some [0, 7], some []⟩ scull_init_dev [1] 1 ((0 : Nat) : Int) =
      some ⟨1, ⟨[⟨some ((fresh_slots (1000 : Nat) [0, 7]).set 0
          (.buf (copy_in (fresh_quantum (4000 : Nat) []) 0 [1] 1)))⟩], 4000, 1000, 1, false⟩,
        1⟩ ∧
    ((fresh_slots (1000 : Nat) [0, 7]).set 0
      (.buf (copy_in (fresh_quantum (4000 : Nat) []) 0 [1] 1)))[1]? = some (.wild 7) := by
  constructor
  · exact scull_write_ok ⟨false, 1, some [0, 7], some []⟩ scull_init_dev [1] 1 4000 1000 0
      rfl rfl (by norm_num) (by norm_num) (by norm_num) (by norm_num) rfl
      0 0 0 1 [⟨none⟩] (by decide) (by decide) (by decide) (by decide) (by decide) (by decide)
      (fresh_slots (1000 : Nat) [0, 7]) (Or.inr ⟨by decide, [0, 7], rfl, rfl⟩)
      (fresh_quantum (4000 : Nat) [])
      (Or.inr ⟨by
        have := fresh_slots_get 1000 [0, 7] (by norm_num) 0 (by norm_num)
        simpa using this, [], rfl, rfl⟩)
      (by rw [fresh_quantum_length 4000 [] (by norm_num)]; norm_num) (by decide)
  · rw [List.getElem?_set_ne (by decide), fresh_slots_get 1000 [0, 7] (by norm_num) 1
      (by norm_num)]
    rfl

/-- C8 (trim meets an array that `scull_write` left uninitialised): a write
of one byte to the freshly initialised device, the block for the array
arriving from `kmalloc` with a non-zero second word, succeeds and leaves that
word in `data[1]`; `scull_trim` then passes it to `kfree` and has no defined
result, so the device is not reset. -/
theorem trim_frees_unassigned :
    ∃ r, scull_write ⟨false, 1, some [0, 7], some []⟩ scull_init_dev [1] 1 ((0 : Nat) : Int)
        = some r ∧ r.retval = 1 ∧ scull_trim r.dev = none := by
  refine ⟨_, write_leaves_unassigned.1, rfl, ?_⟩
  unfold scull_trim
  rw [if_neg]
  simp only [trim_chain, Bool.and_true, Bool.not_eq_true]
  exact trim_slots_wild _ _ 1 7 (by decide) write_leaves_unassigned.2

/-- C9 (open for writing meets an array that `scull_write` left
uninitialised): on the device left by a one-byte write to the freshly
initialised device whose array block arrived with a non-zero second word,
`scull_open` with `O_WRONLY` calls `scull_trim`, which passes that word to
`kfree`: the call has no defined result, so it does not return 0 with the
trimmed device. -/
theorem open_frees_unassigned :
    ∃ r, scull_write ⟨false, 1, some [0, 7], some []⟩ scull_init_dev [1] 1 ((0 : Nat) : Int)
        = some r ∧ r.retval = 1 ∧ scull_open r.dev O_WRONLY = none := by
  refine ⟨_, write_leaves_unassigned.1, rfl, ?_⟩
  have ht : scull_trim ⟨[⟨some ((fresh_slots (1000 : Nat) [0, 7]).set 0
      (.buf (copy_in (fresh_quantum (4000 : Nat) []) 0 [1] 1)))⟩], 4000, 1000, 1, false⟩
      = none := by
    unfold scull_trim
    rw [if_neg]
    simp only [trim_chain, Bool.and_true, Bool.not_eq_true]
    exact trim_slots_wild _ _ 1 7 (by decide) write_leaves_unassigned.2
  unfold scull_open
  rw [if_pos (by decide), ht]
  rfl

/-! # Claims C17 and C18: `scull_follow` and the addressing -/

/-- C17 (locate): for a node index `n` that is a non-negative `int`, when the
node allocations needed succeed, `scull_follow(dev, n)` returns the node at
position `n`; the chain afterwards is the old chain followed by
`n + 1 - L` nodes without array, so its length is `max(L, n + 1)`, the first
`L` nodes are unchanged and every new node has a null `data`; the other
fields of the device are unchanged; and for every `n` and every kernel,
also when an allocation fails, the old chain is a prefix of the new one, so no
node is removed. -/
theorem follow_locates (k : Kernel) (dev : scull_dev) (n : Nat) (hn : n < 2 ^ 31)
    (hk : n + 1 - dev.data.length ≤ k.nodes) :
    (scull_follow k dev (n : Int)).2 = some n ∧
    (scull_follow k dev (n : Int)).1.data =
      dev.data ++ List.replicate (n + 1 - dev.data.length) ⟨none⟩ ∧
    (scull_follow k dev (n : Int)).1.data.length = max dev.data.length (n + 1) ∧
    (∃ seg, (scull_follow k dev (n : Int)).1.data[n]? = some seg) ∧
    (∀ i, i < dev.data.length → (scull_follow k dev (n : Int)).1.data[i]? = dev.data[i]?) ∧
    (∀ i, dev.data.length ≤ i → i < max dev.data.length (n + 1) →
      (scull_follow k dev (n : Int)).1.data[i]? = some ⟨none⟩) ∧
    (scull_follow k dev (n : Int)).1.quantum = dev.quantum ∧
    (scull_follow k dev (n : Int)).1.qset = dev.qset ∧
    (scull_follow k dev (n : Int)).1.size = dev.size ∧
    (∀ (k' : Kernel) (m : Int), ∃ c,
      (scull_follow k' dev m).1.data = dev.data ++ List.replicate c ⟨none⟩) := by
  have hm : ((n : Int) % 2 ^ 32).toNat = n := by
    rw [Int.emod_eq_of_lt (by omega) (by omega)]
    exact Int.toNat_ofNat n
  have hd : (scull_follow k dev (n : Int)).1.data =
      dev.data ++ List.replicate (n + 1 - dev.data.length) ⟨none⟩ := by
    rw [scull_follow_eq, hm]
    simp only
    rw [min_eq_right hk]
  refine ⟨?_, hd, ?_, ?_, ?_, ?_, ?_, ?_, ?_, ?_⟩
  · rw [scull_follow_eq, hm]
    simp only
    rw [if_pos hk]
  · rw [hd, List.length_append, List.length_replicate]
    omega
  · have hl : n < (dev.data ++ List.replicate (n + 1 - dev.data.length)
        (⟨none⟩ : scull_qset)).length := by
      rw [List.length_append, List.length_replicate]; omega
    rw [hd]
    exact ⟨_, List.getElem?_eq_getElem hl⟩
  · intro i hi
    rw [hd, List.getElem?_append_left hi]
  · intro i h1 h2
    rw [hd, List.getElem?_append_right h1, List.getElem?_replicate, if_pos (by omega)]
  · rw [scull_follow_eq]
  · rw [scull_follow_eq]
  · rw [scull_follow_eq]
  · intro k' m
    rw [scull_follow_eq]
    exact ⟨_, rfl⟩

theorem follow_locates_witness :
    (scull_follow ⟨false, 2, none, none⟩ ⟨[⟨some [.buf [1]]⟩], 1, 1, 1, false⟩
      ((2 : Nat) : Int)).2 = some 2 ∧
    (scull_follow ⟨false, 2, none, none⟩ ⟨[⟨some [.buf [1]]⟩], 1, 1, 1, false⟩
      ((2 : Nat) : Int)).1.data =
      [⟨some [.buf [1]]⟩] ++ List.replicate (2 + 1 - [(⟨some [.buf [1]]⟩ : scull_qset)].length)
        ⟨none⟩ :=
  ⟨(follow_locates ⟨false, 2, none, none⟩ ⟨[⟨some [.buf [1]]⟩], 1, 1, 1, false⟩ 2
      (by decide) (by decide)).1,
    (follow_locates ⟨false, 2, none, none⟩ ⟨[⟨some [.buf [1]]⟩], 1, 1, 1, false⟩ 2
      (by decide) (by decide)).2.1⟩

/-- C18 (addressing): when `quantum ≥ 1`, `qset ≥ 1`, `quantum * qset` fits
an `int`, the offset is non-negative and its node index fits an `int`, the
triple `(item, s_pos, q_pos)` that `scull_read` and `scull_write` compute
satisfies `item * quantum * qset + s_pos * quantum + q_pos = *f_pos` with
`0 ≤ item`, `0 ≤ s_pos < qset` and `0 ≤ q_pos < quantum`; the division is
defined, `s_pos` indexes an element of every array of `qset` pointers and
`q_pos` a byte of every quantum of `quantum` bytes. -/
theorem addressing_triple (dev : scull_dev) (q s p : Nat) (hq : dev.quantum = q) (hs : dev.qset = s)
    (hq1 : 1 ≤ q) (hs1 : 1 ≤ s) (hprod : q * s < 2 ^ 31) (hitem : p / (q * s) < 2 ^ 31) :
    pos_item dev (p : Int) * dev.quantum * dev.qset + pos_s dev (p : Int) * dev.quantum
      + pos_q dev (p : Int) = (p : Int) ∧
    0 ≤ pos_item dev (p : Int) ∧
    0 ≤ pos_s dev (p : Int) ∧ pos_s dev (p : Int) < dev.qset ∧
    0 ≤ pos_q dev (p : Int) ∧ pos_q dev (p : Int) < dev.quantum ∧
    ¬ div_undefined dev (p : Int) ∧
    (∀ slots : List QuantumPtr, slots.length = s →
      ∃ pt, slot_at slots (pos_s dev (p : Int)) = some pt) ∧
    (∀ bytes : List Nat, bytes.length = q →
      ∃ b, bytes[(pos_q dev (p : Int)).toNat]? = some b) := by
  have hsp : p % (q * s) / q < s := by
    apply Nat.div_lt_of_lt_mul
    exact Nat.mod_lt _ (Nat.mul_pos hq1 hs1)
  have hqp : p % (q * s) % q < q := Nat.mod_lt _ (by omega)
  rw [pos_item_nat dev q s p hq hs hprod hitem, pos_s_nat dev q s p hq hs hprod,
    pos_q_nat dev q s p hq hs hprod, hq, hs]
  refine ⟨?_, Int.ofNat_nonneg _, Int.ofNat_nonneg _, by exact_mod_cast hsp,
    Int.ofNat_nonneg _, by exact_mod_cast hqp,
    not_div_undefined dev q s p hq hs hq1 hs1 hprod, ?_, ?_⟩
  · have := addr_split q s p
    have e : p / (q * s) * (q * s) = p / (q * s) * q * s := by ring
    rw [e] at this
    exact_mod_cast this.symm
  · intro slots hl
    rw [slot_at_nat]
    exact ⟨_, List.getElem?_eq_getElem (by omega)⟩
  · intro bytes hl
    rw [Int.toNat_ofNat]
    exact ⟨_, List.getElem?_eq_getElem (by omega)⟩

theorem addressing_triple_witness :
    pos_item ⟨[], 4000, 1000, 0, false⟩ ((8004001 : Nat) : Int) * 4000 * 1000
      + pos_s ⟨[], 4000, 1000, 0, false⟩ ((8004001 : Nat) : Int) * 4000
      + pos_q ⟨[], 4000, 1000, 0, false⟩ ((8004001 : Nat) : Int) = ((8004001 : Nat) : Int) :=
  (addressing_triple ⟨[], 4000, 1000, 0, false⟩ 4000 1000 8004001 rfl rfl (by decide) (by decide)
    (by decide) (by decide)).1

/-! # Claim C11: a failing allocation -/

/-- C11 (out-of-memory atomicity): for every device, kernel, buffer, count
and offset, when the call of `scull_write` reaches a `kmalloc` that fails (of
a node, of the array of a node, or of a quantum), the call returns `-ENOMEM`,
`*f_pos`, `size`, `quantum` and `qset` are unchanged, the lock is released,
and every quantum that existed before the call exists afterwards with the
same bytes (no quantum is created either); the chain does not get shorter. -/
theorem oom_atomic (k : Kernel) (dev : scull_dev) (buf : List Nat) (count : Nat) (f_pos : Int)
    (h : alloc_fails k dev f_pos = true) :
    ∃ r, scull_write k dev buf count f_pos = some r ∧ r.retval = -ENOMEM ∧
      r.f_pos = f_pos ∧ r.dev.size = dev.size ∧ r.dev.quantum = dev.quantum ∧
      r.dev.qset = dev.qset ∧ r.dev.mu = false ∧
      (∀ i j, quantum_at r.dev.data i j = quantum_at dev.data i j) ∧
      dev.data.length ≤ r.dev.data.length := by
  unfold alloc_fails at h
  unfold scull_write
  rw [scull_follow_eq] at h ⊢
  simp only at h ⊢
  by_cases hi : k.intr = true
  · simp [hi] at h
  by_cases hd : div_undefined dev f_pos
  · simp [hi, hd] at h
  have hi' : k.intr = false := by simpa using hi
  simp only [hi', hd, Bool.false_eq_true, if_false] at h ⊢
  by_cases hn : (pos_item dev f_pos % 2 ^ 32).toNat + 1 - dev.data.length ≤ k.nodes
  case neg =>
    simp only [hn, if_false]
    refine ⟨_, rfl, rfl, rfl, rfl, rfl, rfl, rfl, ?_, ?_⟩
    · intro i j
      exact quantum_at_append _ _ _ _
    · simp
  case pos =>
    simp only [hn, if_true] at h ⊢
    generalize (pos_item dev f_pos % 2 ^ 32).toNat = i at h ⊢
    split at h
    · exact absurd h (by simp)
    next seg hseg =>
      have hfix : ∀ slots : List QuantumPtr,
          (seg.data = some slots ∨ (seg.data = none ∧
            ∀ (n : Nat) (c : List Nat), slots[n]? ≠ some (QuantumPtr.buf c))) →
          ∀ a b, quantum_at ((dev.data ++ List.replicate
            (min k.nodes (i + 1 - dev.data.length))
            (⟨none⟩ : scull_qset)).set i ⟨some slots⟩) a b = quantum_at dev.data a b := by
        intro slots hsl a b
        rw [quantum_at_set_array _ _ _ _ _ _, quantum_at_append]
        rcases hsl with h1 | ⟨h1, h2⟩
        · left
          rw [hseg, ← h1]
        · right
          refine ⟨?_, h2⟩
          rw [hseg, ← h1]
      split at h
      next hsd =>
        split at h
        next hks =>
          try simp only [hsd, hks, Option.map_none']
          refine ⟨_, rfl, rfl, rfl, rfl, rfl, rfl, rfl, ?_, ?_⟩
          · intro a b
            exact quantum_at_append _ _ _ _
          · simp
        next ws hks =>
          try simp only [hsd, hks, Option.map_some']
          split at h
          next hsl =>
            try simp only [hsl]
            have hkq : k.quantum = none := by simpa using h
            simp only [hkq]
            refine ⟨_, rfl, rfl, rfl, rfl, rfl, rfl, rfl, ?_, ?_⟩
            · exact hfix _ (Or.inr ⟨hsd, fun n c => fresh_slots_no_buf _ _ n c⟩)
            · simp
          · exact absurd h (by simp)
      next slots hsd =>
        try simp only [hsd]
        split at h
        next hsl =>
          try simp only [hsl]
          have hkq : k.quantum = none := by simpa using h
          simp only [hkq]
          refine ⟨_, rfl, rfl, rfl, rfl, rfl, rfl, rfl, ?_, ?_⟩
          · exact hfix _ (Or.inl hsd)
          · simp
        · exact absurd h (by simp)

theorem oom_atomic_witness :
    alloc_fails ⟨false, 0, none, none⟩ ⟨[⟨some [.buf [1, 2], .null]⟩], 2, 2, 2, false⟩ 2 = true ∧
    ∃ r, scull_write ⟨false, 0, none, none⟩ ⟨[⟨some [.buf [1, 2], .null]⟩], 2, 2, 2, false⟩
        [7] 1 2 = some r ∧ r.retval = -ENOMEM ∧
      r.f_pos = 2 ∧ r.dev.size = 2 ∧ r.dev.quantum = 2 ∧ r.dev.qset = 2 ∧ r.dev.mu = false ∧
      (∀ i j, quantum_at r.dev.data i j =
        quantum_at [⟨some [.buf [1, 2], .null]⟩] i j) ∧
      [(⟨some [.buf [1, 2], .null]⟩ : scull_qset)].length ≤ r.dev.data.length :=
  ⟨by decide, oom_atomic ⟨false, 0, none, none⟩ ⟨[⟨some [.buf [1, 2], .null]⟩], 2, 2, 2, false⟩
    [7] 1 2 (by decide)⟩

/-! # Claim C12: what `scull_read` does to the chain -/

/-- When the node addressed by the offset is not in the chain, `scull_read`
has `scull_follow` append nodes (as many as the kernel grants, up to the
addressed one) and returns 0. -/
theorem scull_read_absent (k : Kernel) (dev : scull_dev) (cap count : Nat) (f_pos : Int)
    (hk : k.intr = false) (hu : ¬ u64 f_pos ≥ dev.size) (hdiv : ¬ div_undefined dev f_pos)
    (habs : dev.data.length ≤ (pos_item dev f_pos % 2 ^ 32).toNat) :
    scull_read k dev cap count f_pos = some ⟨0, { dev with
      data := dev.data ++ List.replicate
        (min k.nodes ((pos_item dev f_pos % 2 ^ 32).toNat + 1 - dev.data.length)) ⟨none⟩,
      mu := false }, f_pos, []⟩ := by
  unfold scull_read
  rw [scull_follow_eq]
  simp only [hk, hu, hdiv, Bool.false_eq_true, if_false]
  generalize (pos_item dev f_pos % 2 ^ 32).toNat = i at habs ⊢
  by_cases hn : i + 1 - dev.data.length ≤ k.nodes
  · have hseg : (dev.data ++ List.replicate (min k.nodes (i + 1 - dev.data.length))
        (⟨none⟩ : scull_qset))[i]? = some ⟨none⟩ := by
      rw [List.getElem?_append_right habs, List.getElem?_replicate, if_pos]
      rw [min_eq_right hn]
      omega
    simp only [hn, if_true, hseg]
  · simp only [hn, if_false]

/-- The write of one byte at offset `2^32 * 4000000` to the fresh device: the
node index `2^32` does not fit the `int item`, which becomes 0, so the byte
goes to node 0 and `size` becomes `2^32 * 4000000 + 1` with one node in the
chain. -/
theorem wrapped_write :
    scull_write ⟨false, 1, some [], some []⟩ scull_init_dev [5] 1
      ((17179869184000000 : Nat) : Int) =
    some ⟨1, ⟨[⟨some ((fresh_slots (1000 : Nat) []).set 0
        (.buf (copy_in (fresh_quantum (4000 : Nat) []) 0 [5] 1)))⟩], 4000, 1000,
        17179869184000001, false⟩, 17179869184000001⟩ := by
  have hfs : (fresh_slots (1000 : Nat) [])[0]? = some .null :=
    fresh_slots_zeroed 1000 [] (by norm_num) (by intro w hw; cases hw) 0 (by norm_num)
  have hw := scull_write_ok_core ⟨false, 1, some [], some []⟩ scull_init_dev [5] 1 4000 1000
    17179869184000000 rfl rfl (by norm_num) (by decide) (by norm_num) rfl
    0 0 0 1 [⟨none⟩] (by decide) (by decide) (by decide) (by decide) (by decide) (by decide)
    (by decide)
    (fresh_slots (1000 : Nat) []) (Or.inr ⟨by decide, [], rfl, rfl⟩)
    (fresh_quantum (4000 : Nat) [])
    (Or.inr ⟨hfs, [], rfl, rfl⟩)
    (by rw [fresh_quantum_length 4000 [] (by norm_num)]; norm_num) (by decide)
  rw [hw]
  rfl

/-- C12, counterexample (`scull_read` allocates): the fresh device after the
write of one byte at offset `2^32 * 4000000` has one node and
`size = 2^32 * 4000000 + 1`; offset 4000000 is below `size` and its node,
index 1, is not in the chain; `scull_read` at that offset returns 0 and leaves
a chain of two nodes, because it looks the node up with `scull_follow`, which
allocates what is missing. -/
theorem read_allocates :
    ∃ dev, Reach 1 dev ∧ dev.data.length = 1 ∧ 4000000 < dev.size ∧
      ∃ r, scull_read ⟨false, 1, none, none⟩ dev 1 1 ((4000000 : Nat) : Int) = some r ∧
        r.retval = 0 ∧ r.dev.data.length = 2 := by
  have hreach : Reach 1 _ := Reach.write _ _ _ _ _ _ Reach.init (by decide) (by norm_num)
    (by norm_num) wrapped_write
  refine ⟨_, hreach, by simp, by decide, ?_⟩
  refine ⟨_, scull_read_absent ⟨false, 1, none, none⟩ _ 1 1 _ rfl (by decide) (by decide)
    (by decide), rfl, ?_⟩
  simp only [List.length_append, List.length_replicate, List.length_set]
  decide

/-- C12 (read and the chain), amended: whatever `scull_read` returns, it
leaves `quantum`, `qset` and `size` alone and the chain afterwards is the old
chain followed by at most `item + 1 - length` nodes without array, so every
node, array and quantum that existed is unchanged; the chain is unchanged when
the node `item` addressed by the offset is already in the chain, and when the
offset is at or beyond `size`; when that node is not in the chain and the lock
is obtained, the call returns 0 and hands out no byte (while the chain may have
grown). -/
theorem read_appends_only (k : Kernel) (dev : scull_dev) (cap count : Nat) (f_pos : Int)
    (r : ReadRet) (h : scull_read k dev cap count f_pos = some r) :
    (∃ n, n ≤ (pos_item dev f_pos % 2 ^ 32).toNat + 1 - dev.data.length ∧
      r.dev.data = dev.data ++ List.replicate n ⟨none⟩) ∧
    r.dev.quantum = dev.quantum ∧ r.dev.qset = dev.qset ∧ r.dev.size = dev.size ∧
    (∀ i j, quantum_at r.dev.data i j = quantum_at dev.data i j) ∧
    ((pos_item dev f_pos % 2 ^ 32).toNat < dev.data.length → r.dev.data = dev.data) ∧
    (u64 f_pos ≥ dev.size → r.dev.data = dev.data) ∧
    (dev.data.length ≤ (pos_item dev f_pos % 2 ^ 32).toNat → k.intr = false →
      r.retval = 0 ∧ r.out = []) := by
  have hfr : (∃ n, n ≤ (pos_item dev f_pos % 2 ^ 32).toNat + 1 - dev.data.length ∧
      r.dev.data = dev.data ++ List.replicate n ⟨none⟩) ∧
      r.dev.quantum = dev.quantum ∧ r.dev.qset = dev.qset ∧ r.dev.size = dev.size ∧
      (u64 f_pos ≥ dev.size → r.dev.data = dev.data) := by
    unfold scull_read at h
    rw [scull_follow_eq] at h
    simp only at h
    repeat' split at h
    all_goals first
      | exact absurd h (Option.noConfusion)
      | (have hr := Option.some.inj h; subst hr
         first
           | exact ⟨⟨_, Nat.min_le_right _ _, rfl⟩, rfl, rfl, rfl, fun hge => absurd hge ‹_›⟩
           | exact ⟨⟨0, Nat.zero_le _, (List.append_nil _).symm⟩, rfl, rfl, rfl, fun _ => rfl⟩)
  obtain ⟨⟨n, hn, hd⟩, hq, hs, hsz, heof⟩ := hfr
  refine ⟨⟨n, hn, hd⟩, hq, hs, hsz, ?_, ?_, heof, ?_⟩
  · intro i j
    rw [hd, quantum_at_append]
  · intro hlt
    have h0 : n = 0 := by omega
    rw [hd, h0]
    exact List.append_nil _
  · intro habs hk
    by_cases hu : u64 f_pos ≥ dev.size
    · unfold scull_read at h
      simp only [hk, hu, Bool.false_eq_true, if_false, if_true] at h
      have hr := Option.some.inj h
      subst hr
      exact ⟨rfl, rfl⟩
    · by_cases hdiv : div_undefined dev f_pos
      · unfold scull_read at h
        simp only [hk, hu, hdiv, Bool.false_eq_true, if_false, if_true] at h
        exact absurd h (Option.noConfusion)
      · rw [scull_read_absent k dev cap count f_pos hk hu hdiv habs] at h
        have hr := Option.some.inj h
        subst hr
        exact ⟨rfl, rfl⟩

theorem read_appends_only_witness :
    (∃ n, n ≤ (pos_item ⟨[], 2, 2, 9, false⟩ 4 % 2 ^ 32).toNat + 1
        - (⟨[], 2, 2, 9, false⟩ : scull_dev).data.length ∧
      (⟨[⟨none⟩, ⟨none⟩], 2, 2, 9, false⟩ : scull_dev).data =
        (⟨[], 2, 2, 9, false⟩ : scull_dev).data ++ List.replicate n ⟨none⟩) :=
  (read_appends_only ⟨false, 5, none, none⟩ ⟨[], 2, 2, 9, false⟩ 1 1 4
    ⟨0, ⟨[⟨none⟩, ⟨none⟩], 2, 2, 9, false⟩, 4, []⟩ (by decide)).1

/-! # Claim C14: the array that `scull_write` allocates -/

/-- When slot `s_pos` of the addressed node holds a word that was never
assigned, `scull_write` takes it for a quantum and copies through it: the call
has no defined result. -/
theorem scull_write_wild (k : Kernel) (dev : scull_dev) (buf : List Nat) (count : Nat)
    (p : Nat) (hdiv : ¬ div_undefined dev (p : Int)) (hk : k.intr = false)
    (it sp : Nat) (chain1 : List scull_qset)
    (hit : it = (pos_item dev (p : Int) % 2 ^ 32).toNat)
    (hsp : pos_s dev (p : Int) = sp)
    (hc : chain1 = dev.data ++
      List.replicate (min k.nodes (it + 1 - dev.data.length)) ⟨none⟩)
    (hn : it + 1 - dev.data.length ≤ k.nodes)
    (slots : List QuantumPtr) (a : Nat)
    (hslots : chain1[it]? = some ⟨some slots⟩) (hw : slots[sp]? = some (.wild a)) :
    scull_write k dev buf count (p : Int) = none := by
  unfold scull_write
  rw [scull_follow_eq]
  simp only [hk, hdiv, hsp, slot_at_nat, Bool.false_eq_true, if_false,
    ← hit, ← hc, hn, if_true, hslots, hw]

/-- C14 (the fresh array is not cleared): `kmalloc` hands out the block for
the array of 1000 pointers with the words `0, 7, 0, 0, …`; after
`memset(dptr->data, 0, sizeof(qset * sizeof(char *)))`, which clears
`sizeof(size_t) = 8` bytes, slot 0 is null and slot 1 is still the word 7.  The
write of one byte at offset 0 to the fresh device succeeds and leaves that
array in node 0; the next write, at offset 4000 (slot 1), finds a non-null
`data[1]`, allocates no quantum and copies through the word 7: it has no
defined result. -/
theorem fresh_array_not_cleared :
    (fresh_slots (1000 : Nat) [0, 7])[0]? = some .null ∧
    (fresh_slots (1000 : Nat) [0, 7])[1]? = some (.wild 7) ∧
    ∃ r, scull_write ⟨false, 1, some [0, 7], some []⟩ scull_init_dev [1] 1 ((0 : Nat) : Int)
        = some r ∧ r.retval = 1 ∧
      (∃ slots, r.dev.data[0]? = some ⟨some slots⟩ ∧ slots[1]? = some (.wild 7)) ∧
      scull_write ⟨false, 0, none, some []⟩ r.dev [2] 1 ((4000 : Nat) : Int) = none := by
  have h0 : (fresh_slots (1000 : Nat) [0, 7])[0]? = some .null := by
    rw [fresh_slots_get 1000 [0, 7] (by norm_num) 0 (by norm_num)]
    rfl
  have h1 : (fresh_slots (1000 : Nat) [0, 7])[1]? = some (.wild 7) := by
    rw [fresh_slots_get 1000 [0, 7] (by norm_num) 1 (by norm_num)]
    rfl
  refine ⟨h0, h1, _, write_leaves_unassigned.1, rfl, ⟨_, rfl, write_leaves_unassigned.2⟩, ?_⟩
  exact scull_write_wild ⟨false, 0, none, some []⟩ _ [2] 1 4000 (by decide) rfl 0 1 _
    (by decide) (by decide) rfl (by decide) _ 7 (by simp) write_leaves_unassigned.2

/-! # Claims C13 and C20: the lock -/

theorem scull_write_unlocks (k : Kernel) (dev : scull_dev) (buf : List Nat) (count : Nat)
    (f_pos : Int) (r : WriteRet) (hk : k.intr = false)
    (h : scull_write k dev buf count f_pos = some r) : r.dev.mu = false := by
  unfold scull_write at h
  rw [scull_follow_eq] at h
  simp only [hk, Bool.false_eq_true, if_false] at h
  have hwc : ∀ (d1 : scull_dev) (i : Nat) (slots : List QuantumPtr) (s_pos q_pos : Int)
      (bytes : List Nat), write_copy d1 i slots s_pos q_pos bytes buf count f_pos = some r →
      r.dev.mu = false := by
    intro d1 i slots s_pos q_pos bytes hw
    unfold write_copy at hw
    simp only at hw
    repeat' split at hw
    all_goals first
      | exact absurd hw (Option.noConfusion)
      | (have hr := Option.some.inj hw; subst hr; rfl)
  repeat' split at h
  all_goals first
    | exact hwc _ _ _ _ _ _ h
    | exact absurd h (Option.noConfusion)
    | (have hr := Option.some.inj h; subst hr; rfl)

theorem scull_read_unlocks (k : Kernel) (dev : scull_dev) (cap count : Nat)
    (f_pos : Int) (r : ReadRet) (hk : k.intr = false)
    (h : scull_read k dev cap count f_pos = some r) : r.dev.mu = false := by
  unfold scull_read at h
  rw [scull_follow_eq] at h
  simp only [hk, Bool.false_eq_true, if_false] at h
  repeat' split at h
  all_goals first
    | exact absurd h (Option.noConfusion)
    | (have hr := Option.some.inj h; subst hr; rfl)

theorem guarded_from_accesses (es rest : List Ev) (h : ∀ e ∈ es, is_access e = true) :
    guarded_from true (es ++ rest) = guarded_from true rest := by
  induction es with
  | nil => rfl
  | cons e es ih =>
    have he := h e (List.mem_cons_self _ _)
    have ih2 := ih (fun x hx => h x (List.mem_cons_of_mem _ hx))
    cases e <;> simp_all [is_access, guarded_from]

theorem count_accesses (es : List Ev) (h : ∀ e ∈ es, is_access e = true) :
    es.count .lock_ok = 0 ∧ es.count .unlock = 0 ∧ es.count .lock_intr = 0 := by
  refine ⟨?_, ?_, ?_⟩ <;>
  · rw [List.count_eq_zero]
    intro hm
    have := h _ hm
    simp [is_access] at this

theorem follow_events_access (dev : scull_dev) : ∀ e ∈ follow_events dev, is_access e = true := by
  intro e he
  unfold follow_events at he
  split at he <;> simp at he <;> rcases he with rfl | rfl <;> rfl

theorem read_accesses_access (dev : scull_dev) (count : Nat) (f_pos : Int) :
    ∀ e ∈ read_accesses dev count f_pos, is_access e = true := by
  intro e he
  unfold read_accesses at he
  simp only [List.mem_cons, List.mem_append] at he
  rcases he with rfl | rfl | rfl | he
  · rfl
  · rfl
  · rfl
  · split at he
    · simp at he
    · simp only [List.mem_cons, List.mem_append] at he
      rcases he with rfl | he | he
      · rfl
      · split at he
        · simp at he; subst he; rfl
        · simp at he
      · split at he
        · simp at he
        · exact follow_events_access dev e he

theorem write_size_events_access (dev : scull_dev) (q_pos : Int) (bytes buf : List Nat)
    (count : Nat) (f_pos : Int) :
    ∀ e ∈ write_size_events dev q_pos bytes buf count f_pos, is_access e = true := by
  intro e he
  unfold write_size_events at he
  simp only at he
  repeat' split at he
  all_goals simp at he
  all_goals (try rcases he with rfl | rfl) <;> rfl

theorem write_accesses_access (k : Kernel) (dev : scull_dev) (buf : List Nat) (count : Nat)
    (f_pos : Int) : ∀ e ∈ write_accesses k dev buf count f_pos, is_access e = true := by
  intro e he
  unfold write_accesses at he
  split at he
  · simp at he
  · rw [List.mem_append] at he
    rcases he with he | he
    · exact follow_events_access dev e he
    · simp only at he
      repeat' split at he
      all_goals first
        | exact absurd he (List.not_mem_nil _)
        | exact write_size_events_access _ _ _ _ _ _ e he

/-- C13 (accesses and the lock): in every call of `scull_write` the first
three operations are reads of the shared fields `data`, `quantum` and `qset`
(the initialisers of `dptr`, `quantum` and `qset`, lines 118 and 119), and
they come before the lock attempt of line 124, so the accesses of the call
are not all made with the lock held; in every call of `scull_read` each access
is made after the lock was taken and before it is released. -/
theorem write_reads_before_lock (k : Kernel) (dev : scull_dev) (buf : List Nat)
    (cap count : Nat) (f_pos : Int) :
    (scull_write_events k dev buf count f_pos).take 3 =
      [.rd .data, .rd .quantum, .rd .qset] ∧
    ((scull_write_events k dev buf count f_pos)[3]? = some .lock_ok ∨
      (scull_write_events k dev buf count f_pos)[3]? = some .lock_intr) ∧
    guarded (scull_write_events k dev buf count f_pos) = false ∧
    guarded ((scull_write_events k dev buf count f_pos).drop 3) = true ∧
    guarded (scull_read_events k dev cap count f_pos) = true := by
  have hend : ∀ b : Bool, guarded_from true (if b = true then [Ev.unlock] else []) = true := by
    intro b
    cases b <;> rfl
  refine ⟨rfl, ?_, rfl, ?_, ?_⟩
  · unfold scull_write_events
    cases k.intr
    · left
      simp
    · right
      simp
  · unfold scull_write_events
    cases k.intr
    · simp only [List.drop_succ_cons, List.drop_zero, Bool.false_eq_true, if_false, guarded]
      show guarded_from true (write_accesses k dev buf count f_pos ++ _) = true
      rw [guarded_from_accesses _ _ (write_accesses_access k dev buf count f_pos)]
      exact hend _
    · rfl
  · unfold scull_read_events
    cases k.intr
    · simp only [Bool.false_eq_true, if_false, guarded]
      show guarded_from true (read_accesses dev count f_pos ++ _) = true
      rw [guarded_from_accesses _ _ (read_accesses_access dev count f_pos)]
      exact hend _
    · rfl

/-- C20 (lock balance): for every device and every input, on every path of
`scull_read` and of `scull_write` that returns after the lock was taken, the
lock is free in the returned device, the call took the lock once and released
it once, and the release is its last operation; on the interrupted path the
call returns `-ERESTARTSYS`, the device (the lock with it) is as it was, and
the call neither took nor released the lock. -/
theorem lock_balance (k : Kernel) (dev : scull_dev) (buf : List Nat) (cap count : Nat)
    (f_pos : Int) :
    (∀ r, scull_read k dev cap count f_pos = some r →
      (k.intr = false → r.dev.mu = false ∧
        (scull_read_events k dev cap count f_pos).count .lock_ok = 1 ∧
        (scull_read_events k dev cap count f_pos).count .unlock = 1 ∧
        (scull_read_events k dev cap count f_pos).getLast? = some .unlock) ∧
      (k.intr = true → r.retval = -ERESTARTSYS ∧ r.dev = dev ∧
        (scull_read_events k dev cap count f_pos).count .lock_ok = 0 ∧
        (scull_read_events k dev cap count f_pos).count .unlock = 0)) ∧
    (∀ r, scull_write k dev buf count f_pos = some r →
      (k.intr = false → r.dev.mu = false ∧
        (scull_write_events k dev buf count f_pos).count .lock_ok = 1 ∧
        (scull_write_events k dev buf count f_pos).count .unlock = 1 ∧
        (scull_write_events k dev buf count f_pos).getLast? = some .unlock) ∧
      (k.intr = true → r.retval = -ERESTARTSYS ∧ r.dev = dev ∧
        (scull_write_events k dev buf count f_pos).count .lock_ok = 0 ∧
        (scull_write_events k dev buf count f_pos).count .unlock = 0)) := by
  constructor
  · intro r h
    constructor
    · intro hk
      obtain ⟨c1, c2, _⟩ := count_accesses _ (read_accesses_access dev count f_pos)
      refine ⟨scull_read_unlocks k dev cap count f_pos r hk h, ?_⟩
      unfold scull_read_events
      simp only [hk, h, Option.isSome_some, Bool.false_eq_true, if_false, if_true]
      refine ⟨?_, ?_, ?_⟩
      · rw [List.count_cons, List.count_append, c1]
        rfl
      · rw [List.count_cons, List.count_append, c2]
        rfl
      · rw [← List.cons_append, List.getLast?_append]
        rfl
    · intro hk
      unfold scull_read at h
      simp only [hk, if_true] at h
      have hr := Option.some.inj h
      subst hr
      unfold scull_read_events
      simp only [hk, if_true]
      refine ⟨?_, ?_, ?_, ?_⟩ <;> trivial
  · intro r h
    constructor
    · intro hk
      obtain ⟨c1, c2, _⟩ := count_accesses _ (write_accesses_access k dev buf count f_pos)
      refine ⟨scull_write_unlocks k dev buf count f_pos r hk h, ?_⟩
      unfold scull_write_events
      simp only [hk, h, Option.isSome_some, Bool.false_eq_true, if_false, if_true]
      refine ⟨?_, ?_, ?_⟩
      · rw [List.count_cons, List.count_cons, List.count_cons, List.count_cons,
          List.count_append, c1]
        rfl
      · rw [List.count_cons, List.count_cons, List.count_cons, List.count_cons,
          List.count_append, c2]
        rfl
      · rw [← List.cons_append, ← List.cons_append, ← List.cons_append, ← List.cons_append,
          List.getLast?_append]
        rfl
    · intro hk
      unfold scull_write at h
      simp only [hk, if_true] at h
      have hr := Option.some.inj h
      subst hr
      unfold scull_write_events
      simp only [hk, if_true]
      refine ⟨?_, ?_, ?_, ?_⟩ <;> trivial

theorem lock_balance_witness :
    (scull_read ⟨false, 0, none, none⟩ ⟨[⟨some [.buf [1, 2]]⟩], 2, 1, 2, false⟩ 2 2 0 =
      some ⟨2, ⟨[⟨some [.buf [1, 2]]⟩], 2, 1, 2, false⟩, 2, [1, 2]⟩) ∧
    (false = false →
      (⟨[⟨some [.buf [1, 2]]⟩], 2, 1, 2, false⟩ : scull_dev).mu = false ∧
      (scull_read_events ⟨false, 0, none, none⟩ ⟨[⟨some [.buf [1, 2]]⟩], 2, 1, 2, false⟩
        2 2 0).count .lock_ok = 1 ∧
      (scull_read_events ⟨false, 0, none, none⟩ ⟨[⟨some [.buf [1, 2]]⟩], 2, 1, 2, false⟩
        2 2 0).count .unlock = 1 ∧
      (scull_read_events ⟨false, 0, none, none⟩ ⟨[⟨some [.buf [1, 2]]⟩], 2, 1, 2, false⟩
        2 2 0).getLast? = some .unlock) :=
  ⟨by decide,
    ((lock_balance ⟨false, 0, none, none⟩ ⟨[⟨some [.buf [1, 2]]⟩], 2, 1, 2, false⟩ [] 2 2 0).1
      ⟨2, ⟨[⟨some [.buf [1, 2]]⟩], 2, 1, 2, false⟩, 2, [1, 2]⟩ (by decide)).1⟩

/-! # Claim C19: what a write changes -/

/-- Storing `t` bytes of `buf` in the quantum for position `p`: the positions
`p .. p + t - 1` hold the bytes of `buf`, and every other position that had a
byte keeps it. -/
theorem store_frame (dev : scull_dev) (q s p t : Nat) (hq : dev.quantum = q)
    (hs : dev.qset = s) (hq1 : 1 ≤ q) (hs1 : 1 ≤ s) (chain1 : List scull_qset) (n : Nat)
    (hch : dev.data ++ List.replicate n ⟨none⟩ = chain1)
    (slots : List QuantumPtr) (bytes buf : List Nat)
    (hfr : chain1[p / (q * s)]? = some ⟨some slots⟩ ∨
      (chain1[p / (q * s)]? = some ⟨none⟩ ∧
        ∀ (n : Nat) (c : List Nat), slots[n]? ≠ some (QuantumPtr.buf c)))
    (hbytes : slots[p % (q * s) / q]? = some (.buf bytes) ∨
      slots[p % (q * s) / q]? = some .null)
    (htq : p % (q * s) % q + t ≤ q) (hlen : p % (q * s) % q + t ≤ bytes.length)
    (hbuf : t ≤ buf.length) (size1 : Nat) (m : Bool) :
    (∀ d, d < t → peek ⟨chain1.set (p / (q * s)) ⟨some (slots.set (p % (q * s) / q)
        (.buf (copy_in bytes (p % (q * s) % q) buf t)))⟩, dev.quantum, dev.qset, size1, m⟩
        (p + d) = buf[d]?) ∧
    (∀ j b, (j < p ∨ p + t ≤ j) → peek dev j = some b →
      peek ⟨chain1.set (p / (q * s)) ⟨some (slots.set (p % (q * s) / q)
        (.buf (copy_in bytes (p % (q * s) % q) buf t)))⟩, dev.quantum, dev.qset, size1, m⟩ j
        = some b) := by
  have hitl : p / (q * s) < chain1.length := by
    rcases hfr with h | ⟨h, _⟩ <;> exact (List.getElem?_eq_some.mp h).1
  have hspl : p % (q * s) / q < slots.length := by
    rcases hbytes with h | h <;> exact (List.getElem?_eq_some.mp h).1
  constructor
  · intro d hd
    have hsh := addr_shift q s p d hq1 hs1 (by omega)
    unfold peek
    simp only [hq, hs, Int.toNat_ofNat, hsh.1, hsh.2.1, hsh.2.2]
    rw [quantum_at_set_self chain1 slots _ _ _ hitl hspl]
    rw [Option.some_bind]
    rw [copy_in_get _ _ _ _ hlen hbuf]
    rw [if_pos (by omega)]
    congr 1
    omega
  · intro j b hj hpk
    unfold peek at hpk ⊢
    simp only [hq, hs, Int.toNat_ofNat] at hpk ⊢
    by_cases hsame : j / (q * s) = p / (q * s) ∧ j % (q * s) / q = p % (q * s) / q
    · rw [hsame.1, hsame.2] at hpk ⊢
      rw [quantum_at_set_self chain1 slots _ _ _ hitl hspl]
      rw [Option.some_bind]
      have hqa : quantum_at chain1 (p / (q * s)) (p % (q * s) / q) =
          quantum_at dev.data (p / (q * s)) (p % (q * s) / q) := by
        rw [← hch]; exact quantum_at_append _ _ _ _
      have hold : quantum_at dev.data (p / (q * s)) (p % (q * s) / q) = some bytes := by
        rw [← hqa]
        rw [← hqa] at hpk
        rcases hfr with h | ⟨h, _⟩
        · rcases hbytes with h' | h'
          · unfold quantum_at; rw [h]; simp only; rw [h']
          · unfold quantum_at at hpk
            rw [h] at hpk
            simp only at hpk
            rw [h'] at hpk
            cases hpk
        · unfold quantum_at at hpk
          rw [h] at hpk
          cases hpk
      rw [hold] at hpk
      rw [Option.some_bind] at hpk
      have hsm := addr_same q s p j hsame.1 hsame.2
      rw [copy_in_get _ _ _ _ hlen hbuf]
      rw [if_neg (by omega)]
      exact hpk
    · rw [quantum_at_set_other chain1 slots _ _ _ _ _ hfr hsame, ← hch, quantum_at_append]
      exact hpk

/-- C19, counterexample (two offsets, one byte): with `quantum = qset = 1`
the offsets 0 and `2^32` address the same byte, because the node index `2^32`
is stored in the `int item` as 0; the device holds the byte 5 at position 0,
the write of the byte 9 at offset `2^32` succeeds, and afterwards position 0,
which is not among the positions written, holds 9. -/
theorem write_frame_alias :
    scull_write ⟨false, 0, none, none⟩ ⟨[⟨some [.buf [5]]⟩], 1, 1, 1, false⟩ [9] 1
      ((4294967296 : Nat) : Int) =
      some ⟨1, ⟨[⟨some [.buf [9]]⟩], 1, 1, 4294967297, false⟩, 4294967297⟩ ∧
    peek ⟨[⟨some [.buf [5]]⟩], 1, 1, 1, false⟩ 0 = some 5 ∧
    peek ⟨[⟨some [.buf [9]]⟩], 1, 1, 4294967297, false⟩ 0 = some 9 := by
  refine ⟨by decide, by decide, by decide⟩

/-- C19 (write frame), amended: when `quantum ≥ 1`, `qset ≥ 1`,
`quantum * qset` fits an `int`, the offset `p` is a non-negative `loff_t` and
its node index `p / (quantum * qset)` fits an `int`, every call of
`scull_write` that returns a non-negative value returns
`t = min(count, quantum - q_pos)`, has read `t` bytes of the user buffer,
leaves them at the positions `p .. p + t - 1`, leaves the byte of every other
position that had one as it was, and leaves `quantum` and `qset` unchanged. -/
theorem write_frame (k : Kernel) (dev : scull_dev) (buf : List Nat) (count : Nat)
    (q s p : Nat) (hq : dev.quantum = q) (hs : dev.qset = s) (hq1 : 1 ≤ q) (hs1 : 1 ≤ s)
    (hprod : q * s < 2 ^ 31) (hitem : p / (q * s) < 2 ^ 31) (hp : p < 2 ^ 63)
    (r : WriteRet) (h : scull_write k dev buf count (p : Int) = some r)
    (hret : 0 ≤ r.retval) :
    r.retval = (spec_write_len q s p count : Nat) ∧
    spec_write_len q s p count ≤ buf.length ∧
    (∀ d, d < spec_write_len q s p count → peek r.dev (p + d) = buf[d]?) ∧
    (∀ j b, (j < p ∨ p + spec_write_len q s p count ≤ j) → peek dev j = some b →
      peek r.dev j = some b) ∧
    r.dev.quantum = q ∧ r.dev.qset = s := by
  obtain ⟨e1, e2, e3⟩ := errno_neg
  by_cases hk : k.intr = true
  · have hr : r.retval = -ERESTARTSYS := by
      unfold scull_write at h
      simp only [hk, if_true] at h
      rw [← Option.some.inj h]
    rw [hr] at hret
    omega
  · have hk' : k.intr = false := by simpa using hk
    have hqp : p % (q * s) % q < q := Nat.mod_lt _ (by omega)
    have hcases := scull_write_cases k dev buf count q s p hq hs hq1 hs1 hprod hp hk' r h
      (p / (q * s)) (p % (q * s) / q) (p % (q * s) % q) (spec_write_len q s p count)
      (dev.data ++ List.replicate
        (min k.nodes (p / (q * s) + 1 - dev.data.length)) ⟨none⟩)
      (item_iter dev q s p hq hs hprod hitem).symm rfl rfl rfl rfl
    have htq : p % (q * s) % q + spec_write_len q s p count ≤ q := by
      unfold spec_write_len spec_byteOffset; omega
    rcases hcases with ⟨hr, _⟩ | ⟨slots, hslots, hrest⟩
    · have : r.retval = -ENOMEM := by rw [hr]
      rw [this] at hret
      omega
    · have hfr : (dev.data ++ List.replicate
            (min k.nodes (p / (q * s) + 1 - dev.data.length))
            (⟨none⟩ : scull_qset))[p / (q * s)]? = some ⟨some slots⟩ ∨
          ((dev.data ++ List.replicate
            (min k.nodes (p / (q * s) + 1 - dev.data.length))
            (⟨none⟩ : scull_qset))[p / (q * s)]? = some ⟨none⟩ ∧
            ∀ (n : Nat) (c : List Nat), slots[n]? ≠ some (QuantumPtr.buf c)) := by
        rcases hslots with h1 | ⟨h1, ws, _, hws⟩
        · exact Or.inl h1
        · exact Or.inr ⟨h1, fun n c => by rw [hws]; exact fresh_slots_no_buf _ _ n c⟩
      rcases hrest with ⟨_, _, hr⟩ | ⟨bytes, hbytes, hlen, hres⟩
      · have : r.retval = -ENOMEM := by rw [hr]
        rw [this] at hret
        omega
      · rcases hres with ⟨_, hr⟩ | ⟨hbuf, hr⟩
        · have : r.retval = -EFAULT := by rw [hr]
          rw [this] at hret
          omega
        · have hb2 : slots[p % (q * s) / q]? = some (.buf bytes) ∨
              slots[p % (q * s) / q]? = some .null := by
            rcases hbytes with h1 | ⟨h1, _⟩
            · exact Or.inl h1
            · exact Or.inr h1
          have hst := store_frame dev q s p (spec_write_len q s p count) hq hs hq1 hs1 _ _ rfl
            slots bytes buf hfr hb2 htq hlen hbuf
            (max dev.size (p + spec_write_len q s p count)) false
          rw [hr]
          exact ⟨rfl, hbuf, hst.1, hst.2, hq, hs⟩

theorem write_frame_witness :
    (1 : Int) = ((spec_write_len 2 1 1 1 : Nat) : Int) ∧
    spec_write_len 2 1 1 1 ≤ [9].length :=
  ⟨(write_frame ⟨false, 0, none, none⟩ ⟨[⟨some [.buf [5, 6]]⟩], 2, 1, 2, false⟩ [9] 1 2 1 1
      rfl rfl (by decide) (by decide) (by decide) (by decide) (by decide)
      ⟨1, ⟨[⟨some [.buf [5, 9]]⟩], 2, 1, 2, false⟩, 2⟩ (by decide) (by decide)).1,
    (write_frame ⟨false, 0, none, none⟩ ⟨[⟨some [.buf [5, 6]]⟩], 2, 1, 2, false⟩ [9] 1 2 1 1
      rfl rfl (by decide) (by decide) (by decide) (by decide) (by decide)
      ⟨1, ⟨[⟨some [.buf [5, 9]]⟩], 2, 1, 2, false⟩, 2⟩ (by decide) (by decide)).2.1⟩

/-! # Claim C15: positions below `size` -/

theorem nogap_inv_write (k : Kernel) (dev : scull_dev) (buf : List Nat) (count p : Nat)
    (r : WriteRet) (hinv : nogap_inv dev) (hle : p ≤ dev.size) (hp : p < 2 ^ 63)
    (h : scull_write k dev buf count (p : Int) = some r) (hret : 0 ≤ r.retval) :
    nogap_inv r.dev := by
  obtain ⟨iq, is, i64, ib⟩ := hinv
  obtain ⟨e1, e2, e3⟩ := errno_neg
  have hprod : 4000 * 1000 < 2 ^ 31 := by norm_num
  by_cases hk : k.intr = true
  · have hr : r.retval = -ERESTARTSYS := by
      unfold scull_write at h
      simp only [hk, if_true] at h
      rw [← Option.some.inj h]
    rw [hr] at hret
    omega
  · have hk' : k.intr = false := by simpa using hk
    have hcases := scull_write_cases k dev buf count 4000 1000 p iq is (by norm_num)
      (by norm_num) hprod hp hk' r h
      (item_index 4000 1000 p) (p % (4000 * 1000) / 4000) (p % (4000 * 1000) % 4000)
      (min count (4000 - p % (4000 * 1000) % 4000))
      (dev.data ++ List.replicate
        (min k.nodes (item_index 4000 1000 p + 1 - dev.data.length)) ⟨none⟩)
      (item_index_eq dev 4000 1000 p iq is hprod).symm rfl rfl rfl rfl
    generalize hch : dev.data ++ List.replicate
      (min k.nodes (item_index 4000 1000 p + 1 - dev.data.length)) (⟨none⟩ : scull_qset)
      = chain1 at hcases
    generalize ht : min count (4000 - p % (4000 * 1000) % 4000) = t at hcases
    have hqa1 : ∀ i j, quantum_at chain1 i j = quantum_at dev.data i j := by
      intro i j; rw [← hch]; exact quantum_at_append _ _ _ _
    rcases hcases with ⟨hr, _⟩ | ⟨slots, hslots, hrest⟩
    · have : r.retval = -ENOMEM := by rw [hr]
      rw [this] at hret
      omega
    · have hfr : chain1[item_index 4000 1000 p]? = some ⟨some slots⟩ ∨
          (chain1[item_index 4000 1000 p]? = some ⟨none⟩ ∧
            ∀ (n : Nat) (c : List Nat), slots[n]? ≠ some (QuantumPtr.buf c)) := by
        rcases hslots with h | ⟨h, ws, _, hws⟩
        · exact Or.inl h
        · exact Or.inr ⟨h, fun n c => by rw [hws]; exact fresh_slots_no_buf _ _ n c⟩
      have hitl : item_index 4000 1000 p < chain1.length := by
        rcases hslots with h | ⟨h, _⟩ <;> exact (List.getElem?_eq_some.mp h).1
      rcases hrest with ⟨_, _, hr⟩ | ⟨bytes, hbytes, hlen, hres⟩
      · have : r.retval = -ENOMEM := by rw [hr]
        rw [this] at hret
        omega
      · have hspl : p % (4000 * 1000) / 4000 < slots.length := by
          rcases hbytes with h | ⟨h, _⟩ <;> exact (List.getElem?_eq_some.mp h).1
        rcases hres with ⟨_, hr⟩ | ⟨_, hr⟩
        · have : r.retval = -EFAULT := by rw [hr]
          rw [this] at hret
          omega
        · rw [hr]
          refine ⟨iq, is, ?_, ?_⟩
          · show max dev.size (p + t) < 2 ^ 64
            rw [max_lt_iff]
            exact ⟨i64, by omega⟩
          · intro j hj
            have hj' : j < max dev.size (p + t) := hj
            show ∃ b, quantum_at (chain1.set (item_index 4000 1000 p)
              ⟨some (slots.set (p % (4000 * 1000) / 4000)
                (.buf (copy_in bytes (p % (4000 * 1000) % 4000) buf t)))⟩)
              (item_index 4000 1000 j) (j % (4000 * 1000) / 4000) = some b
            by_cases hsame : item_index 4000 1000 j = item_index 4000 1000 p ∧
                j % (4000 * 1000) / 4000 = p % (4000 * 1000) / 4000
            · rw [hsame.1, hsame.2]
              exact ⟨_, quantum_at_set_self chain1 slots _ _ _ hitl hspl⟩
            · have hjs : j < dev.size := by
                by_contra hge
                have hjt : j < p + t := by
                  rcases lt_max_iff.mp hj' with h1 | h1
                  · exact absurd h1 hge
                  · exact h1
                have hsh := addr_shift 4000 1000 p (j - p) (by norm_num) (by norm_num)
                  (by omega)
                have e : p + (j - p) = j := by omega
                rw [e] at hsh
                apply hsame
                refine ⟨?_, hsh.2.1⟩
                unfold item_index
                rw [hsh.1]
              obtain ⟨b, hb⟩ := ib j hjs
              exact ⟨b, by rw [quantum_at_set_other chain1 slots _ _ _ _ _ hfr hsame, hqa1]
                           exact hb⟩

theorem nogap_inv_of_reach (dev : scull_dev) (h : ReachWrites true dev) : nogap_inv dev := by
  induction h with
  | init =>
    refine ⟨rfl, rfl, by show (0 : Nat) < 2 ^ 64; decide, ?_⟩
    intro j hj
    exact absurd hj (Nat.not_lt_zero j)
  | write k dev buf count p r _ hle _ hp hw hret ih =>
    exact nogap_inv_write k dev buf count p r ih (hle rfl) hp hw hret

/-- The write of the byte 7 at offset 0 to the fresh device. -/
theorem write_at_zero :
    scull_write ⟨false, 1, some [], some []⟩ scull_init_dev [7] 1 ((0 : Nat) : Int) =
      some ⟨(1 : Nat), { scull_init_dev with
        data := [(⟨none⟩ : scull_qset)].set 0 ⟨some ((fresh_slots (1000 : Nat) []).set 0
          (.buf (copy_in (fresh_quantum (4000 : Nat) []) 0 [7] 1)))⟩,
        size := max scull_init_dev.size (0 + 1),
        mu := false }, wrap64 ((0 + 1 : Nat) : Int)⟩ :=
  scull_write_ok ⟨false, 1, some [], some []⟩ scull_init_dev [7] 1 4000 1000 0
    rfl rfl (by norm_num) (by norm_num) (by norm_num) (by norm_num) rfl
    0 0 0 1 [⟨none⟩] (by decide) (by decide) (by decide) (by decide) (by decide) (by decide)
    (fresh_slots (1000 : Nat) []) (Or.inr ⟨by decide, [], rfl, rfl⟩)
    (fresh_quantum (4000 : Nat) [])
    (Or.inr ⟨fresh_slots_zeroed 1000 [] (by norm_num) (by intro w hw; cases hw) 0
      (by norm_num), [], rfl, rfl⟩)
    (by rw [fresh_quantum_length 4000 [] (by norm_num)]; norm_num) (by decide)

/-- The write of the byte 7 at offset 4000 to the fresh device: the byte goes
to slot 1 of node 0 and `size` becomes 4001. -/
theorem write_at_4000 :
    scull_write ⟨false, 1, some [], some []⟩ scull_init_dev [7] 1 ((4000 : Nat) : Int) =
      some ⟨(1 : Nat), { scull_init_dev with
        data := [(⟨none⟩ : scull_qset)].set 0 ⟨some ((fresh_slots (1000 : Nat) []).set 1
          (.buf (copy_in (fresh_quantum (4000 : Nat) []) 0 [7] 1)))⟩,
        size := max scull_init_dev.size (4000 + 1),
        mu := false }, wrap64 ((4000 + 1 : Nat) : Int)⟩ :=
  scull_write_ok ⟨false, 1, some [], some []⟩ scull_init_dev [7] 1 4000 1000 4000
    rfl rfl (by norm_num) (by norm_num) (by norm_num) (by norm_num) rfl
    0 1 0 1 [⟨none⟩] (by decide) (by decide) (by decide) (by decide) (by decide) (by decide)
    (fresh_slots (1000 : Nat) []) (Or.inr ⟨by decide, [], rfl, rfl⟩)
    (fresh_quantum (4000 : Nat) [])
    (Or.inr ⟨fresh_slots_zeroed 1000 [] (by norm_num) (by intro w hw; cases hw) 1
      (by norm_num), [], rfl, rfl⟩)
    (by rw [fresh_quantum_length 4000 [] (by norm_num)]; norm_num) (by decide)

/-- C15, counterexample (a write beyond `size` leaves a gap): the write of
one byte at offset 4000 to the fresh device succeeds and sets `size = 4001`;
the byte is in slot 1 of node 0, slot 0 is still null, so position 0, which is
below `size`, has no quantum and `read` at offset 0 returns 0. -/
theorem sparse_write_gap :
    ∃ dev, ReachWrites false dev ∧ dev.size = 4001 ∧ ¬ backed dev 0 ∧
      ∃ r, scull_read ⟨false, 0, none, none⟩ dev 1 1 ((0 : Nat) : Int) = some r ∧
        r.retval = 0 := by
  have hreach : ReachWrites false _ := ReachWrites.write _ _ _ _ _ _ ReachWrites.init
    (by intro h; cases h) (by norm_num) (by norm_num) write_at_4000 (by decide)
  have h0 : ((fresh_slots (1000 : Nat) []).set 1
      (.buf (copy_in (fresh_quantum (4000 : Nat) []) 0 [7] 1)))[0]? = some .null := by
    rw [List.getElem?_set_ne (by decide)]
    exact fresh_slots_zeroed 1000 [] (by norm_num) (by intro w hw; cases hw) 0 (by norm_num)
  refine ⟨_, hreach, by decide, ?_, ?_⟩
  · rintro ⟨slots, bytes, h1, h2⟩
    have hi : (pos_item ({ scull_init_dev with
        data := [(⟨none⟩ : scull_qset)].set 0 ⟨some ((fresh_slots (1000 : Nat) []).set 1
          (.buf (copy_in (fresh_quantum (4000 : Nat) []) 0 [7] 1)))⟩,
        size := max scull_init_dev.size (4000 + 1),
        mu := false } : scull_dev) ((0 : Nat) : Int) % 2 ^ 32).toNat = 0 := by decide
    have hs : pos_s ({ scull_init_dev with
        data := [(⟨none⟩ : scull_qset)].set 0 ⟨some ((fresh_slots (1000 : Nat) []).set 1
          (.buf (copy_in (fresh_quantum (4000 : Nat) []) 0 [7] 1)))⟩,
        size := max scull_init_dev.size (4000 + 1),
        mu := false } : scull_dev) ((0 : Nat) : Int) = ((0 : Nat) : Int) := by decide
    have h1' : ([(⟨none⟩ : scull_qset)].set 0 ⟨some ((fresh_slots (1000 : Nat) []).set 1
          (.buf (copy_in (fresh_quantum (4000 : Nat) []) 0 [7] 1)))⟩)[0]?
        = some ⟨some slots⟩ := by
      have := h1
      rw [hi] at this
      exact this
    have h2' : slots[0]? = some (.buf bytes) := by
      have := h2
      rw [hs, slot_at_nat] at this
      exact this
    simp only [List.set_cons_zero, List.getElem?_cons_zero, Option.some.injEq,
      scull_qset.mk.injEq] at h1'
    rw [← h1', h0] at h2'
    cases h2'
  · exact ⟨_, scull_read_null_core ⟨false, 0, none, none⟩ _ 1 1 0 (by decide)
      (by norm_num) rfl (by decide) 0 0 _ (by decide) (by decide) rfl (by decide) _
      (by simp) h0, rfl⟩

/-- C15 (no gaps), amended: in every device reachable from a freshly
initialised one by calls of `write` that return a non-negative value and
start at an offset that is at most the current `size`, every position
`p < size` has its node, its array and its quantum; and a `read` at such a
position (an offset below `2^63`, the lock obtained, `count ≥ 1`,
`p + count` within a `size_t`) that returns does not return 0. -/
theorem no_gaps (dev : scull_dev) (h : ReachWrites true dev) (p : Nat) (hp : p < dev.size) :
    backed dev p ∧
    ∀ (k : Kernel) (cap count : Nat) (r : ReadRet), k.intr = false → 1 ≤ count →
      p + count < 2 ^ 64 → p < 2 ^ 63 →
      scull_read k dev cap count (p : Int) = some r → r.retval ≠ 0 := by
  obtain ⟨iq, is, i64, ib⟩ := nogap_inv_of_reach dev h
  obtain ⟨e1, e2, e3⟩ := errno_neg
  have hprod : 4000 * 1000 < 2 ^ 31 := by norm_num
  obtain ⟨b, hb⟩ := ib p hp
  obtain ⟨slots, hseg, hslot⟩ := quantum_at_some _ _ _ _ hb
  have hitl : item_index 4000 1000 p < dev.data.length := (List.getElem?_eq_some.mp hseg).1
  constructor
  · refine ⟨slots, b, ?_, ?_⟩
    · rw [item_index_eq dev 4000 1000 p iq is hprod]
      exact hseg
    · rw [pos_s_nat dev 4000 1000 p iq is hprod, slot_at_nat]
      exact hslot
  · intro k cap count r hk hc hsum hp63 hr
    have hcases := scull_read_cases k dev cap count 4000 1000 p iq is (by norm_num)
      (by norm_num) hprod hp63 hk hp i64 hsum r hr
      (item_index 4000 1000 p) (p % (4000 * 1000) / 4000) (p % (4000 * 1000) % 4000)
      (min (min count (dev.size - p)) (4000 - p % (4000 * 1000) % 4000))
      (dev.data ++ List.replicate
        (min k.nodes (item_index 4000 1000 p + 1 - dev.data.length)) ⟨none⟩)
      (item_index_eq dev 4000 1000 p iq is hprod).symm rfl rfl rfl rfl
    have hch : (dev.data ++ List.replicate
        (min k.nodes (item_index 4000 1000 p + 1 - dev.data.length))
        (⟨none⟩ : scull_qset))[item_index 4000 1000 p]? = some ⟨some slots⟩ := by
      rw [List.getElem?_append_left hitl]
      exact hseg
    rw [hch] at hcases
    have hqp : p % (4000 * 1000) % 4000 < 4000 := Nat.mod_lt _ (by norm_num)
    rcases hcases with ⟨_, h1 | h1 | ⟨sl, h1, h2⟩⟩ | ⟨sl, bytes, _, _, _, ⟨_, h3⟩ | ⟨_, h3⟩⟩
    · omega
    · cases h1
    · have hsl := Option.some.inj h1
      simp only [scull_qset.mk.injEq, Option.some.injEq] at hsl
      rw [← hsl, hslot] at h2
      cases h2
    · rw [h3]
      show -EFAULT ≠ 0
      unfold EFAULT
      omega
    · rw [h3]
      show ((min (min count (dev.size - p)) (4000 - p % (4000 * 1000) % 4000) : Nat) : Int) ≠ 0
      omega

theorem no_gaps_witness :
    ∃ dev, ReachWrites true dev ∧ dev.size = 1 ∧ backed dev 0 :=
  have hreach : ReachWrites true _ := ReachWrites.write _ _ _ _ _ _ ReachWrites.init
    (fun _ => Nat.le_refl 0) (by norm_num) (by norm_num) write_at_zero (by decide)
  ⟨_, hreach, by decide, (no_gaps _ hreach 0 (by decide)).1⟩

/-! # Claim C16: the capacity of the chain -/

/-- Whatever `scull_read` returns, the chain afterwards is the old chain
followed by at most `item + 1 - length` nodes without array, and it is the old
chain when the offset is at or beyond `size`. -/
theorem scull_read_chain (k : Kernel) (dev : scull_dev) (cap count : Nat) (f_pos : Int)
    (r : ReadRet) (h : scull_read k dev cap count f_pos = some r) :
    (∃ n, n ≤ (pos_item dev f_pos % 2 ^ 32).toNat + 1 - dev.data.length ∧
      r.dev.data = dev.data ++ List.replicate n ⟨none⟩) ∧
    r.dev.quantum = dev.quantum ∧ r.dev.qset = dev.qset ∧ r.dev.size = dev.size ∧
    (u64 f_pos ≥ dev.size → r.dev.data = dev.data) := by
  unfold scull_read at h
  rw [scull_follow_eq] at h
  simp only at h
  repeat' split at h
  all_goals first
    | exact absurd h (Option.noConfusion)
    | (have hr := Option.some.inj h; subst hr
       first
         | exact ⟨⟨_, Nat.min_le_right _ _, rfl⟩, rfl, rfl, rfl, fun hge => absurd hge ‹_›⟩
         | exact ⟨⟨0, Nat.zero_le _, (List.append_nil _).symm⟩, rfl, rfl, rfl, fun _ => rfl⟩)

theorem cap_inv_read (k : Kernel) (dev : scull_dev) (cap count p : Nat) (r : ReadRet)
    (hinv : cap_inv dev) (hp : p < 2 ^ 63)
    (h : scull_read k dev cap count (p : Int) = some r) :
    cap_inv r.dev ∧ (p < dev.size → r.dev.data = dev.data) := by
  obtain ⟨iq, is, icap, ilen⟩ := hinv
  obtain ⟨⟨n, hn, hd⟩, hq, hs, hsz, heof⟩ := scull_read_chain k dev cap count p r h
  have hprod : 4000 * 1000 < 2 ^ 31 := by norm_num
  have hsame : r.dev.data = dev.data := by
    by_cases hu : u64 (p : Int) ≥ dev.size
    · exact heof hu
    · rw [u64_ofNat (by omega)] at hu
      have hitem : p / (4000 * 1000) < dev.data.length := by omega
      rw [item_iter dev 4000 1000 p iq is hprod (by omega)] at hn
      have h0 : n = 0 := by omega
      rw [hd, h0]
      exact List.append_nil _
  refine ⟨⟨by rw [hq]; exact iq, by rw [hs]; exact is, ?_, ?_⟩, fun _ => hsame⟩
  · rw [hsz, hsame]; exact icap
  · rw [hsame]; exact ilen

theorem cap_inv_trim (dev d : scull_dev) (h : scull_trim dev = some d) : cap_inv d := by
  rw [scull_trim_some dev d h]
  exact ⟨rfl, rfl, Nat.zero_le _, Nat.zero_le _⟩

theorem cap_inv_write (k : Kernel) (dev : scull_dev) (buf : List Nat) (count p : Nat)
    (r : WriteRet) (hinv : cap_inv dev) (hpm : p < 2 ^ 31 * (4000 * 1000)) (hp : p < 2 ^ 63)
    (h : scull_write k dev buf count (p : Int) = some r) : cap_inv r.dev := by
  obtain ⟨iq, is, icap, ilen⟩ := hinv
  have hprod : 4000 * 1000 < 2 ^ 31 := by norm_num
  have hitem : p / (4000 * 1000) < 2 ^ 31 := by omega
  by_cases hk : k.intr = true
  · have hr : r = ⟨-ERESTARTSYS, dev, p⟩ := by
      unfold scull_write at h
      simp only [hk, if_true] at h
      exact (Option.some.inj h).symm
    rw [hr]
    exact ⟨iq, is, icap, ilen⟩
  · have hk' : k.intr = false := by simpa using hk
    have hcases := scull_write_cases k dev buf count 4000 1000 p iq is (by norm_num)
      (by norm_num) hprod hp hk' r h
      (p / (4000 * 1000)) (p % (4000 * 1000) / 4000) (p % (4000 * 1000) % 4000)
      (min count (4000 - p % (4000 * 1000) % 4000))
      (dev.data ++ List.replicate
        (min k.nodes (p / (4000 * 1000) + 1 - dev.data.length)) ⟨none⟩)
      (item_iter dev 4000 1000 p iq is hprod hitem).symm rfl rfl rfl rfl
    have hl : (dev.data ++ List.replicate
        (min k.nodes (p / (4000 * 1000) + 1 - dev.data.length))
        (⟨none⟩ : scull_qset)).length =
        dev.data.length + min k.nodes (p / (4000 * 1000) + 1 - dev.data.length) := by
      rw [List.length_append, List.length_replicate]
    generalize hch : dev.data ++ List.replicate
      (min k.nodes (p / (4000 * 1000) + 1 - dev.data.length)) (⟨none⟩ : scull_qset)
      = chain1 at hcases hl
    generalize ht : min count (4000 - p % (4000 * 1000) % 4000) = t at hcases
    have hl1 : dev.data.length ≤ chain1.length := by omega
    have hl2 : chain1.length ≤ 2 ^ 31 := by
      rw [hl]
      rcases Nat.le_total k.nodes (p / (4000 * 1000) + 1 - dev.data.length) with h1 | h1
      · rw [min_eq_left h1]; omega
      · rw [min_eq_right h1]; omega
    have build : ∀ (data1 : List scull_qset) (size1 : Nat) (m : Bool),
        data1.length = chain1.length → size1 ≤ chain1.length * (4000 * 1000) →
        cap_inv ⟨data1, dev.quantum, dev.qset, size1, m⟩ := by
      intro data1 size1 m h1 h2
      refine ⟨iq, is, ?_, ?_⟩
      · show size1 ≤ data1.length * (4000 * 1000)
        rw [h1]; exact h2
      · show data1.length ≤ 2 ^ 31
        rw [h1]; exact hl2
    have hsz : dev.size ≤ chain1.length * (4000 * 1000) := by omega
    rcases hcases with ⟨hr, _⟩ | ⟨slots, hslots, hrest⟩
    · rw [hr]
      exact build _ _ _ rfl hsz
    · have hitl : p / (4000 * 1000) < chain1.length := by
        rcases hslots with h | ⟨h, _⟩ <;> exact (List.getElem?_eq_some.mp h).1
      rcases hrest with ⟨_, _, hr⟩ | ⟨bytes, _, _, ⟨_, hr⟩ | ⟨_, hr⟩⟩
      · rw [hr]
        exact build _ _ _ (List.length_set _ _ _) hsz
      · rw [hr]
        exact build _ _ _ (List.length_set _ _ _) hsz
      · rw [hr]
        apply build _ _ _ (List.length_set _ _ _)
        rw [max_le_iff]
        refine ⟨hsz, ?_⟩
        omega

theorem cap_inv_of_reach (dev : scull_dev) (h : ReachBelow (2 ^ 31 * (4000 * 1000)) dev) :
    cap_inv dev := by
  induction h with
  | init => exact ⟨rfl, rfl, Nat.zero_le _, Nat.zero_le _⟩
  | write k dev buf count p r _ _ hpm hp hw ih =>
    exact cap_inv_write k dev buf count p r ih hpm hp hw
  | read k dev cap count p r _ _ hp hr ih =>
    exact (cap_inv_read k dev cap count p r ih hp hr).1
  | trim dev d _ ht _ => exact cap_inv_trim dev d ht
  | opened dev f_flags r _ ho ih =>
    unfold scull_open at ho
    split at ho
    · rcases ht : scull_trim dev with _ | d
      · rw [ht] at ho; cases ho
      · rw [ht] at ho
        have := Option.some.inj ho
        subst this
        exact cap_inv_trim dev d ht
    · have := Option.some.inj ho
      subst this
      exact ih

/-- C16, counterexample (the node index is an `int`): the write of one byte
at offset `2^32 * 4000000` to the fresh device succeeds with one node in the
chain, because the node index `2^32` is stored in the `int item` as 0; then
`size = 2^32 * 4000000 + 1` exceeds the capacity `1 * 4000 * 1000` of the
chain, and `read` at offset 4000000, which is below `size`, finds no node 1
and leaves a chain of two nodes. -/
theorem capacity_overflow :
    ∃ dev, ReachBelow (2 ^ 63) dev ∧ dev.data.length = 1 ∧
      (dev.data.length : Int) * dev.quantum * dev.qset < dev.size ∧
      ∃ r, scull_read ⟨false, 1, none, none⟩ dev 1 1 ((4000000 : Nat) : Int) = some r ∧
        r.dev.data.length = 2 := by
  have hreach : ReachBelow (2 ^ 63) _ := ReachBelow.write _ _ _ _ _ _ ReachBelow.init
    (by norm_num) (by norm_num) (by norm_num) wrapped_write
  refine ⟨_, hreach, by simp, ?_, ?_⟩
  · simp only [List.length_set, List.length_singleton]
    decide
  · refine ⟨_, scull_read_absent ⟨false, 1, none, none⟩ _ 1 1 _ rfl (by decide) (by decide)
      (by decide), ?_⟩
    simp only [List.length_append, List.length_replicate, List.length_set]
    decide

/-- C16 (capacity), amended: in every device reachable from a freshly
initialised one by calls of `write` at offsets whose node index
`offset / (4000 * 1000)` fits an `int` (offsets below `2^31 * 4000000`) and
by calls of `read`, `trim` and `open`, `quantum = 4000`, `qset = 1000` and
`size ≤ (number of nodes) * quantum * qset`; hence for every offset
`p < size` the node `p / (quantum * qset)` that the code addresses is in the
chain, and a `read` at `p` leaves the chain as it is. -/
theorem capacity_bound (dev : scull_dev) (h : ReachBelow (2 ^ 31 * (4000 * 1000)) dev) :
    dev.quantum = 4000 ∧ dev.qset = 1000 ∧
    (dev.size : Int) ≤ (dev.data.length : Int) * dev.quantum * dev.qset ∧
    ∀ p, p < dev.size →
      p / (4000 * 1000) < dev.data.length ∧
      (pos_item dev (p : Int) % 2 ^ 32).toNat = p / (4000 * 1000) ∧
      ∀ (k : Kernel) (cap count : Nat) (r : ReadRet),
        scull_read k dev cap count (p : Int) = some r → r.dev.data = dev.data := by
  have hinv := cap_inv_of_reach dev h
  obtain ⟨iq, is, icap, ilen⟩ := hinv
  refine ⟨iq, is, ?_, ?_⟩
  · rw [iq, is]
    have : ((dev.size : Nat) : Int) ≤ ((dev.data.length * (4000 * 1000) : Nat) : Int) :=
      Int.ofNat_le.mpr icap
    push_cast at this
    omega
  · intro p hp
    have hpl : p / (4000 * 1000) < dev.data.length := by omega
    refine ⟨hpl, item_iter dev 4000 1000 p iq is (by norm_num) (by omega), ?_⟩
    intro k cap count r hr
    exact (cap_inv_read k dev cap count p r ⟨iq, is, icap, ilen⟩ (by omega) hr).2 hp

theorem capacity_bound_witness :
    ∃ dev, ReachBelow (2 ^ 31 * (4000 * 1000)) dev ∧ dev.size = 1 ∧
      (dev.size : Int) ≤ (dev.data.length : Int) * dev.quantum * dev.qset :=
  have hreach : ReachBelow (2 ^ 31 * (4000 * 1000)) _ :=
    ReachBelow.write _ _ _ _ _ _ ReachBelow.init (by norm_num) (by norm_num) (by norm_num)
      write_at_zero
  ⟨_, hreach, by decide, (capacity_bound _ hreach).2.2.1⟩

/-! # Claim C2: a read stays below `size` -/

end Scull
